import Mathlib

/-!
# A verification development for `queue.c`

A shallow embedding of the singly linked queue of `queue.c` over an explicit
heap, and theorems about its operations.

Modelling conventions.

* A pointer to a list element is `Option Ptr`: `none` is `NULL`, `some a` is the
  address `a`.  The heap maps the addresses of the live list elements to their
  contents.
* A `char *` is `Option (List Nat)`: `none` is `NULL`, `some b` is the object the
  pointer points to, as the list of its bytes.  A C string is such an object
  holding a terminator (a byte `0`); its text is the bytes before the first
  terminator.
* The `queue_t` object is passed by value: an operation takes the old contents
  and returns the new ones; `none` is the `NULL` queue pointer.
* `malloc` is an oracle: every call that allocates takes, as an argument, what
  the allocator answers.
* An execution is a value of `Exec`: either a result, or `Fault.undefined` when
  the C program has undefined behaviour (a `NULL` dereference, an access outside
  an object), or `Fault.fuel` when a loop of the model ran out of its bound, or
  `Fault.oracle` when the allocator oracle is not a possible answer of `malloc`.
* `int size` is an integer between `-2^31` and `INT_MAX = 2^31 - 1`: the
  statements `q->size++` and `q->size--` wrap modulo `2^32` (`wrap_int`), as the
  compiled code does (ISO C leaves the overflow of an `int` undefined).
  `size_t` subtraction wraps modulo `2^64`.
-/

namespace Lab0

/-! ## Executions -/

/-- Reasons for an execution not to produce a result. -/
inductive Fault where
  | undefined : Fault
  | fuel : Fault
  | oracle : Fault
  deriving DecidableEq, Repr

/-- An execution: a fault or a result. -/
abbrev Exec (α : Type) := Except Fault α

/-! ## Data model -/

/-- An address of a list element. -/
abbrev Ptr := Nat

/-- The linked list element `list_ele_t` (declared in `queue.h`): a `char *value`
and a `struct ELE *next`. -/
structure list_ele_t where
  value : Option (List Nat)
  next : Option Ptr
  deriving DecidableEq, Repr

/-- The queue structure `queue_t` (declared in `queue.h`): `head`, `tail`, and the
`int size`, whose values the code keeps between `-2^31` and `INT_MAX`. -/
structure queue_t where
  head : Option Ptr
  tail : Option Ptr
  size : Int
  deriving DecidableEq, Repr

/-- The heap of list elements. -/
abbrev Heap := Ptr → Option list_ele_t

/-- The heap without any list element. -/
def Heap.empty : Heap := fun _ => none

/-- Store an element at an address. -/
def Heap.set (h : Heap) (p : Ptr) (n : list_ele_t) : Heap :=
  fun a => if a = p then some n else h a

/-- Release an address: `free`. -/
def Heap.free (h : Heap) (p : Ptr) : Heap :=
  fun a => if a = p then none else h a

/-- Read the element a pointer points to: `p->...`.  Undefined for `NULL` and for
an address that is not live. -/
def deref (h : Heap) : Option Ptr → Exec list_ele_t
  | none => .error .undefined
  | some a =>
    match h a with
    | none => .error .undefined
    | some n => .ok n

/-- The assignment `p->next = v`. -/
def set_next (h : Heap) (p : Option Ptr) (v : Option Ptr) : Exec Heap := do
  let n ← deref h p
  match p with
  | none => .error .undefined
  | some a => pure (h.set a { n with next := v })

/-- Use of a `char *` as an object: undefined for `NULL`. -/
def chars : Option (List Nat) → Exec (List Nat)
  | none => .error .undefined
  | some b => .ok b

/-! ## The C library functions used by `queue.c` -/

/-- The constant `INT_MAX` of a 32-bit `int`. -/
def INT_MAX : Int := 2147483647

/-- The value of type `int` an integer is stored as: the integer modulo `2^32` that
lies between `-2^31` and `INT_MAX`. -/
def wrap_int (n : Int) : Int := (n + 2147483648) % 4294967296 - 2147483648

/-- The constant `SIZE_MAX` of a 64-bit `size_t`. -/
def SIZE_MAX : Nat := 2 ^ 64 - 1

/-- The function `strlen`: the number of bytes before the first terminator.  Undefined when
the object has no terminator. -/
def strlen : List Nat → Exec Nat
  | [] => .error .undefined
  | c :: cs => if c = 0 then .ok 0 else do
      let n ← strlen cs
      pure (n + 1)

/-- The zero padding of `strncpy`: `n` bytes `0` written at the front of `dst`. -/
def zero_fill : List Nat → Nat → Exec (List Nat)
  | dst, 0 => .ok dst
  | [], _ + 1 => .error .undefined
  | _ :: dst, n + 1 => do
      let r ← zero_fill dst n
      pure (0 :: r)

/-- The call `strncpy(dst, src, n)`: writes exactly `n` bytes at the front of `dst`, the
bytes of `src` up to and including its terminator, then zeros.  Undefined when
`dst` has fewer than `n` bytes or `src` ends before a terminator or `n` bytes. -/
def strncpy : List Nat → List Nat → Nat → Exec (List Nat)
  | dst, _, 0 => .ok dst
  | [], _, _ + 1 => .error .undefined
  | _ :: _, [], _ + 1 => .error .undefined
  | _ :: dst, c :: src, n + 1 =>
      if c = 0 then do
        let r ← zero_fill dst n
        pure (0 :: r)
      else do
        let r ← strncpy dst src n
        pure (c :: r)

/-- The assignment `buf[i] = c`.  Undefined outside the object. -/
def store_byte (buf : List Nat) (i : Nat) (c : Nat) : Exec (List Nat) :=
  if i < buf.length then .ok (buf.set i c) else .error .undefined

/-- The function `strcmp`: the difference of the first two bytes that differ, `0` when the
strings are equal.  Undefined when an object ends before the comparison does. -/
def strcmp : List Nat → List Nat → Exec Int
  | [], _ => .error .undefined
  | _ :: _, [] => .error .undefined
  | a :: as, b :: bs =>
      if a ≠ b then .ok ((a : Int) - (b : Int))
      else if a = 0 then .ok 0
      else strcmp as bs

/-- The call `malloc(sizeof(list_ele_t))`: the oracle `r` is the answer, `NULL` or an
address, which is not the address of a live element. -/
def malloc_ele (h : Heap) (r : Option Ptr) : Exec (Option Ptr) :=
  match r with
  | none => .ok none
  | some a => if (h a).isNone then .ok (some a) else .error .oracle

/-- The call `malloc(n * sizeof(char))`: the oracle is `none` for `NULL`, or gives the
indeterminate initial contents of the `n` bytes, byte by byte. -/
def malloc_chars (n : Nat) (r : Option (Nat → Nat)) : Option (List Nat) :=
  r.map (fun f => (List.range n).map f)

/-! ## `queue.c` -/

/-- The function `q_new`: the oracle `ok` tells whether `malloc` succeeds. -/
def q_new (ok : Bool) : Option queue_t :=
  if ok then some { head := none, tail := none, size := 0 } else none

/-- The part of `q_insert_head` and `q_insert_tail` that builds the value of the
new element: lines 54-64 and 92-102.  The result is `none` when the allocation
of the copy fails, and otherwise the `value` field of the new element. -/
def copy_value (s : Option (List Nat)) (vr : Option (Nat → Nat)) :
    Exec (Option (Option (List Nat))) :=
  match s with
  | none => .ok (some none)
  | some sb => do
      let len ← strlen sb
      match malloc_chars (len + 1) vr with
      | none => pure none
      | some value => do
          let value ← strncpy value sb len
          let value ← store_byte value len 0
          pure (some (some value))

/-- The function `q_insert_head(q, s)`; `er` and `vr` are the answers of the two `malloc`s. -/
def q_insert_head (h : Heap) (q : Option queue_t) (s : Option (List Nat))
    (er : Option Ptr) (vr : Option (Nat → Nat)) : Exec (Bool × Heap × Option queue_t) :=
  match q with
  | none => .ok (false, h, q)
  | some qv => do
      let newh ← malloc_ele h er
      match newh with
      | none => pure (false, h, q)
      | some a => do
          let v ← copy_value s vr
          match v with
          | none => pure (false, h, q)
          | some value =>
              let h1 := h.set a { value := value, next := qv.head }
              let tail := if qv.tail.isNone then some a else qv.tail
              pure (true, h1,
                some { head := some a, tail := tail, size := wrap_int (qv.size + 1) })

/-- The function `q_insert_tail(q, s)`; `er` and `vr` are the answers of the two `malloc`s. -/
def q_insert_tail (h : Heap) (q : Option queue_t) (s : Option (List Nat))
    (er : Option Ptr) (vr : Option (Nat → Nat)) : Exec (Bool × Heap × Option queue_t) :=
  match q with
  | none => .ok (false, h, q)
  | some qv => do
      let newh ← malloc_ele h er
      match newh with
      | none => pure (false, h, q)
      | some a => do
          let v ← copy_value s vr
          match v with
          | none => pure (false, h, q)
          | some value =>
              let h1 := h.set a { value := value, next := none }
              match qv.head with
              | none =>
                  pure (true, h1,
                    some { head := some a, tail := some a, size := wrap_int (qv.size + 1) })
              | some _ => do
                  let h2 ← set_next h1 qv.tail (some a)
                  pure (true, h2,
                    some { head := qv.head, tail := some a, size := wrap_int (qv.size + 1) })

/-- The result of `q_remove_head`: the returned value, the heap, the queue and
the buffer `sp`. -/
structure RemoveResult where
  ret : Bool
  heap : Heap
  q : Option queue_t
  sp : Option (List Nat)

/-- The copy of the removed value to `sp`: lines 128-134. -/
def copy_out (value : Option (List Nat)) (sp : Option (List Nat)) (bufsize : Nat) :
    Exec (Option (List Nat)) :=
  match sp with
  | none => .ok none
  | some buf => do
      let v ← chars value
      let len ← strlen v
      let tmp := if bufsize > len + 1 then len + 1 else bufsize
      let buf ← strncpy buf v tmp
      let buf ← store_byte buf ((tmp + SIZE_MAX) % (SIZE_MAX + 1)) 0
      pure (some buf)

/-- The function `q_remove_head(q, sp, bufsize)`. -/
def q_remove_head (h : Heap) (q : Option queue_t) (sp : Option (List Nat)) (bufsize : Nat) :
    Exec RemoveResult :=
  match q with
  | none => .ok { ret := false, heap := h, q := q, sp := sp }
  | some qv =>
    match qv.head with
    | none => .ok { ret := false, heap := h, q := q, sp := sp }
    | some a => do
        let e ← deref h (some a)
        let sp1 ← copy_out e.value sp bufsize
        let tail := if qv.tail = qv.head then none else qv.tail
        pure { ret := true, heap := h.free a,
               q := some { head := e.next, tail := tail, size := wrap_int (qv.size - 1) },
               sp := sp1 }

/-- The loop of `q_free`: releases the element at `head` and goes on with its
`next`, at most `fuel` times. -/
def free_loop : Nat → Heap → Option Ptr → Exec Heap
  | fuel, h, head =>
    match head with
    | none => .ok h
    | some a =>
      match fuel with
      | 0 => .error .fuel
      | fuel + 1 => do
          let e ← deref h (some a)
          free_loop fuel (h.free a) e.next

/-- The function `q_free(q)`: reads `q->head` without a test of `q`. -/
def q_free (fuel : Nat) (h : Heap) (q : Option queue_t) : Exec Heap :=
  match q with
  | none => .error .undefined
  | some qv => free_loop fuel h qv.head

/-- The function `q_size(q)`: `return q->size;`, without a test of `q`. -/
def q_size (q : Option queue_t) : Exec Int :=
  match q with
  | none => .error .undefined
  | some qv => .ok qv.size

/-- The loop `while (next)` of `q_reverse`, at most `fuel` iterations; the
result is the heap and the pointers `pre` and `now`. -/
def reverse_loop : Nat → Heap → Option Ptr → Option Ptr → Option Ptr →
    Exec (Heap × Option Ptr × Option Ptr)
  | fuel, h, pre, now, next =>
    match next with
    | none => .ok (h, pre, now)
    | some _ =>
      match fuel with
      | 0 => .error .fuel
      | fuel + 1 => do
          let h1 ← set_next h now pre
          let ne ← deref h1 next
          reverse_loop fuel h1 now next ne.next

/-- The function `q_reverse(q)`. -/
def q_reverse (fuel : Nat) (h : Heap) (q : Option queue_t) : Exec (Heap × Option queue_t) :=
  match q with
  | none => .ok (h, q)
  | some qv =>
    match qv.head with
    | none => .ok (h, q)
    | some _ =>
      if qv.head = qv.tail then .ok (h, q)
      else do
        let e ← deref h qv.head
        let e1 ← deref h e.next
        let (h1, pre, now) ← reverse_loop fuel h qv.head e.next e1.next
        let h2 ← set_next h1 now pre
        let h3 ← set_next h2 qv.head none
        pure (h3, some { qv with head := now, tail := qv.head })

/-- The state of the loop of `merge`: the heap and the four local pointers. -/
structure MergeState where
  heap : Heap
  left : Option Ptr
  right : Option Ptr
  head : Option Ptr
  tail : Option Ptr

/-- The loop `while (left && right)` of `merge`, at most `fuel` iterations. -/
def merge_loop : Nat → MergeState → Exec MergeState
  | fuel, st =>
    match st.left, st.right with
    | some l, some r =>
      match fuel with
      | 0 => .error .fuel
      | fuel + 1 => do
          let le ← deref st.heap (some l)
          let re ← deref st.heap (some r)
          let lv ← chars le.value
          let rv ← chars re.value
          let c ← strcmp lv rv
          if c ≤ 0 then
            match st.head with
            | none =>
                merge_loop fuel { st with head := some l, tail := some l, left := le.next }
            | some _ => do
                let h1 ← set_next st.heap st.tail (some l)
                let le1 ← deref h1 (some l)
                merge_loop fuel { st with heap := h1, tail := some l, left := le1.next }
          else
            match st.head with
            | none =>
                merge_loop fuel { st with head := some r, tail := some r, right := re.next }
            | some _ => do
                let h1 ← set_next st.heap st.tail (some r)
                let re1 ← deref h1 (some r)
                merge_loop fuel { st with heap := h1, tail := some r, right := re1.next }
    | _, _ => .ok st

/-- The end of `merge`, after the loop: lines 223-229. -/
def merge_finish (st : MergeState) : Exec (Heap × Option Ptr) := do
  let h1 ← match st.left with
    | none => pure st.heap
    | some _ => set_next st.heap st.tail st.left
  let h2 ← match st.right with
    | none => pure h1
    | some _ => set_next h1 st.tail st.right
  pure (h2, st.head)

/-- The function `merge(left, right)`. -/
def merge (fuel : Nat) (h : Heap) (left right : Option Ptr) : Exec (Heap × Option Ptr) := do
  let st ← merge_loop fuel { heap := h, left := left, right := right, head := none, tail := none }
  merge_finish st

/-- The loop `while (fast && fast->next)` of `merge_sort`; the result is `slow`. -/
def split_loop : Nat → Heap → Option Ptr → Option Ptr → Exec (Option Ptr)
  | fuel, h, fast, slow =>
    match fast with
    | none => .ok slow
    | some f =>
      match deref h (some f) with
      | .error e => .error e
      | .ok fe =>
        match fe.next with
        | none => .ok slow
        | some g =>
          match fuel with
          | 0 => .error .fuel
          | fuel + 1 => do
              let ge ← deref h (some g)
              let se ← deref h slow
              split_loop fuel h ge.next se.next

/-- The function `merge_sort(head)`: the recursion depth and each loop are bounded by `fuel`. -/
def merge_sort : Nat → Heap → Option Ptr → Exec (Heap × Option Ptr)
  | 0, _, _ => .error .fuel
  | fuel + 1, h, head =>
    match head with
    | none => .ok (h, head)
    | some a => do
        let e ← deref h (some a)
        match e.next with
        | none => pure (h, head)
        | some _ => do
            let slow ← split_loop fuel h e.next head
            let se ← deref h slow
            let fast := se.next
            let h1 ← set_next h slow none
            let (h2, left) ← merge_sort fuel h1 head
            let (h3, right) ← merge_sort fuel h2 fast
            merge fuel h3 left right

/-- The loop `while (q->tail->next) q->tail = q->tail->next;` of `q_sort`. -/
def tail_walk : Nat → Heap → Option Ptr → Exec (Option Ptr)
  | fuel, h, tail =>
    match deref h tail with
    | .error e => .error e
    | .ok te =>
      match te.next with
      | none => .ok tail
      | some _ =>
        match fuel with
        | 0 => .error .fuel
        | fuel + 1 => tail_walk fuel h te.next

/-- The function `q_sort(q)`. -/
def q_sort (fuel : Nat) (h : Heap) (q : Option queue_t) : Exec (Heap × Option queue_t) :=
  match q with
  | none => .ok (h, q)
  | some qv =>
    match qv.head with
    | none => .ok (h, q)
    | some _ => do
        let (h1, head) ← merge_sort fuel h qv.head
        let tail ← tail_walk fuel h1 qv.tail
        pure (h1, some { qv with head := head, tail := tail })

/-! ## Specification vocabulary -/

/-- The text of a C string object: the bytes before the first terminator. -/
def text (b : List Nat) : List Nat := b.takeWhile (fun c => c ≠ 0)

/-- The chain of list elements from pointer `p` to `NULL` visits exactly the
addresses `l`, in this order. -/
def Chain (h : Heap) : Option Ptr → List Ptr → Prop
  | none, [] => True
  | some a, b :: l => a = b ∧ ∃ e, h a = some e ∧ Chain h e.next l
  | _, _ => False

/-- The elements at the addresses `l` are linked in this order from pointer
`p`, and the `next` of the last one is `q`. -/
def Seg (h : Heap) : Option Ptr → List Ptr → Option Ptr → Prop
  | p, [], q => p = q
  | p, a :: l, q => p = some a ∧ ∃ e, h a = some e ∧ Seg h e.next l q

/-- The values of the elements at the addresses `l`. -/
def values (h : Heap) (l : List Ptr) : List (Option (List Nat)) :=
  l.map (fun a => (h a).bind (fun e => e.value))

/-- The queue invariant: the chain from `head` visits the elements `l` and ends
at `NULL`, `tail` is the last of them, `size` is their number, a value of `int`. -/
def QueueInv (h : Heap) (q : queue_t) (l : List Ptr) : Prop :=
  Chain h q.head l ∧ q.tail = l.getLast? ∧ q.size = (l.length : Int) ∧ q.size ≤ INT_MAX

/-- The queue invariant without the bound on the number of elements: `size` is
their number as the `int` it is stored as. -/
def QueueInvMod (h : Heap) (q : queue_t) (l : List Ptr) : Prop :=
  Chain h q.head l ∧ q.tail = l.getLast? ∧ q.size = wrap_int (l.length : Int)

/-- A call of one of the three operations that change the length of the queue,
with the answers of the allocator for the insertions. -/
inductive Op where
  | insert_head (s : Option (List Nat)) (er : Option Ptr) (vr : Option (Nat → Nat)) : Op
  | insert_tail (s : Option (List Nat)) (er : Option Ptr) (vr : Option (Nat → Nat)) : Op
  | remove_head (sp : Option (List Nat)) (bufsize : Nat) : Op

/-- One call on the current heap and queue. -/
def step (st : Heap × Option queue_t) : Op → Exec (Heap × Option queue_t)
  | .insert_head s er vr => do
      let r ← q_insert_head st.1 st.2 s er vr
      pure r.2
  | .insert_tail s er vr => do
      let r ← q_insert_tail st.1 st.2 s er vr
      pure r.2
  | .remove_head sp bufsize => do
      let r ← q_remove_head st.1 st.2 sp bufsize
      pure (r.heap, r.q)

/-- A finite sequence of calls, one after the other. -/
def run (st : Heap × Option queue_t) : List Op → Exec (Heap × Option queue_t)
  | [] => .ok st
  | op :: ops => do
      let st1 ← step st op
      run st1 ops

/-- The lexicographic order of texts, byte by byte. -/
def lex_le : List Nat → List Nat → Bool
  | [], _ => true
  | _ :: _, [] => false
  | a :: as, b :: bs => decide (a < b) || (decide (a = b) && lex_le as bs)

/-- The order of `strcmp` on C string objects: the comparison is defined and its
result is not positive. -/
def str_le (x y : List Nat) : Prop := ∃ c, strcmp x y = .ok c ∧ c ≤ 0

/-- The order of `strcmp` on values: both are C strings, and in order. -/
def value_le (x y : Option (List Nat)) : Prop :=
  ∃ v w, x = some v ∧ y = some w ∧ 0 ∈ v ∧ 0 ∈ w ∧ str_le v w

/-- Every element at the addresses `l` is live and holds a C string, whose text
is given by `key`. -/
def Keyed (h : Heap) (key : Ptr → List Nat) (l : List Ptr) : Prop :=
  ∀ a ∈ l, ∃ e v, h a = some e ∧ e.value = some v ∧ 0 ∈ v ∧ text v = key a

/-- Every element at the addresses `l` is live and holds a C string. -/
def AllStrings (h : Heap) (l : List Ptr) : Prop :=
  ∀ a ∈ l, ∃ e v, h a = some e ∧ e.value = some v ∧ 0 ∈ v

/-- The text of the value of the element at an address; empty where there is
no C string. -/
def key_of (h : Heap) (a : Ptr) : List Nat :=
  match h a with
  | some e =>
    match e.value with
    | some v => text v
    | none => []
  | none => []

/-- The two heaps have the same live addresses, with the same values. -/
def SameValues (h h1 : Heap) : Prop :=
  ∀ a, (h1 a).map (fun e => e.value) = (h a).map (fun e => e.value)

/-- The order in which `merge_sort` leaves the elements `l`, for the comparison
`le`: the first `(length + 1) / 2` elements and the others are put in order and
merged, the left one first on a tie.  The recursion depth is bounded by `fuel`. -/
def sort_list (le : Ptr → Ptr → Bool) : Nat → List Ptr → List Ptr
  | 0, l => l
  | fuel + 1, l =>
    if l.length ≤ 1 then l
    else List.merge (sort_list le fuel (l.take ((l.length + 1) / 2)))
      (sort_list le fuel (l.drop ((l.length + 1) / 2))) le

/-! ## Example data -/

/-- The bytes of `"cherry"` with the terminator. -/
def cherry : List Nat := [99, 104, 101, 114, 114, 121, 0]

/-- The bytes of `"banana"` with the terminator. -/
def banana : List Nat := [98, 97, 110, 97, 110, 97, 0]

/-- The bytes of `"apple"` with the terminator. -/
def apple : List Nat := [97, 112, 112, 108, 101, 0]

/-- A heap with the chain `1 -> 2 -> 3` holding `"cherry"`, `"banana"`, `"apple"`. -/
def heap3 : Heap := fun a =>
  if a = 1 then some { value := some cherry, next := some 2 }
  else if a = 2 then some { value := some banana, next := some 3 }
  else if a = 3 then some { value := some apple, next := none }
  else none

/-- The queue on the chain of `heap3`. -/
def queue3 : queue_t := { head := some 1, tail := some 3, size := 3 }

/-- Indeterminate contents for a new array of characters. -/
def junk : Nat → Nat := fun _ => 170

/-- A sequence of calls: `q_insert_tail("banana")`, `q_insert_head("cherry")`, a
`q_insert_head` whose allocation fails, `q_remove_head` without a buffer. -/
def calls4 : List Op :=
  [Op.insert_tail (some banana) (some 1) (some junk),
   Op.insert_head (some cherry) (some 2) (some junk),
   Op.insert_head (some apple) none none,
   Op.remove_head none 0]

/-- The heap after `calls4` from the empty heap. -/
def heap_end : Heap :=
  ((Heap.empty.set 1 { value := some banana, next := none }).set 2
    { value := some cherry, next := some 1 }).free 2

/-- The queue after `calls4` from the new queue. -/
def queue_end : queue_t := { head := some 1, tail := some 1, size := 1 }

/-- A heap with the chain `3 -> 2 -> 1` holding `"apple"`, `"banana"`, `"cherry"`. -/
def heap3s : Heap := fun a =>
  if a = 1 then some { value := some cherry, next := none }
  else if a = 2 then some { value := some banana, next := some 1 }
  else if a = 3 then some { value := some apple, next := some 2 }
  else none

/-- The queue on the chain of `heap3s`. -/
def queue3s : queue_t := { head := some 3, tail := some 1, size := 3 }

/-- A heap with the single element `7` holding `"apple"`. -/
def heap1 : Heap := fun a =>
  if a = 7 then some { value := some apple, next := none } else none

/-- The queue on the single element of `heap1`. -/
def queue1 : queue_t := { head := some 7, tail := some 7, size := 1 }

/-- A heap with the chain `2 -> 1`: the element `2` holds the `NULL` value, the
element `1` holds `"apple"`. -/
def heap_null : Heap :=
  (Heap.empty.set 1 { value := some apple, next := none }).set 2
    { value := none, next := some 1 }

/-- The queue on the chain of `heap_null`. -/
def queue_null : queue_t := { head := some 2, tail := some 1, size := 2 }

/-- The calls `q_insert_head("apple")`, `q_insert_head(NULL)`, the allocator
answering the addresses `1` and `2`. -/
def calls_null : List Op :=
  [Op.insert_head (some apple) (some 1) (some junk), Op.insert_head none (some 2) none]

/-- A heap with the chain `0 -> 1 -> ... -> n - 1`, every element holding
`"apple"`. -/
def long_heap (n : Nat) : Heap := fun a =>
  if a < n then some { value := some apple, next := if a + 1 < n then some (a + 1) else none }
  else none

/-- The queue on the chain of `long_heap n`, with the `size` that `n` insertions
into the new queue leave. -/
def long_queue (n : Nat) : queue_t :=
  { head := if 0 < n then some 0 else none, tail := if 0 < n then some (n - 1) else none,
    size := wrap_int (n : Int) }

/-- The calls `q_insert_tail("apple")`, `n` times, the allocator answering the
addresses `0`, `1`, ..., `n - 1`. -/
def appends (n : Nat) : List Op :=
  (List.range n).map (fun a => Op.insert_tail (some apple) (some a) (some junk))

/-- The comparison of two values by `merge`: line 203,
`strcmp(left->value, right->value)`. -/
def compare_values (x y : Option (List Nat)) : Exec Int := do
  let lv ← chars x
  let rv ← chars y
  strcmp lv rv

/-! ## Executions: rewriting rules -/

@[simp] theorem ok_bind {α β : Type} (a : α) (f : α → Exec β) :
    (Except.ok a >>= f) = f a := rfl

@[simp] theorem error_bind {α β : Type} (e : Fault) (f : α → Exec β) :
    ((Except.error e : Exec α) >>= f) = Except.error e := rfl

@[simp] theorem pure_eq_ok {α : Type} (a : α) : (pure a : Exec α) = Except.ok a := rfl

/-! ## C strings -/

theorem text_nil : text [] = [] := rfl

theorem text_cons_zero (cs : List Nat) : text (0 :: cs) = [] := by
  simp [text]

theorem text_cons_ne (c : Nat) (cs : List Nat) (hc : c ≠ 0) : text (c :: cs) = c :: text cs := by
  simp [text, List.takeWhile_cons, hc]

theorem text_not_mem (b : List Nat) : 0 ∉ text b := by
  intro hm
  have := List.mem_takeWhile_imp hm
  simp at this

theorem text_append_zero (cs rest : List Nat) (h0 : 0 ∉ cs) : text (cs ++ 0 :: rest) = cs := by
  induction cs with
  | nil => simp [text]
  | cons c cs ih =>
    have hc : c ≠ 0 := fun hc => h0 (by simp [hc])
    have h1 : 0 ∉ cs := fun hm => h0 (List.mem_cons_of_mem _ hm)
    rw [List.cons_append, text_cons_ne _ _ hc, ih h1]

theorem strlen_eq (b : List Nat) (hb : 0 ∈ b) : strlen b = .ok (text b).length := by
  induction b with
  | nil => simp at hb
  | cons c cs ih =>
    by_cases hc : c = 0
    · subst hc
      simp [strlen, text_cons_zero]
    · have h1 : 0 ∈ cs := by
        rcases List.mem_cons.1 hb with h | h
        · exact absurd h.symm hc
        · exact h
      simp [strlen, hc, ih h1, text_cons_ne _ _ hc]

theorem strlen_ok_iff (b : List Nat) : (∃ n, strlen b = .ok n) ↔ 0 ∈ b := by
  constructor
  · induction b with
    | nil => simp [strlen]
    | cons c cs ih =>
      by_cases hc : c = 0
      · intro _; simp [hc]
      · rintro ⟨n, hn⟩
        simp only [strlen, hc, if_false] at hn
        cases hs : strlen cs with
        | error e => simp [hs] at hn
        | ok m => exact List.mem_cons_of_mem _ (ih ⟨m, hs⟩)
  · intro hb
    exact ⟨_, strlen_eq b hb⟩

theorem strncpy_short (src : List Nat) :
    ∀ (n : Nat) (dst : List Nat), n ≤ (text src).length → n ≤ dst.length →
      strncpy dst src n = .ok ((text src).take n ++ dst.drop n) := by
  induction src with
  | nil =>
    intro n dst hn _
    have : n = 0 := by simpa [text] using hn
    subst this
    cases dst <;> simp [strncpy]
  | cons c cs ih =>
    intro n dst hn hd
    cases n with
    | zero => cases dst <;> simp [strncpy]
    | succ n =>
      by_cases hc : c = 0
      · subst hc
        simp [text_cons_zero] at hn
      · rw [text_cons_ne _ _ hc] at hn ⊢
        cases dst with
        | nil => simp at hd
        | cons d dst =>
          simp only [List.length_cons, Nat.add_le_add_iff_right] at hn hd
          simp [strncpy, hc, ih n dst hn hd]

theorem strncpy_full (src : List Nat) (hs : 0 ∈ src) :
    ∀ (dst : List Nat), (text src).length < dst.length →
      strncpy dst src ((text src).length + 1)
        = .ok (text src ++ 0 :: dst.drop ((text src).length + 1)) := by
  induction src with
  | nil => simp at hs
  | cons c cs ih =>
    intro dst hd
    cases dst with
    | nil => simp at hd
    | cons d dst =>
      by_cases hc : c = 0
      · subst hc
        simp [text_cons_zero, strncpy, zero_fill]
      · have h1 : 0 ∈ cs := by
          rcases List.mem_cons.1 hs with h | h
          · exact absurd h.symm hc
          · exact h
        rw [text_cons_ne _ _ hc] at hd ⊢
        simp only [List.length_cons, Nat.add_lt_add_iff_right] at hd
        simp [strncpy, hc, ih h1 dst hd]

theorem copy_value_null (vr : Option (Nat → Nat)) : copy_value none vr = .ok (some none) := rfl

theorem copy_value_fail (s : List Nat) (hs : 0 ∈ s) : copy_value (some s) none = .ok none := by
  simp [copy_value, strlen_eq s hs, malloc_chars]

theorem copy_value_ok (s : List Nat) (hs : 0 ∈ s) (f : Nat → Nat) :
    copy_value (some s) (some f) = .ok (some (some (text s ++ [0]))) := by
  simp only [copy_value, strlen_eq s hs, ok_bind, malloc_chars, Option.map_some']
  rw [strncpy_short s _ _ (le_refl _) (by simp)]
  simp only [ok_bind, store_byte]
  rw [if_pos (by simp)]
  simp only [pure_eq_ok]
  simp only [List.take_length]
  rw [List.set_append_right _ _ (by simp)]
  simp
  cases hd : List.drop (text s).length (List.map f (List.range ((text s).length + 1))) with
  | nil =>
    have := congrArg List.length hd
    simp at this
  | cons x xs =>
    have := congrArg List.length hd
    simp at this
    subst this
    simp

theorem set_take_succ (t : List Nat) :
    ∀ (k : Nat) (rest : List Nat), k < t.length →
      (t.take (k + 1) ++ rest).set k 0 = t.take k ++ 0 :: rest := by
  induction t with
  | nil => intro k rest hk; simp at hk
  | cons c cs ih =>
    intro k rest hk
    cases k with
    | zero => simp
    | succ k =>
      simp only [List.length_cons, Nat.add_lt_add_iff_right] at hk
      simp [ih k rest hk]

theorem wrap_pred (n : Nat) (h1 : 1 ≤ n) (h2 : n ≤ SIZE_MAX) :
    (n + SIZE_MAX) % (SIZE_MAX + 1) = n - 1 := by
  unfold SIZE_MAX at *
  omega

theorem copy_out_spec (v buf : List Nat) (c : Nat) (hv : 0 ∈ v) (h1 : 1 ≤ c)
    (h2 : c ≤ buf.length) (h3 : c ≤ SIZE_MAX) :
    copy_out (some v) (some buf) c
      = .ok (some ((text v).take (min (text v).length (c - 1))
          ++ 0 :: buf.drop (min (text v).length (c - 1) + 1))) := by
  simp only [copy_out, chars, ok_bind, strlen_eq v hv]
  by_cases hc : c > (text v).length
  · have hk : min (text v).length (c - 1) = (text v).length := by omega
    have htmp : (if c > (text v).length + 1 then (text v).length + 1 else c)
        = (text v).length + 1 := by
      split <;> omega
    rw [htmp, hk, strncpy_full v hv buf (by omega)]
    simp only [ok_bind]
    rw [wrap_pred _ (by omega) (by omega)]
    simp only [store_byte, Nat.add_sub_cancel]
    rw [if_pos (by simp)]
    simp only [pure_eq_ok]
    rw [List.set_append_right _ _ (by simp)]
    simp
  · have hk : min (text v).length (c - 1) = c - 1 := by omega
    have htmp : (if c > (text v).length + 1 then (text v).length + 1 else c) = c := by
      split <;> omega
    rw [htmp, hk, strncpy_short v c buf (by omega) h2]
    simp only [ok_bind]
    rw [wrap_pred _ h1 h3]
    obtain ⟨k, rfl⟩ : ∃ k, c = k + 1 := ⟨c - 1, by omega⟩
    simp only [store_byte, Nat.add_sub_cancel]
    rw [if_pos (by simp; omega)]
    simp only [pure_eq_ok]
    rw [set_take_succ _ k _ (by omega)]
    rfl

/-! ## Heaps and chains -/

@[simp] theorem Heap.set_same (h : Heap) (p : Ptr) (n : list_ele_t) : h.set p n p = some n := by
  simp [Heap.set]

theorem Heap.set_other (h : Heap) (p a : Ptr) (n : list_ele_t) (hne : a ≠ p) :
    h.set p n a = h a := by
  simp [Heap.set, hne]

@[simp] theorem Heap.free_same (h : Heap) (p : Ptr) : h.free p p = none := by
  simp [Heap.free]

theorem Heap.free_other (h : Heap) (p a : Ptr) (hne : a ≠ p) : h.free p a = h a := by
  simp [Heap.free, hne]

theorem deref_some (h : Heap) (a : Ptr) (e : list_ele_t) (he : h a = some e) :
    deref h (some a) = .ok e := by
  simp [deref, he]

theorem set_next_some (h : Heap) (a : Ptr) (e : list_ele_t) (v : Option Ptr)
    (he : h a = some e) : set_next h (some a) v = .ok (h.set a { e with next := v }) := by
  simp [set_next, deref, he]

@[simp] theorem chain_none_nil (h : Heap) : Chain h none [] := by
  simp [Chain]

theorem chain_cons_iff (h : Heap) (p : Option Ptr) (a : Ptr) (l : List Ptr) :
    Chain h p (a :: l) ↔ p = some a ∧ ∃ e, h a = some e ∧ Chain h e.next l := by
  cases p with
  | none => simp [Chain]
  | some b =>
    simp only [Chain, Option.some.injEq]
    constructor
    · rintro ⟨rfl, e, he, hc⟩
      exact ⟨rfl, e, he, hc⟩
    · rintro ⟨rfl, e, he, hc⟩
      exact ⟨rfl, e, he, hc⟩

theorem chain_nil_iff (h : Heap) (p : Option Ptr) : Chain h p [] ↔ p = none := by
  cases p <;> simp [Chain]

theorem chain_head (h : Heap) (p : Option Ptr) (l : List Ptr) (hc : Chain h p l) :
    p = l.head? := by
  cases l with
  | nil => simpa [chain_nil_iff] using hc
  | cons a l => simpa using ((chain_cons_iff h p a l).1 hc).1

theorem chain_live (h : Heap) : ∀ (l : List Ptr) (p : Option Ptr), Chain h p l →
    ∀ a ∈ l, ∃ e, h a = some e := by
  intro l
  induction l with
  | nil => intro p _ a ha; simp at ha
  | cons b l ih =>
    intro p hc a ha
    obtain ⟨_, e, he, hc1⟩ := (chain_cons_iff h p b l).1 hc
    rcases List.mem_cons.1 ha with rfl | ha
    · exact ⟨e, he⟩
    · exact ih _ hc1 a ha

theorem chain_frame (h h1 : Heap) : ∀ (l : List Ptr) (p : Option Ptr),
    (∀ a ∈ l, h1 a = h a) → Chain h p l → Chain h1 p l := by
  intro l
  induction l with
  | nil => intro p _ hc; simpa [chain_nil_iff] using hc
  | cons b l ih =>
    intro p hf hc
    obtain ⟨hp, e, he, hc1⟩ := (chain_cons_iff h p b l).1 hc
    refine (chain_cons_iff h1 p b l).2 ⟨hp, e, ?_, ?_⟩
    · rw [hf b (List.mem_cons_self _ _)]; exact he
    · exact ih _ (fun a ha => hf a (List.mem_cons_of_mem _ ha)) hc1

theorem chain_unique (h : Heap) : ∀ (l l1 : List Ptr) (p : Option Ptr),
    Chain h p l → Chain h p l1 → l = l1 := by
  intro l
  induction l with
  | nil =>
    intro l1 p hc hc1
    have hp := (chain_nil_iff h p).1 hc
    subst hp
    cases l1 with
    | nil => rfl
    | cons b l1 => simp [Chain] at hc1
  | cons a l ih =>
    intro l1 p hc hc1
    obtain ⟨hp, e, he, hc2⟩ := (chain_cons_iff h p a l).1 hc
    subst hp
    cases l1 with
    | nil => simp [Chain] at hc1
    | cons b l1 =>
      obtain ⟨hp1, e1, he1, hc3⟩ := (chain_cons_iff h _ b l1).1 hc1
      have hab : a = b := by simpa using hp1
      subst hab
      have : e = e1 := by simpa [he] using he1
      subst this
      rw [ih l1 _ hc2 hc3]

theorem chain_append (h : Heap) : ∀ (l1 l2 : List Ptr) (p : Option Ptr),
    Chain h p (l1 ++ l2) → ∃ p1, Chain h p1 l2 := by
  intro l1
  induction l1 with
  | nil => intro l2 p hc; exact ⟨p, hc⟩
  | cons a l1 ih =>
    intro l2 p hc
    obtain ⟨_, e, _, hc1⟩ := (chain_cons_iff h p a (l1 ++ l2)).1 hc
    exact ih l2 _ hc1

theorem chain_nodup (h : Heap) : ∀ (l : List Ptr) (p : Option Ptr), Chain h p l → l.Nodup := by
  intro l
  induction l with
  | nil => intro _ _; exact List.nodup_nil
  | cons a l ih =>
    intro p hc
    obtain ⟨hp, e, he, hc1⟩ := (chain_cons_iff h p a l).1 hc
    refine List.nodup_cons.2 ⟨?_, ih _ hc1⟩
    intro hm
    obtain ⟨l1, l2, hl⟩ := List.append_of_mem hm
    rw [hl] at hc1
    obtain ⟨p1, hc2⟩ := chain_append h l1 (a :: l2) _ hc1
    have hp1 := ((chain_cons_iff h p1 a l2).1 hc2).1
    subst hp1 hp
    have := chain_unique h _ _ _ hc hc2
    have hlen := congrArg List.length this
    rw [hl] at hlen
    simp at hlen
    omega

theorem chain_last (h : Heap) : ∀ (l : List Ptr) (p : Option Ptr) (t : Ptr), Chain h p l →
    l.getLast? = some t → ∃ e, h t = some e ∧ e.next = none := by
  intro l
  induction l with
  | nil => intro p t _ ht; simp at ht
  | cons a l ih =>
    intro p t hc ht
    obtain ⟨_, e, he, hc1⟩ := (chain_cons_iff h p a l).1 hc
    cases l with
    | nil =>
      have : a = t := by simpa using ht
      subst this
      exact ⟨e, he, (chain_nil_iff h _).1 hc1⟩
    | cons b l =>
      rw [List.getLast?_cons_cons] at ht
      exact ih _ t hc1 ht

theorem values_frame (h h1 : Heap) (l : List Ptr) (hf : ∀ a ∈ l, h1 a = h a) :
    values h1 l = values h l := by
  unfold values
  apply List.map_congr_left
  intro a ha
  rw [hf a ha]

/-! ## Insertion and removal: the effect on the chain -/

theorem not_mem_of_fresh (h : Heap) (l : List Ptr) (p : Option Ptr) (a : Ptr)
    (hc : Chain h p l) (hf : h a = none) : a ∉ l := by
  intro hm
  obtain ⟨e, he⟩ := chain_live h l p hc a hm
  simp [hf] at he

theorem getLast?_cons_of_ne_nil (a : Ptr) (l : List Ptr) (hl : l ≠ []) :
    (a :: l).getLast? = l.getLast? := by
  cases l with
  | nil => exact absurd rfl hl
  | cons b l => exact List.getLast?_cons_cons

theorem wrap_int_of_range (n : Int) (h0 : -2147483648 ≤ n) (h1 : n ≤ INT_MAX) :
    wrap_int n = n := by
  unfold wrap_int
  unfold INT_MAX at h1
  omega

theorem wrap_int_succ (n : Int) : wrap_int (wrap_int n + 1) = wrap_int (n + 1) := by
  unfold wrap_int
  omega

theorem wrap_int_pred (n : Int) : wrap_int (wrap_int n - 1) = wrap_int (n - 1) := by
  unfold wrap_int
  omega

theorem wrap_int_bounds (n : Int) : -2147483648 ≤ wrap_int n ∧ wrap_int n ≤ INT_MAX := by
  unfold wrap_int INT_MAX
  omega

theorem inv_mod (h : Heap) (q : queue_t) (l : List Ptr) (hinv : QueueInv h q l) :
    QueueInvMod h q l := by
  obtain ⟨hc, ht, hs, hb⟩ := hinv
  refine ⟨hc, ht, ?_⟩
  rw [← hs]
  refine (wrap_int_of_range _ ?_ hb).symm
  rw [hs]
  omega

theorem mod_inv (h : Heap) (q : queue_t) (l : List Ptr) (hinv : QueueInvMod h q l)
    (hb : (l.length : Int) ≤ INT_MAX) : QueueInv h q l := by
  obtain ⟨hc, ht, hs⟩ := hinv
  have := wrap_int_of_range (l.length : Int) (by omega) hb
  rw [this] at hs
  exact ⟨hc, ht, hs, by rw [hs]; exact hb⟩

theorem mod_nil_iff (h : Heap) (q : queue_t) (l : List Ptr) (hinv : QueueInvMod h q l) :
    (l = [] ↔ q.head = none) ∧ (l = [] ↔ q.tail = none) := by
  obtain ⟨hc, ht, _⟩ := hinv
  cases l with
  | nil =>
    have := (chain_nil_iff h _).1 hc
    simp [this, ht]
  | cons a l =>
    have := ((chain_cons_iff h _ a l).1 hc).1
    refine ⟨by simp [this], ?_⟩
    rw [ht]
    simp [List.getLast?_eq_none_iff]

theorem inv_nil_iff (h : Heap) (q : queue_t) (l : List Ptr) (hinv : QueueInv h q l) :
    (l = [] ↔ q.head = none) ∧ (l = [] ↔ q.tail = none) ∧ (l = [] ↔ q.size = 0) := by
  have hm := mod_nil_iff h q l (inv_mod h q l hinv)
  refine ⟨hm.1, hm.2, ?_⟩
  rw [hinv.2.2.1]
  cases l with
  | nil => simp
  | cons a l =>
    simp
    omega

theorem insert_head_mod (h : Heap) (q : queue_t) (l : List Ptr) (a : Ptr)
    (v : Option (List Nat)) (hinv : QueueInvMod h q l) (hf : h a = none) :
    QueueInvMod (h.set a { value := v, next := q.head })
      { head := some a, tail := if q.tail.isNone then some a else q.tail,
        size := wrap_int (q.size + 1) }
      (a :: l) := by
  have hnil := mod_nil_iff h q l hinv
  obtain ⟨hc, ht, hs⟩ := hinv
  have hnm := not_mem_of_fresh h l _ a hc hf
  refine ⟨?_, ?_, ?_⟩
  · refine (chain_cons_iff _ _ a l).2 ⟨rfl, _, Heap.set_same _ _ _, ?_⟩
    refine chain_frame h _ l _ ?_ hc
    intro x hx
    exact Heap.set_other _ _ _ _ (fun hxa => hnm (hxa ▸ hx))
  · by_cases hl : l = []
    · have := hnil.2.1 hl
      simp [this, hl]
    · have hne : q.tail ≠ none := fun hn => hl (hnil.2.2 hn)
      have : q.tail.isNone = false := by
        cases hq : q.tail with
        | none => exact absurd hq hne
        | some t => rfl
      simp only [this]
      rw [getLast?_cons_of_ne_nil a l hl]
      simpa using ht
  · show wrap_int (q.size + 1) = wrap_int (((a :: l).length : Nat) : Int)
    rw [hs, wrap_int_succ]
    simp

theorem insert_head_inv (h : Heap) (q : queue_t) (l : List Ptr) (a : Ptr)
    (v : Option (List Nat)) (hinv : QueueInv h q l) (hb : q.size < INT_MAX)
    (hf : h a = none) :
    QueueInv (h.set a { value := v, next := q.head })
      { head := some a, tail := if q.tail.isNone then some a else q.tail,
        size := wrap_int (q.size + 1) }
      (a :: l) := by
  refine mod_inv _ _ _ (insert_head_mod h q l a v (inv_mod h q l hinv) hf) ?_
  have := hinv.2.2.1
  simp only [List.length_cons, Nat.cast_add, Nat.cast_one]
  omega

theorem chain_snoc (h : Heap) (a t : Ptr) (v : Option (List Nat)) (et : list_ele_t)
    (hf : h a = none) (het : h t = some et) :
    ∀ (l : List Ptr) (p : Option Ptr), Chain h p l → l.getLast? = some t →
      Chain ((h.set a { value := v, next := none }).set t { et with next := some a }) p
        (l ++ [a]) := by
  have hat : a ≠ t := by
    intro hat
    rw [hat, het] at hf
    exact absurd hf (by simp)
  intro l
  induction l with
  | nil => intro p _ hl; simp at hl
  | cons x l ih =>
    intro p hc hl
    have hnd := chain_nodup h _ _ hc
    obtain ⟨hp, e, he, hc1⟩ := (chain_cons_iff h p x l).1 hc
    cases l with
    | nil =>
      have hxt : x = t := by simpa using hl
      subst hxt
      have hee : e = et := by simpa [he] using het
      refine (chain_cons_iff _ _ _ _).2 ⟨hp, _, Heap.set_same _ _ _, ?_⟩
      refine (chain_cons_iff _ _ _ _).2 ⟨rfl, { value := v, next := none }, ?_, ?_⟩
      · rw [Heap.set_other _ _ _ _ hat]
        exact Heap.set_same _ _ _
      · simp
    | cons y l =>
      rw [List.getLast?_cons_cons] at hl
      have htm : t ∈ y :: l := List.mem_of_getLast?_eq_some hl
      have hxt : x ≠ t := by
        intro hxt
        subst hxt
        exact (List.nodup_cons.1 hnd).1 htm
      have hxa : x ≠ a := by
        intro hxa
        rw [hxa, hf] at he
        exact absurd he (by simp)
      refine (chain_cons_iff _ _ _ _).2 ⟨hp, e, ?_, ih _ hc1 hl⟩
      rw [Heap.set_other _ _ _ _ hxt, Heap.set_other _ _ _ _ hxa]
      exact he

theorem values_congr (h h1 : Heap) (l : List Ptr)
    (hf : ∀ a ∈ l, (h1 a).bind (fun e => e.value) = (h a).bind (fun e => e.value)) :
    values h1 l = values h l := by
  unfold values
  exact List.map_congr_left hf

theorem insert_tail_mod (h : Heap) (q : queue_t) (l : List Ptr) (a t : Ptr)
    (v : Option (List Nat)) (et : list_ele_t) (hinv : QueueInvMod h q l) (hf : h a = none)
    (ht : q.tail = some t) (het : h t = some et) :
    QueueInvMod ((h.set a { value := v, next := none }).set t { et with next := some a })
      { head := q.head, tail := some a, size := wrap_int (q.size + 1) } (l ++ [a]) := by
  obtain ⟨hc, htl, hs⟩ := hinv
  refine ⟨chain_snoc h a t v et hf het l _ hc (by rw [← htl, ht]), by simp, ?_⟩
  show wrap_int (q.size + 1) = wrap_int (((l ++ [a]).length : Nat) : Int)
  rw [hs, wrap_int_succ]
  simp

theorem insert_tail_inv (h : Heap) (q : queue_t) (l : List Ptr) (a t : Ptr)
    (v : Option (List Nat)) (et : list_ele_t) (hinv : QueueInv h q l)
    (hb : q.size < INT_MAX) (hf : h a = none)
    (ht : q.tail = some t) (het : h t = some et) :
    QueueInv ((h.set a { value := v, next := none }).set t { et with next := some a })
      { head := q.head, tail := some a, size := wrap_int (q.size + 1) } (l ++ [a]) := by
  refine mod_inv _ _ _ (insert_tail_mod h q l a t v et (inv_mod h q l hinv) hf ht het) ?_
  have := hinv.2.2.1
  simp only [List.length_append, List.length_singleton, Nat.cast_add, Nat.cast_one]
  omega

theorem size_succ (h : Heap) (q : queue_t) (l : List Ptr) (hinv : QueueInv h q l)
    (hb : q.size < INT_MAX) : wrap_int (q.size + 1) = q.size + 1 := by
  have := hinv.2.2.1
  exact wrap_int_of_range _ (by omega) (by omega)

/-! ## Claims on insertion, removal and size -/

/-- C2, below `INT_MAX` elements. On a queue satisfying the invariant with
elements `l` and `size < INT_MAX`, `q_insert_head` of a C string `s`, when both
allocations succeed, returns `true`; the new element `a` is in front of `l`, the
invariant holds, the value sequence is the old one with a new first value, the
stored value is the whole text of `s` and its terminator, `size` is one more,
and `tail` is the new element when `l` was empty and is unchanged otherwise. -/
theorem q_insert_head_spec (h : Heap) (q : queue_t) (l : List Ptr) (s : List Nat) (a : Ptr)
    (f : Nat → Nat) (hinv : QueueInv h q l) (hb : q.size < INT_MAX) (hs : 0 ∈ s)
    (hf : h a = none) :
    ∃ h1 q1, q_insert_head h (some q) (some s) (some a) (some f) = .ok (true, h1, some q1)
      ∧ QueueInv h1 q1 (a :: l)
      ∧ values h1 (a :: l) = some (text s ++ [0]) :: values h l
      ∧ q1.size = q.size + 1
      ∧ q1.head = some a
      ∧ (l = [] → q1.tail = some a)
      ∧ (l ≠ [] → q1.tail = q.tail) := by
  have hnil := inv_nil_iff h q l hinv
  have hnm := not_mem_of_fresh h l _ a hinv.1 hf
  refine ⟨_, _, ?_, insert_head_inv h q l a (some (text s ++ [0])) hinv hb hf, ?_,
    size_succ h q l hinv hb, rfl, ?_, ?_⟩
  · simp [q_insert_head, malloc_ele, hf, copy_value_ok s hs f]
  · have : values (h.set a { value := some (text s ++ [0]), next := q.head }) l = values h l :=
      values_frame _ _ _ (fun x hx => Heap.set_other _ _ _ _ (fun hxa => hnm (hxa ▸ hx)))
    simp only [values, List.map_cons] at this ⊢
    rw [this]
    simp
  · intro hl
    simp [hnil.2.1.1 hl]
  · intro hl
    have hne : q.tail ≠ none := fun hn => hl (hnil.2.1.2 hn)
    cases hq : q.tail with
    | none => exact absurd hq hne
    | some t => simp

/-- C3, below `INT_MAX` elements. On a queue satisfying the invariant with
elements `l` and `size < INT_MAX`, `q_insert_tail` of a C string `s`, when both
allocations succeed, returns `true`; the new element `a` is behind `l`, the
invariant holds, the value sequence is the old one with a new last value,
`size` is one more, `tail` is the new element, whose `next` is `NULL`, and
`head` is the new element when `l` was empty and is unchanged otherwise. -/
theorem q_insert_tail_spec (h : Heap) (q : queue_t) (l : List Ptr) (s : List Nat) (a : Ptr)
    (f : Nat → Nat) (hinv : QueueInv h q l) (hb : q.size < INT_MAX) (hs : 0 ∈ s)
    (hf : h a = none) :
    ∃ h1 q1, q_insert_tail h (some q) (some s) (some a) (some f) = .ok (true, h1, some q1)
      ∧ QueueInv h1 q1 (l ++ [a])
      ∧ values h1 (l ++ [a]) = values h l ++ [some (text s ++ [0])]
      ∧ q1.size = q.size + 1
      ∧ q1.tail = some a
      ∧ h1 a = some { value := some (text s ++ [0]), next := none }
      ∧ (l = [] → q1.head = some a)
      ∧ (l ≠ [] → q1.head = q.head) := by
  have hnil := inv_nil_iff h q l hinv
  have hnm := not_mem_of_fresh h l _ a hinv.1 hf
  by_cases hl : l = []
  · have hh := hnil.1.1 hl
    have ht := hnil.2.1.1 hl
    subst hl
    refine ⟨h.set a { value := some (text s ++ [0]), next := none },
      { head := some a, tail := some a, size := wrap_int (q.size + 1) }, ?_, ?_, ?_,
      size_succ h q [] hinv hb, rfl, ?_, ?_, ?_⟩
    · simp [q_insert_tail, malloc_ele, hf, copy_value_ok s hs f, hh]
    · have := insert_head_inv h q [] a (some (text s ++ [0])) hinv hb hf
      simpa [hh, ht] using this
    · simp [values]
    · simp
    · intro _; rfl
    · intro hne; exact absurd rfl hne
  · have hne : q.tail ≠ none := fun hn => hl (hnil.2.1.2 hn)
    have hhne : q.head ≠ none := fun hn => hl (hnil.1.2 hn)
    obtain ⟨t, ht⟩ := Option.ne_none_iff_exists'.1 hne
    obtain ⟨x, hx⟩ := Option.ne_none_iff_exists'.1 hhne
    have htl : l.getLast? = some t := by rw [← hinv.2.1, ht]
    obtain ⟨et, het, _⟩ := chain_last h l _ t hinv.1 htl
    have hta : t ≠ a := by
      intro hta
      rw [hta, hf] at het
      exact absurd het (by simp)
    refine ⟨(h.set a { value := some (text s ++ [0]), next := none }).set t
        { et with next := some a },
      { head := q.head, tail := some a, size := wrap_int (q.size + 1) }, ?_,
      insert_tail_inv h q l a t _ et hinv hb hf ht het, ?_, size_succ h q l hinv hb, rfl,
      ?_, ?_, ?_⟩
    · have hd : deref (h.set a { value := some (text s ++ [0]), next := none }) (some t)
          = .ok et := deref_some _ _ _ (by rw [Heap.set_other _ _ _ _ hta]; exact het)
      simp [q_insert_tail, malloc_ele, hf, copy_value_ok s hs f, hx, ht, set_next, hd]
    · have h1 : values ((h.set a { value := some (text s ++ [0]), next := none }).set t
          { et with next := some a }) l = values h l := by
        apply values_congr
        intro y hy
        have hya : y ≠ a := fun hya => hnm (hya ▸ hy)
        by_cases hyt : y = t
        · subst hyt
          simp [het]
        · rw [Heap.set_other _ _ _ _ hyt, Heap.set_other _ _ _ _ hya]
      simp only [values, List.map_append, List.map_cons, List.map_nil] at h1 ⊢
      rw [h1]
      have hat : a ≠ t := fun hat => hta hat.symm
      simp [Heap.set_other _ _ _ _ hat]
    · have hat : a ≠ t := fun hat => hta hat.symm
      rw [Heap.set_other _ _ _ _ hat]
      simp
    · intro hl1; exact absurd hl1 hl
    · intro _; rfl

theorem remove_head_mod (h : Heap) (q : queue_t) (a : Ptr) (l : List Ptr) (e : list_ele_t)
    (hinv : QueueInvMod h q (a :: l)) (he : h a = some e) :
    QueueInvMod (h.free a)
      { head := e.next, tail := if q.tail = q.head then none else q.tail,
        size := wrap_int (q.size - 1) }
      l := by
  obtain ⟨hc, ht, hs⟩ := hinv
  have hnd := chain_nodup h _ _ hc
  obtain ⟨hp, e1, he1, hc1⟩ := (chain_cons_iff h _ a l).1 hc
  have hee : e1 = e := by simpa [he1] using he
  subst hee
  have hnm : a ∉ l := (List.nodup_cons.1 hnd).1
  refine ⟨?_, ?_, ?_⟩
  · refine chain_frame h _ l _ ?_ hc1
    intro x hx
    exact Heap.free_other _ _ _ (fun hxa => hnm (hxa ▸ hx))
  · by_cases hl : l = []
    · subst hl
      simp [ht, hp]
    · rw [getLast?_cons_of_ne_nil a l hl] at ht
      have hne : q.tail ≠ q.head := by
        rw [ht, hp]
        intro hla
        exact hnm (List.mem_of_getLast?_eq_some hla)
      show (if q.tail = q.head then none else q.tail) = l.getLast?
      rw [if_neg hne, ht]
  · show wrap_int (q.size - 1) = wrap_int (l.length : Int)
    rw [hs, wrap_int_pred]
    simp

theorem remove_head_inv (h : Heap) (q : queue_t) (a : Ptr) (l : List Ptr) (e : list_ele_t)
    (hinv : QueueInv h q (a :: l)) (he : h a = some e) :
    QueueInv (h.free a)
      { head := e.next, tail := if q.tail = q.head then none else q.tail,
        size := wrap_int (q.size - 1) }
      l := by
  refine mod_inv _ _ _ (remove_head_mod h q a l e (inv_mod h q _ hinv) he) ?_
  have h1 := hinv.2.2.1
  have h2 := hinv.2.2.2
  simp only [List.length_cons, Nat.cast_add, Nat.cast_one] at h1
  omega

theorem size_pred (h : Heap) (q : queue_t) (a : Ptr) (l : List Ptr)
    (hinv : QueueInv h q (a :: l)) : wrap_int (q.size - 1) = q.size - 1 := by
  have h1 := hinv.2.2.1
  have h2 := hinv.2.2.2
  simp only [List.length_cons, Nat.cast_add, Nat.cast_one] at h1
  exact wrap_int_of_range _ (by omega) (by omega)

theorem remove_head_ok (h : Heap) (q : queue_t) (a : Ptr) (l : List Ptr)
    (sp : Option (List Nat)) (bufsize : Nat) (hinv : QueueInv h q (a :: l))
    (hsp : ∀ buf, sp = some buf → (∃ v, (h a).bind (fun e => e.value) = some v ∧ 0 ∈ v)
      ∧ 1 ≤ bufsize ∧ bufsize ≤ buf.length ∧ bufsize ≤ SIZE_MAX) :
    ∃ r q1, q_remove_head h (some q) sp bufsize = .ok r ∧ r.ret = true ∧ r.q = some q1
      ∧ QueueInv r.heap q1 l
      ∧ values r.heap l = values h l
      ∧ q1.size = q.size - 1
      ∧ (l = [] → q1.head = none ∧ q1.tail = none)
      ∧ (l ≠ [] → q1.tail = q.tail) := by
  have hnd := chain_nodup h _ _ hinv.1
  have hnm : a ∉ l := (List.nodup_cons.1 hnd).1
  obtain ⟨hp, e, he, hc1⟩ := (chain_cons_iff h _ a l).1 hinv.1
  have hcp : ∃ sp1, copy_out e.value sp bufsize = .ok sp1 := by
    cases sp with
    | none => exact ⟨none, rfl⟩
    | some buf =>
      obtain ⟨⟨v, hv, h0⟩, h1, h2, h3⟩ := hsp buf rfl
      have hev : e.value = some v := by simpa [he] using hv
      rw [hev]
      exact ⟨_, copy_out_spec v buf bufsize h0 h1 h2 h3⟩
  obtain ⟨sp1, hsp1⟩ := hcp
  have hq1 := remove_head_inv h q a l e hinv he
  refine ⟨{ ret := true, heap := h.free a,
            q := some { head := e.next, tail := if q.tail = q.head then none else q.tail,
                        size := wrap_int (q.size - 1) }, sp := sp1 }, _, ?_, rfl, rfl, hq1, ?_,
    size_pred h q a l hinv, ?_, ?_⟩
  · simp [q_remove_head, hp, deref, he, hsp1]
  · exact values_frame _ _ _ (fun x hx => Heap.free_other _ _ _ (fun hxa => hnm (hxa ▸ hx)))
  · intro hl
    have := inv_nil_iff _ _ _ hq1
    exact ⟨this.1.1 hl, this.2.1.1 hl⟩
  · intro hl
    have h2 := hinv.2.1
    rw [getLast?_cons_of_ne_nil a l hl] at h2
    have hne : q.tail ≠ q.head := by
      rw [h2, hp]
      intro hla
      exact hnm (List.mem_of_getLast?_eq_some hla)
    simp [hne]

theorem run_calls_null :
    run (Heap.empty, q_new true) calls_null = .ok (heap_null, some queue_null) := by
  rfl

theorem inv_heap_null : QueueInv heap_null queue_null [2, 1] := by
  simp [QueueInv, INT_MAX, Chain, heap_null, queue_null, Heap.set]

theorem inv_heap3 : QueueInv heap3 queue3 [1, 2, 3] := by
  simp [QueueInv, INT_MAX, Chain, heap3, queue3]

theorem remove_head_null (h : Heap) (q : queue_t) (a : Ptr) (l : List Ptr) (buf : List Nat)
    (bufsize : Nat) (hinv : QueueInv h q (a :: l))
    (hv : (h a).bind (fun e => e.value) = none) :
    q_remove_head h (some q) (some buf) bufsize = .error Fault.undefined := by
  obtain ⟨hp, e, he, _⟩ := (chain_cons_iff h _ a l).1 hinv.1
  have hev : e.value = none := by simpa [he] using hv
  simp [q_remove_head, hp, deref, he, copy_out, hev, chars]

/-- C4. On a queue satisfying the invariant with elements `a :: l`, a call of
`q_remove_head` without a buffer, or with a buffer of at least `bufsize >= 1`
bytes when the value of `a` is a C string, returns `true`; the invariant holds
with the elements `l`, whose values are unchanged, `size` is one less, `head`
and `tail` are `NULL` when `l` is empty and `tail` is unchanged otherwise.
With a buffer, the call does not return when the value of `a` is `NULL`, as on
the queue that `q_insert_head("apple")`, `q_insert_head(NULL)` leave, where
`strlen` gets `NULL`; nor when `bufsize` is `0`, where `sp[tmp - 1]` is the byte
at `SIZE_MAX`. -/
theorem q_remove_head_spec :
    (∀ (h : Heap) (q : queue_t) (a : Ptr) (l : List Ptr) (sp : Option (List Nat))
        (bufsize : Nat), QueueInv h q (a :: l) →
        (∀ buf, sp = some buf → (∃ v, (h a).bind (fun e => e.value) = some v ∧ 0 ∈ v)
          ∧ 1 ≤ bufsize ∧ bufsize ≤ buf.length ∧ bufsize ≤ SIZE_MAX) →
        ∃ r q1, q_remove_head h (some q) sp bufsize = .ok r ∧ r.ret = true ∧ r.q = some q1
          ∧ QueueInv r.heap q1 l
          ∧ values r.heap l = values h l
          ∧ q1.size = q.size - 1
          ∧ (l = [] → q1.head = none ∧ q1.tail = none)
          ∧ (l ≠ [] → q1.tail = q.tail))
      ∧ run (Heap.empty, q_new true) calls_null = .ok (heap_null, some queue_null)
      ∧ QueueInv heap_null queue_null [2, 1]
      ∧ q_remove_head heap_null (some queue_null) (some [1, 1, 1]) 3 = .error Fault.undefined
      ∧ (∀ (h : Heap) (q : queue_t) (a : Ptr) (l : List Ptr) (buf : List Nat) (bufsize : Nat),
          QueueInv h q (a :: l) → (h a).bind (fun e => e.value) = none →
          q_remove_head h (some q) (some buf) bufsize = .error Fault.undefined)
      ∧ QueueInv heap3 queue3 [1, 2, 3]
      ∧ q_remove_head heap3 (some queue3) (some [1, 1, 1]) 0 = .error Fault.undefined :=
  ⟨remove_head_ok, run_calls_null, inv_heap_null, rfl, remove_head_null,
    inv_heap3, rfl⟩

/-- C5. When the head element of the queue holds the C string `v` and `sp` is a
buffer of at least `c >= 1` bytes, `q_remove_head(q, sp, c)` returns `true` and
leaves in the buffer the first `min (length v) (c - 1)` characters of `v`, then a
terminator, then the bytes the buffer had behind them. -/
theorem q_remove_head_copy (h : Heap) (q : queue_t) (a : Ptr) (e : list_ele_t)
    (v buf : List Nat) (c : Nat) (hq : q.head = some a) (he : h a = some e)
    (hv : e.value = some v) (h0 : 0 ∈ v) (h1 : 1 ≤ c) (h2 : c ≤ buf.length)
    (h3 : c ≤ SIZE_MAX) :
    ∃ r, q_remove_head h (some q) (some buf) c = .ok r ∧ r.ret = true
      ∧ r.sp = some ((text v).take (min (text v).length (c - 1))
          ++ 0 :: buf.drop (min (text v).length (c - 1) + 1)) := by
  refine ⟨{ ret := true, heap := h.free a,
            q := some { head := e.next, tail := if q.tail = q.head then none else q.tail,
                        size := wrap_int (q.size - 1) },
            sp := some ((text v).take (min (text v).length (c - 1))
              ++ 0 :: buf.drop (min (text v).length (c - 1) + 1)) }, ?_, rfl, rfl⟩
  simp only [q_remove_head, hq, deref, he, ok_bind, hv, copy_out_spec v buf c h0 h1 h2 h3]
  rfl

theorem text_text_zero (s : List Nat) : text (text s ++ [0]) = text s :=
  text_append_zero (text s) [] (text_not_mem s)

/-- C6. On a queue satisfying the invariant, `q_insert_head(q, s)` of a C string
`s` with both allocations succeeding, followed by `q_remove_head(q, buf, c)` with
a buffer of at least `c >= 1` bytes: both return `true`, the heap and the
`queue_t` are again what they were before the insertion, and the buffer holds
the first `min (length s) (c - 1)` characters of `s` and a terminator, which is
the whole of `s` when `c >= length s + 1`. -/
theorem insert_head_remove_head (h : Heap) (q : queue_t) (l : List Ptr) (s : List Nat)
    (a : Ptr) (f : Nat → Nat) (buf : List Nat) (c : Nat) (hinv : QueueInv h q l)
    (hs : 0 ∈ s) (hf : h a = none) (h1 : 1 ≤ c) (h2 : c ≤ buf.length) (h3 : c ≤ SIZE_MAX) :
    ∃ hi qi r, q_insert_head h (some q) (some s) (some a) (some f) = .ok (true, hi, qi)
      ∧ q_remove_head hi qi (some buf) c = .ok r ∧ r.ret = true
      ∧ r.heap = h ∧ r.q = some q
      ∧ r.sp = some ((text s).take (min (text s).length (c - 1))
          ++ 0 :: buf.drop (min (text s).length (c - 1) + 1))
      ∧ ((text s).length + 1 ≤ c → r.sp = some (text s ++ 0 :: buf.drop ((text s).length + 1))) := by
  have hnil := inv_nil_iff h q l hinv
  have hins : q_insert_head h (some q) (some s) (some a) (some f)
      = .ok (true, h.set a { value := some (text s ++ [0]), next := q.head },
          some { head := some a, tail := if q.tail.isNone then some a else q.tail,
                 size := wrap_int (q.size + 1) }) := by
    simp [q_insert_head, malloc_ele, hf, copy_value_ok s hs f]
  have hcp := copy_out_spec (text s ++ [0]) buf c (by simp) h1 h2 h3
  rw [text_text_zero] at hcp
  have hheap : (h.set a { value := some (text s ++ [0]), next := q.head }).free a = h := by
    funext x
    by_cases hx : x = a
    · subst hx
      simp [hf]
    · rw [Heap.free_other _ _ _ hx, Heap.set_other _ _ _ _ hx]
  have htail : (if (if q.tail.isNone then some a else q.tail) = some a then none
      else (if q.tail.isNone then some a else q.tail)) = q.tail := by
    cases hq : q.tail with
    | none => simp
    | some t =>
      have htl : l.getLast? = some t := by rw [← hinv.2.1, hq]
      have hta : t ≠ a := by
        intro hta
        subst hta
        exact not_mem_of_fresh h l _ t hinv.1 hf (List.mem_of_getLast?_eq_some htl)
      simp [hta]
  have hsize : wrap_int (wrap_int (q.size + 1) - 1) = q.size := by
    have h4 := hinv.2.2.1
    have h5 := hinv.2.2.2
    rw [wrap_int_pred]
    have h6 : q.size + 1 - 1 = q.size := by omega
    rw [h6]
    exact wrap_int_of_range _ (by omega) h5
  refine ⟨_, _, { ret := true, heap := h, q := some q, sp := _ }, hins, ?_, rfl, rfl, rfl,
    rfl, ?_⟩
  · simp only [q_remove_head, deref, Heap.set_same, ok_bind, hcp, pure_eq_ok, hheap, htail,
      hsize]
  · intro hc
    have : min (text s).length (c - 1) = (text s).length := by omega
    simp [this]

/-- C7. `q_remove_head` returns `false` exactly when the queue pointer is `NULL`
or the queue is empty, and then the heap, the queue and the buffer are what they
were before the call. -/
theorem q_remove_head_false (h : Heap) (q : Option queue_t) (sp : Option (List Nat))
    (bufsize : Nat) :
    (∀ r, q_remove_head h q sp bufsize = .ok r →
        (r.ret = false ↔ (q = none ∨ ∃ qv, q = some qv ∧ qv.head = none)))
      ∧ ((q = none ∨ ∃ qv, q = some qv ∧ qv.head = none) →
          q_remove_head h q sp bufsize = .ok { ret := false, heap := h, q := q, sp := sp }) := by
  cases q with
  | none =>
    refine ⟨?_, fun _ => rfl⟩
    intro r hr
    simp only [q_remove_head, Except.ok.injEq] at hr
    subst hr
    simp
  | some qv =>
    cases hh : qv.head with
    | none =>
      refine ⟨?_, fun _ => by simp [q_remove_head, hh]⟩
      intro r hr
      simp only [q_remove_head, hh, Except.ok.injEq] at hr
      subst hr
      simp [hh]
    | some a =>
      refine ⟨?_, ?_⟩
      · intro r hr
        simp only [q_remove_head, hh] at hr
        cases hd : deref h (some a) with
        | error x => simp [hd] at hr
        | ok e =>
          cases hc : copy_out e.value sp bufsize with
          | error x => simp [hd, hc] at hr
          | ok sp1 =>
            simp only [hd, hc, ok_bind, pure_eq_ok, Except.ok.injEq] at hr
            subst hr
            simp [hh]
      · rintro (hq | ⟨qv1, hq, hn⟩)
        · simp at hq
        · simp only [Option.some.injEq] at hq
          subst hq
          simp [hh] at hn

/-- C8. The function `q_size` returns the `size` field of every queue that is
not `NULL`; on the `NULL` queue it reads `q->size` through the `NULL` pointer,
which is undefined: it does not return `0`. -/
theorem q_size_null_undefined :
    (∀ q : queue_t, q_size (some q) = .ok q.size)
      ∧ q_size none = .error Fault.undefined
      ∧ q_size none ≠ .ok 0 :=
  ⟨fun _ => rfl, rfl, by simp [q_size]⟩

/-! ## The invariant along every sequence of calls -/

theorem insert_head_preserves (h : Heap) (q : queue_t) (l : List Ptr) (s : Option (List Nat))
    (er : Option Ptr) (vr : Option (Nat → Nat)) (r : Bool × Heap × Option queue_t)
    (hinv : QueueInvMod h q l) (hr : q_insert_head h (some q) s er vr = .ok r) :
    ∃ q1 l1, r.2.2 = some q1 ∧ QueueInvMod r.2.1 q1 l1 := by
  simp only [q_insert_head] at hr
  cases er with
  | none =>
    simp only [malloc_ele, ok_bind, pure_eq_ok, Except.ok.injEq] at hr
    subst hr
    exact ⟨q, l, rfl, hinv⟩
  | some a =>
    by_cases hf : (h a).isNone
    · simp only [malloc_ele, hf, if_true, ok_bind] at hr
      cases hv : copy_value s vr with
      | error x => simp [hv] at hr
      | ok v =>
        cases v with
        | none =>
          simp only [hv, ok_bind, pure_eq_ok, Except.ok.injEq] at hr
          subst hr
          exact ⟨q, l, rfl, hinv⟩
        | some value =>
          simp only [hv, ok_bind, pure_eq_ok, Except.ok.injEq] at hr
          subst hr
          exact ⟨_, a :: l, rfl,
            insert_head_mod h q l a value hinv (Option.isNone_iff_eq_none.1 hf)⟩
    · simp [malloc_ele, hf] at hr

theorem insert_tail_preserves (h : Heap) (q : queue_t) (l : List Ptr) (s : Option (List Nat))
    (er : Option Ptr) (vr : Option (Nat → Nat)) (r : Bool × Heap × Option queue_t)
    (hinv : QueueInvMod h q l) (hr : q_insert_tail h (some q) s er vr = .ok r) :
    ∃ q1 l1, r.2.2 = some q1 ∧ QueueInvMod r.2.1 q1 l1 := by
  have hnil := mod_nil_iff h q l hinv
  simp only [q_insert_tail] at hr
  cases er with
  | none =>
    simp only [malloc_ele, ok_bind, pure_eq_ok, Except.ok.injEq] at hr
    subst hr
    exact ⟨q, l, rfl, hinv⟩
  | some a =>
    by_cases hf : (h a).isNone
    · simp only [malloc_ele, hf, if_true, ok_bind] at hr
      have hfa : h a = none := Option.isNone_iff_eq_none.1 hf
      cases hv : copy_value s vr with
      | error x => simp [hv] at hr
      | ok v =>
        cases v with
        | none =>
          simp only [hv, ok_bind, pure_eq_ok, Except.ok.injEq] at hr
          subst hr
          exact ⟨q, l, rfl, hinv⟩
        | some value =>
          simp only [hv, ok_bind, pure_eq_ok] at hr
          by_cases hl : l = []
          · have hh := hnil.1.1 hl
            have ht := hnil.2.1 hl
            subst hl
            simp only [hh, Except.ok.injEq] at hr
            subst hr
            have := insert_head_mod h q [] a value hinv hfa
            exact ⟨_, [a], rfl, by simpa [hh, ht] using this⟩
          · have hne : q.tail ≠ none := fun hn => hl (hnil.2.2 hn)
            have hhne : q.head ≠ none := fun hn => hl (hnil.1.2 hn)
            obtain ⟨t, ht⟩ := Option.ne_none_iff_exists'.1 hne
            obtain ⟨x, hx⟩ := Option.ne_none_iff_exists'.1 hhne
            have htl : l.getLast? = some t := by rw [← hinv.2.1, ht]
            obtain ⟨et, het, _⟩ := chain_last h l _ t hinv.1 htl
            have hta : t ≠ a := by
              intro hta
              rw [hta, hfa] at het
              exact absurd het (by simp)
            have hsn : set_next (h.set a { value := value, next := none }) (some t) (some a)
                = .ok ((h.set a { value := value, next := none }).set t
                    { et with next := some a }) :=
              set_next_some _ _ _ _ (by rw [Heap.set_other _ _ _ _ hta]; exact het)
            simp only [hx, ht, hsn, ok_bind, Except.ok.injEq] at hr
            subst hr
            have := insert_tail_mod h q l a t value et hinv hfa ht het
            rw [hx] at this
            exact ⟨_, l ++ [a], rfl, this⟩
    · simp [malloc_ele, hf] at hr

theorem remove_head_preserves (h : Heap) (q : queue_t) (l : List Ptr) (sp : Option (List Nat))
    (bufsize : Nat) (r : RemoveResult) (hinv : QueueInvMod h q l)
    (hr : q_remove_head h (some q) sp bufsize = .ok r) :
    ∃ q1 l1, r.q = some q1 ∧ QueueInvMod r.heap q1 l1 := by
  have hnil := mod_nil_iff h q l hinv
  simp only [q_remove_head] at hr
  cases hh : q.head with
  | none =>
    simp only [hh, Except.ok.injEq] at hr
    subst hr
    exact ⟨q, l, rfl, hinv⟩
  | some a =>
    simp only [hh] at hr
    cases l with
    | nil => simp [hnil.1.1 rfl] at hh
    | cons b l =>
      obtain ⟨hp, e, he, hc1⟩ := (chain_cons_iff h _ b l).1 hinv.1
      have hab : a = b := by simpa [hh] using hp
      subst hab
      simp only [deref, he, ok_bind] at hr
      cases hc : copy_out e.value sp bufsize with
      | error x => simp [hc] at hr
      | ok sp1 =>
        simp only [hc, ok_bind, pure_eq_ok, Except.ok.injEq] at hr
        subst hr
        have := remove_head_mod h q a l e hinv he
        rw [hh] at this
        exact ⟨_, l, rfl, this⟩

theorem step_preserves (h : Heap) (q : queue_t) (l : List Ptr) (op : Op)
    (st : Heap × Option queue_t) (hinv : QueueInvMod h q l) (hs : step (h, some q) op = .ok st) :
    ∃ q1 l1, st.2 = some q1 ∧ QueueInvMod st.1 q1 l1 := by
  cases op with
  | insert_head s er vr =>
    simp only [step] at hs
    cases hr : q_insert_head h (some q) s er vr with
    | error x => simp [hr] at hs
    | ok r =>
      simp only [hr, ok_bind, pure_eq_ok, Except.ok.injEq] at hs
      subst hs
      exact insert_head_preserves h q l s er vr r hinv hr
  | insert_tail s er vr =>
    simp only [step] at hs
    cases hr : q_insert_tail h (some q) s er vr with
    | error x => simp [hr] at hs
    | ok r =>
      simp only [hr, ok_bind, pure_eq_ok, Except.ok.injEq] at hs
      subst hs
      exact insert_tail_preserves h q l s er vr r hinv hr
  | remove_head sp bufsize =>
    simp only [step] at hs
    cases hr : q_remove_head h (some q) sp bufsize with
    | error x => simp [hr] at hs
    | ok r =>
      simp only [hr, ok_bind, pure_eq_ok, Except.ok.injEq] at hs
      subst hs
      exact remove_head_preserves h q l sp bufsize r hinv hr

theorem run_preserves : ∀ (ops : List Op) (h : Heap) (q : queue_t) (l : List Ptr)
    (st : Heap × Option queue_t), QueueInvMod h q l → run (h, some q) ops = .ok st →
    ∃ q1 l1, st.2 = some q1 ∧ QueueInvMod st.1 q1 l1 := by
  intro ops
  induction ops with
  | nil =>
    intro h q l st hinv hr
    simp only [run, Except.ok.injEq] at hr
    subst hr
    exact ⟨q, l, rfl, hinv⟩
  | cons op ops ih =>
    intro h q l st hinv hr
    simp only [run] at hr
    cases hs : step (h, some q) op with
    | error x => simp [hs] at hr
    | ok st1 =>
      simp only [hs, ok_bind] at hr
      obtain ⟨q1, l1, hq1, hinv1⟩ := step_preserves h q l op st1 hinv hs
      obtain ⟨h1, q1o⟩ := st1
      simp only at hq1 hinv1
      subst hq1
      exact ih h1 q1 l1 st hinv1 hr

/-- C1, with `size` as an `int`. From the queue returned by `q_new`, after
every finite sequence of calls of `q_insert_head`, `q_insert_tail` and
`q_remove_head` that returns, whatever the calls return: the chain from `head`
ends at `NULL`, and `size` is the number of its elements as the `int` it is
stored as, a value between `-2^31` and `INT_MAX`; `head` is `NULL` iff `tail`
is `NULL` iff the chain is empty, and `tail`, when not `NULL`, is the last
element of the chain and its `next` is `NULL`.  While the chain has at most
`INT_MAX` elements, `size` is their number, and `tail` is `NULL` iff `size` is
`0`. -/
theorem queue_invariant_reachable (h0 : Heap) (ops : List Op) (h : Heap)
    (q : Option queue_t) (hrun : run (h0, q_new true) ops = .ok (h, q)) :
    ∃ qv l, q = some qv ∧ Chain h qv.head l ∧ qv.size = wrap_int (l.length : Int)
      ∧ (-2147483648 ≤ qv.size ∧ qv.size ≤ INT_MAX)
      ∧ (qv.head = none ↔ qv.tail = none) ∧ (qv.tail = none ↔ l = [])
      ∧ (∀ t, qv.tail = some t → l.getLast? = some t ∧ ∃ e, h t = some e ∧ e.next = none)
      ∧ ((l.length : Int) ≤ INT_MAX →
          qv.size = (l.length : Int) ∧ (qv.tail = none ↔ qv.size = 0)) := by
  have hinit : QueueInvMod h0 { head := none, tail := none, size := 0 } [] := by
    simp [QueueInvMod, Chain, wrap_int]
  obtain ⟨qv, l, hq, hmod⟩ := run_preserves ops h0 _ [] (h, q) hinit hrun
  simp only at hq hmod
  have hnil := mod_nil_iff h qv l hmod
  refine ⟨qv, l, hq, hmod.1, hmod.2.2, ?_, ?_, ?_, ?_, ?_⟩
  · rw [hmod.2.2]
    exact wrap_int_bounds _
  · rw [← hnil.1, ← hnil.2]
  · exact hnil.2.symm
  · intro t ht
    have htl : l.getLast? = some t := by rw [← hmod.2.1, ht]
    exact ⟨htl, chain_last h l _ t hmod.1 htl⟩
  · intro hb
    have hinv := mod_inv h qv l hmod hb
    have hn := inv_nil_iff h qv l hinv
    exact ⟨hinv.2.2.1, by rw [← hn.2.1, ← hn.2.2]⟩

/-! ## A queue of more than `INT_MAX` elements -/

theorem run_append : ∀ (a b : List Op) (st : Heap × Option queue_t),
    run st (a ++ b) = (run st a >>= fun st1 => run st1 b) := by
  intro a
  induction a with
  | nil => intro b st; rfl
  | cons op a ih =>
    intro b st
    simp only [List.cons_append, run]
    cases hs : step st op with
    | error x => rfl
    | ok st1 =>
      simp only [ok_bind]
      exact ih b st1

theorem long_chain (n : Nat) : ∀ (m k : Nat), k + m = n →
    Chain (long_heap n) (if k < n then some k else none) (List.range' k m) := by
  intro m
  induction m with
  | zero =>
    intro k hk
    have : ¬ k < n := by omega
    simp [this, Chain]
  | succ m ih =>
    intro k hk
    have hlt : k < n := by omega
    rw [if_pos hlt, List.range'_succ]
    refine (chain_cons_iff _ _ _ _).2 ⟨rfl,
      { value := some apple, next := if k + 1 < n then some (k + 1) else none }, ?_,
      ih (k + 1) (by omega)⟩
    simp [long_heap, hlt]

theorem long_last (n : Nat) :
    (List.range n).getLast? = if 0 < n then some (n - 1) else none := by
  cases n with
  | zero => rfl
  | succ n => simp [List.range_succ]

theorem long_chain_range (n : Nat) :
    Chain (long_heap n) (long_queue n).head (List.range n) := by
  rw [List.range_eq_range']
  exact long_chain n n 0 (by omega)

theorem long_mod (n : Nat) : QueueInvMod (long_heap n) (long_queue n) (List.range n) := by
  refine ⟨long_chain_range n, (long_last n).symm, ?_⟩
  simp [long_queue]

theorem long_inv (n : Nat) (hn : (n : Int) ≤ INT_MAX) :
    QueueInv (long_heap n) (long_queue n) (List.range n) :=
  mod_inv _ _ _ (long_mod n) (by rw [List.length_range]; exact hn)

theorem not_inv_of_neg (h : Heap) (q : queue_t) (l : List Ptr) (hneg : q.size < 0) :
    ¬ QueueInv h q l := by
  intro hq
  have h1 := hq.2.2.1
  omega

theorem insert_head_eval (h : Heap) (q : queue_t) (s : List Nat) (a : Ptr) (f : Nat → Nat)
    (hs : 0 ∈ s) (hf : h a = none) :
    q_insert_head h (some q) (some s) (some a) (some f)
      = .ok (true, h.set a { value := some (text s ++ [0]), next := q.head },
          some { head := some a, tail := if q.tail.isNone then some a else q.tail,
                 size := wrap_int (q.size + 1) }) := by
  simp [q_insert_head, malloc_ele, hf, copy_value_ok s hs f]

theorem insert_tail_long (n : Nat) :
    q_insert_tail (long_heap n) (some (long_queue n)) (some apple) (some n) (some junk)
      = .ok (true, long_heap (n + 1), some (long_queue (n + 1))) := by
  have hf : long_heap n n = none := by simp [long_heap]
  have hcv := copy_value_ok apple (by simp [apple]) junk
  have happle : text apple ++ [0] = apple := by decide
  rw [happle] at hcv
  have hsz : wrap_int ((long_queue n).size + 1) = wrap_int ((n + 1 : Nat) : Int) := by
    simp only [long_queue, wrap_int_succ]
    simp
  cases n with
  | zero =>
    have hh : long_heap 0 = Heap.empty := by
      funext a
      simp [long_heap, Heap.empty]
    have h1 : (long_heap 0).set 0 { value := some apple, next := none } = long_heap 1 := by
      funext a
      by_cases ha : a = 0
      · subst ha
        simp [long_heap]
      · rw [Heap.set_other _ _ _ _ ha]
        have : ¬ a < 1 := fun hlt => ha (Nat.lt_one_iff.1 hlt)
        simp [long_heap, this]
    simp only [q_insert_tail, malloc_ele, hf, Option.isNone_none, if_true, ok_bind, hcv, h1,
      hsz]
    simp [long_queue]
  | succ n =>
    have hn1 : (n : Nat) ≠ n + 1 := by omega
    have hd : deref ((long_heap (n + 1)).set (n + 1) { value := some apple, next := none })
        (some n) = .ok { value := some apple, next := none } := by
      refine deref_some _ _ _ ?_
      rw [Heap.set_other _ _ _ _ hn1]
      simp [long_heap]
    have h1 : ((long_heap (n + 1)).set (n + 1) { value := some apple, next := none }).set n
        { value := some apple, next := some (n + 1) } = long_heap (n + 1 + 1) := by
      funext a
      rcases Nat.lt_trichotomy a n with hc | hc | hc
      · have ha : a ≠ n := Nat.ne_of_lt hc
        have hb : a ≠ n + 1 := Nat.ne_of_lt (Nat.lt_succ_of_lt hc)
        rw [Heap.set_other _ _ _ _ ha, Heap.set_other _ _ _ _ hb]
        have c1 : a < n + 1 := Nat.lt_succ_of_lt hc
        have c2 : a + 1 < n + 1 := Nat.succ_lt_succ hc
        have c3 : a < n + 1 + 1 := Nat.lt_succ_of_lt c1
        have c4 : a + 1 < n + 1 + 1 := Nat.succ_lt_succ c1
        simp [long_heap, c1, c2, c3, c4]
      · rw [hc]
        have c3 : n < n + 1 + 1 := Nat.lt_succ_of_lt (Nat.lt_succ_self n)
        simp [long_heap, c3]
      · by_cases hb : a = n + 1
        · rw [hb, Heap.set_other _ _ _ _ (Ne.symm hn1)]
          simp [long_heap]
        · have ha : a ≠ n := Nat.ne_of_gt hc
          rw [Heap.set_other _ _ _ _ ha, Heap.set_other _ _ _ _ hb]
          have c5 : n + 1 < a := Nat.lt_of_le_of_ne hc (Ne.symm hb)
          have c1 : ¬ a < n + 1 := Nat.not_lt.2 (Nat.le_of_lt c5)
          have c3 : ¬ a < n + 1 + 1 := Nat.not_lt.2 c5
          simp [long_heap, c1, c3]
    simp only [q_insert_tail, malloc_ele, hf, Option.isNone_none, if_true, ok_bind, hcv, hsz]
    simp only [long_queue, Nat.zero_lt_succ, if_true, set_next, hd, ok_bind, pure_eq_ok,
      Nat.add_sub_cancel]
    rw [h1]

theorem run_appends : ∀ (n : Nat),
    run (Heap.empty, q_new true) (appends n) = .ok (long_heap n, some (long_queue n)) := by
  intro n
  induction n with
  | zero =>
    have hh : long_heap 0 = Heap.empty := by
      funext a
      simp [long_heap, Heap.empty]
    simp [appends, run, hh, long_queue, q_new, wrap_int]
  | succ n ih =>
    have : appends (n + 1)
        = appends n ++ [Op.insert_tail (some apple) (some n) (some junk)] := by
      simp [appends, List.range_succ]
    rw [this, run_append, ih]
    simp only [ok_bind, run, step, insert_tail_long n, pure_eq_ok]

/-- C1, beyond `INT_MAX` elements. After `2^31` calls of `q_insert_tail("apple")`
on the new queue, all returning `true`, the chain from `head` has the `2^31`
elements `0`, ..., `2^31 - 1` and `size` is `-2^31`: `size` is not the number of
elements.  And the calls `q_insert_head(NULL)`, `q_remove_head` with a buffer
do not return: the second one passes the `NULL` value to `strlen`. -/
theorem queue_invariant_overflow :
    run (Heap.empty, q_new true) (appends 2147483648)
        = .ok (long_heap 2147483648, some (long_queue 2147483648))
      ∧ QueueInvMod (long_heap 2147483648) (long_queue 2147483648) (List.range 2147483648)
      ∧ (List.range 2147483648).length = 2147483648
      ∧ (long_queue 2147483648).size = -2147483648
      ∧ (long_queue 2147483648).size ≠ ((List.range 2147483648).length : Int)
      ∧ run (Heap.empty, q_new true)
          [Op.insert_head none (some 1) none, Op.remove_head (some [1, 1, 1]) 3]
        = .error Fault.undefined := by
  have hsz : (long_queue 2147483648).size = -2147483648 := by
    simp only [long_queue, wrap_int]
    norm_num
  refine ⟨run_appends 2147483648, long_mod 2147483648, List.length_range 2147483648,
    hsz, ?_, rfl⟩
  rw [hsz, List.length_range]
  norm_num

/-- C2, at `INT_MAX` elements. The queue of `INT_MAX` elements that `INT_MAX`
calls of `q_insert_tail("apple")` leave satisfies the invariant with
`size = INT_MAX`; `q_insert_head("apple")` on it returns `true` and leaves
`size = -2^31`, which is not `size + 1`, and the invariant does not hold for
the new chain. -/
theorem q_insert_head_overflow :
    run (Heap.empty, q_new true) (appends 2147483647)
        = .ok (long_heap 2147483647, some (long_queue 2147483647))
      ∧ QueueInv (long_heap 2147483647) (long_queue 2147483647) (List.range 2147483647)
      ∧ (long_queue 2147483647).size = 2147483647
      ∧ ∃ h1 q1, q_insert_head (long_heap 2147483647) (some (long_queue 2147483647))
            (some apple) (some 2147483647) (some junk) = .ok (true, h1, some q1)
          ∧ q1.size = -2147483648
          ∧ q1.size ≠ (long_queue 2147483647).size + 1
          ∧ Chain h1 q1.head (2147483647 :: List.range 2147483647)
          ∧ ¬ QueueInv h1 q1 (2147483647 :: List.range 2147483647) := by
  have hsz : (long_queue 2147483647).size = 2147483647 := by
    simp only [long_queue, wrap_int]
    norm_num
  have hinv := long_inv 2147483647 (by simp [INT_MAX])
  have hf : long_heap 2147483647 2147483647 = none := by simp [long_heap]
  have hsz1 : wrap_int ((long_queue 2147483647).size + 1) = -2147483648 := by
    rw [hsz]
    simp only [wrap_int]
    norm_num
  refine ⟨run_appends 2147483647, hinv, hsz, _, _,
    insert_head_eval _ _ apple 2147483647 junk (by simp [apple]) hf, hsz1, ?_,
    (insert_head_mod _ _ _ 2147483647 _ (inv_mod _ _ _ hinv) hf).1,
    not_inv_of_neg _ _ _ ?_⟩
  · show wrap_int ((long_queue 2147483647).size + 1) ≠ (long_queue 2147483647).size + 1
    rw [hsz1, hsz]
    norm_num
  · show wrap_int ((long_queue 2147483647).size + 1) < 0
    rw [hsz1]
    norm_num

/-- C3, at `INT_MAX` elements. The queue of `INT_MAX` elements that `INT_MAX`
calls of `q_insert_tail("apple")` leave satisfies the invariant with
`size = INT_MAX`; one more `q_insert_tail("apple")` returns `true` and leaves
`size = -2^31`, which is not `size + 1`, and the invariant does not hold for
the new chain. -/
theorem q_insert_tail_overflow :
    run (Heap.empty, q_new true) (appends 2147483647)
        = .ok (long_heap 2147483647, some (long_queue 2147483647))
      ∧ QueueInv (long_heap 2147483647) (long_queue 2147483647) (List.range 2147483647)
      ∧ (long_queue 2147483647).size = 2147483647
      ∧ q_insert_tail (long_heap 2147483647) (some (long_queue 2147483647))
            (some apple) (some 2147483647) (some junk)
          = .ok (true, long_heap 2147483648, some (long_queue 2147483648))
      ∧ (long_queue 2147483648).size = -2147483648
      ∧ (long_queue 2147483648).size ≠ (long_queue 2147483647).size + 1
      ∧ QueueInvMod (long_heap 2147483648) (long_queue 2147483648) (List.range 2147483648)
      ∧ ¬ QueueInv (long_heap 2147483648) (long_queue 2147483648) (List.range 2147483648) := by
  have hsz : (long_queue 2147483647).size = 2147483647 := by
    simp only [long_queue, wrap_int]
    norm_num
  have hsz1 : (long_queue 2147483648).size = -2147483648 := by
    simp only [long_queue, wrap_int]
    norm_num
  refine ⟨run_appends 2147483647, long_inv 2147483647 (by simp [INT_MAX]), hsz,
    insert_tail_long 2147483647, hsz1, ?_, long_mod 2147483648,
    not_inv_of_neg _ _ _ ?_⟩
  · rw [hsz1, hsz]
    norm_num
  · rw [hsz1]
    norm_num

/-! ## The order of `strcmp` -/

theorem lex_le_refl (x : List Nat) : lex_le x x = true := by
  induction x with
  | nil => rfl
  | cons a as ih => simp [lex_le, ih]

theorem lex_le_total (x : List Nat) : ∀ y, (lex_le x y || lex_le y x) = true := by
  induction x with
  | nil => intro y; simp [lex_le]
  | cons a as ih =>
    intro y
    cases y with
    | nil => simp [lex_le]
    | cons b bs =>
      have := ih bs
      simp only [lex_le, Bool.or_eq_true, Bool.and_eq_true, decide_eq_true_eq] at this ⊢
      rcases Nat.lt_trichotomy a b with hab | hab | hab
      · exact Or.inl (Or.inl hab)
      · subst hab
        rcases this with h1 | h1
        · exact Or.inl (Or.inr ⟨rfl, h1⟩)
        · exact Or.inr (Or.inr ⟨rfl, h1⟩)
      · exact Or.inr (Or.inl hab)

theorem lex_le_trans (x : List Nat) : ∀ y z, lex_le x y = true → lex_le y z = true →
    lex_le x z = true := by
  induction x with
  | nil => intro y z _ _; simp [lex_le]
  | cons a as ih =>
    intro y z hxy hyz
    cases y with
    | nil => simp [lex_le] at hxy
    | cons b bs =>
      cases z with
      | nil => simp [lex_le] at hyz
      | cons c cs =>
        simp only [lex_le, Bool.or_eq_true, Bool.and_eq_true, decide_eq_true_eq] at hxy hyz ⊢
        rcases hxy with h1 | ⟨h1, h2⟩
        · rcases hyz with h3 | ⟨h3, _⟩
          · exact Or.inl (lt_trans h1 h3)
          · exact Or.inl (h3 ▸ h1)
        · rcases hyz with h3 | ⟨h3, h4⟩
          · exact Or.inl (h1 ▸ h3)
          · exact Or.inr ⟨h1.trans h3, ih bs cs h2 h4⟩

theorem mem_tail_of_ne {c : Nat} {cs : List Nat} (hs : 0 ∈ c :: cs) (hc : c ≠ 0) : 0 ∈ cs := by
  rcases List.mem_cons.1 hs with h | h
  · exact absurd h.symm hc
  · exact h

theorem strcmp_spec (x : List Nat) : ∀ y, 0 ∈ x → 0 ∈ y →
    ∃ c, strcmp x y = .ok c ∧ (c ≤ 0 ↔ lex_le (text x) (text y) = true) := by
  induction x with
  | nil => intro y hx _; simp at hx
  | cons a as ih =>
    intro y hx hy
    cases y with
    | nil => simp at hy
    | cons b bs =>
      by_cases hab : a = b
      · subst hab
        by_cases ha : a = 0
        · subst ha
          exact ⟨0, by simp [strcmp], by simp [text_cons_zero, lex_le]⟩
        · obtain ⟨c, hc, hle⟩ := ih bs (mem_tail_of_ne hx ha) (mem_tail_of_ne hy ha)
          refine ⟨c, by simp [strcmp, ha, hc], ?_⟩
          rw [hle, text_cons_ne _ _ ha, text_cons_ne _ _ ha]
          simp [lex_le]
      · refine ⟨(a : Int) - (b : Int), by simp [strcmp, hab], ?_⟩
        by_cases ha : a = 0
        · subst ha
          simp [text_cons_zero, lex_le]
        · by_cases hb : b = 0
          · subst hb
            rw [text_cons_ne _ _ ha, text_cons_zero]
            simp only [lex_le]
            constructor
            · intro h
              omega
            · intro h
              simp at h
          · rw [text_cons_ne _ _ ha, text_cons_ne _ _ hb]
            simp only [lex_le, Bool.or_eq_true, Bool.and_eq_true, decide_eq_true_eq]
            constructor
            · intro h
              exact Or.inl (by omega)
            · rintro (h | ⟨h, _⟩)
              · omega
              · exact absurd h hab

theorem str_le_iff (x y : List Nat) (hx : 0 ∈ x) (hy : 0 ∈ y) :
    str_le x y ↔ lex_le (text x) (text y) = true := by
  obtain ⟨c, hc, hle⟩ := strcmp_spec x y hx hy
  constructor
  · rintro ⟨c1, hc1, hle1⟩
    have : c1 = c := by simpa [hc] using hc1.symm
    subst this
    exact hle.1 hle1
  · intro h
    exact ⟨c, hc, hle.2 h⟩

/-! ## Heaps with the same values -/

theorem SameValues.refl (h : Heap) : SameValues h h := fun _ => rfl

theorem SameValues.trans {h h1 h2 : Heap} (h01 : SameValues h h1) (h12 : SameValues h1 h2) :
    SameValues h h2 := fun a => (h12 a).trans (h01 a)

theorem SameValues.set_next (h : Heap) (t : Ptr) (et : list_ele_t) (v : Option Ptr)
    (het : h t = some et) : SameValues h (h.set t { et with next := v }) := by
  intro a
  by_cases hat : a = t
  · subst hat
    simp [het]
  · rw [Heap.set_other _ _ _ _ hat]

theorem SameValues.keyed {h h1 : Heap} (hv : SameValues h h1) (key : Ptr → List Nat)
    (l : List Ptr) (hk : Keyed h key l) : Keyed h1 key l := by
  intro a ha
  obtain ⟨e, v, he, hev, h0, ht⟩ := hk a ha
  have := hv a
  rw [he] at this
  cases h1a : h1 a with
  | none => simp [h1a] at this
  | some e1 =>
    rw [h1a] at this
    simp only [Option.map_some', Option.some.injEq] at this
    exact ⟨e1, v, rfl, by rw [this, hev], h0, ht⟩

theorem SameValues.values {h h1 : Heap} (hv : SameValues h h1) (l : List Ptr) :
    values h1 l = values h l := by
  apply values_congr
  intro a _
  have := hv a
  cases h1a : h1 a with
  | none =>
    cases ha : h a with
    | none => rfl
    | some e => simp [h1a, ha] at this
  | some e1 =>
    cases ha : h a with
    | none => simp [h1a, ha] at this
    | some e =>
      simp only [h1a, ha, Option.map_some', Option.some.injEq] at this
      simp [this]

theorem keyed_key_of (h : Heap) (l : List Ptr) (hs : AllStrings h l) : Keyed h (key_of h) l := by
  intro a ha
  obtain ⟨e, v, he, hev, h0⟩ := hs a ha
  exact ⟨e, v, he, hev, h0, by simp [key_of, he, hev]⟩

/-! ## `merge` -/

theorem merge_loop_left_null (fuel : Nat) (st : MergeState) (hl : st.left = none) :
    merge_loop fuel st = .ok st := by
  cases fuel <;> simp [merge_loop, hl]

theorem merge_loop_right_null (fuel : Nat) (st : MergeState) (hr : st.right = none) :
    merge_loop fuel st = .ok st := by
  cases hl : st.left <;> cases fuel <;> simp [merge_loop, hl, hr]

theorem merge_loop_take_left (fuel : Nat) (h : Heap) (l r hd t : Ptr) (el er et : list_ele_t)
    (lv rv : List Nat) (c : Int) (hl : h l = some el) (hr : h r = some er)
    (hlv : el.value = some lv) (hrv : er.value = some rv) (hc : strcmp lv rv = .ok c)
    (hle : c ≤ 0) (ht : h t = some et) (hlt : l ≠ t) :
    merge_loop (fuel + 1)
        { heap := h, left := some l, right := some r, head := some hd, tail := some t }
      = merge_loop fuel
        { heap := h.set t { et with next := some l }, left := el.next, right := some r,
          head := some hd, tail := some l } := by
  rw [merge_loop]
  simp [deref, hl, hr, hlv, hrv, chars, hc, hle, set_next, ht, Heap.set_other _ _ _ _ hlt]

theorem merge_loop_take_right (fuel : Nat) (h : Heap) (l r hd t : Ptr) (el er et : list_ele_t)
    (lv rv : List Nat) (c : Int) (hl : h l = some el) (hr : h r = some er)
    (hlv : el.value = some lv) (hrv : er.value = some rv) (hc : strcmp lv rv = .ok c)
    (hle : ¬ c ≤ 0) (ht : h t = some et) (hrt : r ≠ t) :
    merge_loop (fuel + 1)
        { heap := h, left := some l, right := some r, head := some hd, tail := some t }
      = merge_loop fuel
        { heap := h.set t { et with next := some r }, left := some l, right := er.next,
          head := some hd, tail := some r } := by
  rw [merge_loop]
  simp [deref, hl, hr, hlv, hrv, chars, hc, hle, set_next, ht, Heap.set_other _ _ _ _ hrt]

theorem merge_loop_first_left (fuel : Nat) (h : Heap) (l r : Ptr) (el er : list_ele_t)
    (lv rv : List Nat) (c : Int) (hl : h l = some el) (hr : h r = some er)
    (hlv : el.value = some lv) (hrv : er.value = some rv) (hc : strcmp lv rv = .ok c)
    (hle : c ≤ 0) :
    merge_loop (fuel + 1)
        { heap := h, left := some l, right := some r, head := none, tail := none }
      = merge_loop fuel
        { heap := h, left := el.next, right := some r, head := some l, tail := some l } := by
  rw [merge_loop]
  simp [deref, hl, hr, hlv, hrv, chars, hc, hle]

theorem merge_loop_first_right (fuel : Nat) (h : Heap) (l r : Ptr) (el er : list_ele_t)
    (lv rv : List Nat) (c : Int) (hl : h l = some el) (hr : h r = some er)
    (hlv : el.value = some lv) (hrv : er.value = some rv) (hc : strcmp lv rv = .ok c)
    (hle : ¬ c ≤ 0) :
    merge_loop (fuel + 1)
        { heap := h, left := some l, right := some r, head := none, tail := none }
      = merge_loop fuel
        { heap := h, left := some l, right := er.next, head := some r, tail := some r } := by
  rw [merge_loop]
  simp [deref, hl, hr, hlv, hrv, chars, hc, hle]

theorem chain_set_front (h : Heap) (t : Ptr) (et : list_ele_t) (p : Option Ptr) (l : List Ptr)
    (hc : Chain h p l) (htl : t ∉ l) :
    Chain (h.set t { et with next := p }) (some t) (t :: l) := by
  refine (chain_cons_iff _ _ _ _).2 ⟨rfl, _, Heap.set_same _ _ _, ?_⟩
  exact chain_frame h _ l p (fun a ha => Heap.set_other _ _ _ _ (fun hat => htl (hat ▸ ha))) hc

theorem merge_loop_tail (key : Ptr → List Nat) :
    ∀ (fuel : Nat) (L R : List Ptr) (h : Heap) (left right : Option Ptr) (hd t : Ptr)
      (et : list_ele_t),
      Chain h left L → Chain h right R → (∀ a ∈ L, a ∉ R) → t ∉ L → t ∉ R →
      h t = some et → Keyed h key (L ++ R) → (L ≠ [] ∨ R ≠ []) → L.length + R.length ≤ fuel →
      ∃ h1, (do
          let st ← merge_loop fuel
            { heap := h, left := left, right := right, head := some hd, tail := some t }
          merge_finish st) = .ok (h1, some hd)
        ∧ Chain h1 (some t) (t :: List.merge L R (fun a b => lex_le (key a) (key b)))
        ∧ (∀ a, a ≠ t → a ∉ L → a ∉ R → h1 a = h a)
        ∧ SameValues h h1 := by
  intro fuel
  induction fuel with
  | zero =>
    intro L R h left right hd t et _ _ _ _ _ _ _ hne hlen
    have h1 : L = [] := List.length_eq_zero.1 (by omega)
    have h2 : R = [] := List.length_eq_zero.1 (by omega)
    rcases hne with hne | hne
    · exact absurd h1 hne
    · exact absurd h2 hne
  | succ fuel ih =>
    intro L R h left right hd t et hcl hcr hdis htl htr het hk hne hlen
    cases L with
    | nil =>
      have hl := (chain_nil_iff h left).1 hcl
      subst hl
      cases R with
      | nil => simp at hne
      | cons r R =>
        have hr := ((chain_cons_iff h right r R).1 hcr).1
        subst hr
        refine ⟨h.set t { et with next := some r }, ?_, ?_, ?_, SameValues.set_next h t et _ het⟩
        · rw [merge_loop_left_null _ _ rfl]
          simp [merge_finish, set_next_some h t et _ het]
        · rw [List.nil_merge]
          exact chain_set_front h t et _ _ hcr htr
        · intro a hat _ _
          exact Heap.set_other _ _ _ _ hat
    | cons l L =>
      obtain ⟨hl, el0, hel, hcl1⟩ := (chain_cons_iff h left l L).1 hcl
      subst hl
      cases R with
      | nil =>
        have hr := (chain_nil_iff h right).1 hcr
        subst hr
        refine ⟨h.set t { et with next := some l }, ?_, ?_, ?_, SameValues.set_next h t et _ het⟩
        · rw [merge_loop_right_null _ _ rfl]
          simp [merge_finish, set_next_some h t et _ het]
        · rw [List.merge_right]
          exact chain_set_front h t et _ _ hcl htl
        · intro a hat _ _
          exact Heap.set_other _ _ _ _ hat
      | cons r R =>
        obtain ⟨hr, er0, her, hcr1⟩ := (chain_cons_iff h right r R).1 hcr
        subst hr
        obtain ⟨el, lv, hel1, hlv, hl0, hlk⟩ := hk l (by simp)
        obtain ⟨er, rv, her1, hrv, hr0, hrk⟩ := hk r (by simp)
        have e1 : el = el0 := by simpa [hel] using hel1.symm
        have e2 : er = er0 := by simpa [her] using her1.symm
        subst e1 e2
        obtain ⟨c, hc, hcle⟩ := strcmp_spec lv rv hl0 hr0
        rw [hlk, hrk] at hcle
        have hlt : l ≠ t := fun hlt => htl (hlt ▸ List.mem_cons_self _ _)
        have hrt : r ≠ t := fun hrt => htr (hrt ▸ List.mem_cons_self _ _)
        have hndl := chain_nodup h _ _ hcl
        have hndr := chain_nodup h _ _ hcr
        have hsv := SameValues.set_next h t et
        by_cases hle : c ≤ 0
        · have hfr : ∀ a, a ≠ t → (h.set t { et with next := some l }) a = h a :=
            fun a hat => Heap.set_other _ _ _ _ hat
          obtain ⟨h1, hrun, hch, hframe, hval⟩ := ih L (r :: R)
            (h.set t { et with next := some l }) el.next (some r) hd l el
            (chain_frame h _ L _ (fun a ha => hfr a (fun hat =>
              htl (hat ▸ List.mem_cons_of_mem _ ha))) hcl1)
            (chain_frame h _ (r :: R) _ (fun a ha => hfr a (fun hat => htr (hat ▸ ha))) hcr)
            (fun a ha => hdis a (List.mem_cons_of_mem _ ha))
            (List.nodup_cons.1 hndl).1
            (hdis l (List.mem_cons_self _ _))
            (by rw [hfr l hlt]; exact hel)
            ((hsv (some l) het).keyed key _ (fun a ha => hk a (by
              rcases List.mem_append.1 ha with ha | ha
              · exact List.mem_append_left _ (List.mem_cons_of_mem _ ha)
              · exact List.mem_append_right _ ha)))
            (Or.inr (by simp))
            (by simp only [List.length_cons] at hlen ⊢; omega)
          refine ⟨h1, ?_, ?_, ?_, (hsv (some l) het).trans hval⟩
          · rw [merge_loop_take_left fuel h l r hd t el er et lv rv c hel her hlv hrv hc hle
              het hlt]
            exact hrun
          · rw [List.cons_merge_cons_pos (fun a b => lex_le (key a) (key b)) L R (hcle.1 hle)]
            refine (chain_cons_iff _ _ _ _).2 ⟨rfl, { et with next := some l }, ?_, hch⟩
            rw [hframe t (fun htl1 => hlt htl1.symm)
              (fun hm => htl (List.mem_cons_of_mem _ hm)) htr]
            exact Heap.set_same _ _ _
          · intro a hat hal har
            rw [hframe a (fun hal1 => hal (hal1 ▸ List.mem_cons_self _ _))
              (fun hm => hal (List.mem_cons_of_mem _ hm)) har]
            exact hfr a hat
        · have hfr : ∀ a, a ≠ t → (h.set t { et with next := some r }) a = h a :=
            fun a hat => Heap.set_other _ _ _ _ hat
          have hlr : l ∉ r :: R := hdis l (List.mem_cons_self _ _)
          obtain ⟨h1, hrun, hch, hframe, hval⟩ := ih (l :: L) R
            (h.set t { et with next := some r }) (some l) er.next hd r er
            (chain_frame h _ (l :: L) _ (fun a ha => hfr a (fun hat => htl (hat ▸ ha))) hcl)
            (chain_frame h _ R _ (fun a ha => hfr a (fun hat =>
              htr (hat ▸ List.mem_cons_of_mem _ ha))) hcr1)
            (fun a ha har => hdis a ha (List.mem_cons_of_mem _ har))
            (fun hm => hdis r hm (List.mem_cons_self _ _))
            (List.nodup_cons.1 hndr).1
            (by rw [hfr r hrt]; exact her)
            ((hsv (some r) het).keyed key _ (fun a ha => hk a (by
              rcases List.mem_append.1 ha with ha | ha
              · exact List.mem_append_left _ ha
              · exact List.mem_append_right _ (List.mem_cons_of_mem _ ha))))
            (Or.inl (by simp))
            (by simp only [List.length_cons] at hlen ⊢; omega)
          have hnle : ¬ lex_le (key l) (key r) = true := fun hx => hle (hcle.2 hx)
          refine ⟨h1, ?_, ?_, ?_, (hsv (some r) het).trans hval⟩
          · rw [merge_loop_take_right fuel h l r hd t el er et lv rv c hel her hlv hrv hc hle
              het hrt]
            exact hrun
          · rw [List.cons_merge_cons_neg (fun a b => lex_le (key a) (key b)) L R hnle]
            refine (chain_cons_iff _ _ _ _).2 ⟨rfl, { et with next := some r }, ?_, hch⟩
            rw [hframe t (fun htr1 => hrt htr1.symm) htl
              (fun hm => htr (List.mem_cons_of_mem _ hm))]
            exact Heap.set_same _ _ _
          · intro a hat hal har
            rw [hframe a (fun har1 => har (har1 ▸ List.mem_cons_self _ _)) hal
              (fun hm => har (List.mem_cons_of_mem _ hm))]
            exact hfr a hat

theorem merge_spec (key : Ptr → List Nat) (fuel : Nat) (L R : List Ptr) (h : Heap)
    (left right : Option Ptr) (hcl : Chain h left L) (hcr : Chain h right R)
    (hdis : ∀ a ∈ L, a ∉ R) (hL : L ≠ []) (hR : R ≠ []) (hk : Keyed h key (L ++ R))
    (hlen : L.length + R.length ≤ fuel) :
    ∃ h1 p1, merge fuel h left right = .ok (h1, p1)
      ∧ Chain h1 p1 (List.merge L R (fun a b => lex_le (key a) (key b)))
      ∧ (∀ a, a ∉ L → a ∉ R → h1 a = h a)
      ∧ SameValues h h1 := by
  cases L with
  | nil => exact absurd rfl hL
  | cons l L =>
    cases R with
    | nil => exact absurd rfl hR
    | cons r R =>
      obtain ⟨hl, el0, hel, hcl1⟩ := (chain_cons_iff h left l L).1 hcl
      obtain ⟨hr, er0, her, hcr1⟩ := (chain_cons_iff h right r R).1 hcr
      subst hl hr
      obtain ⟨el, lv, hel1, hlv, hl0, hlk⟩ := hk l (by simp)
      obtain ⟨er, rv, her1, hrv, hr0, hrk⟩ := hk r (by simp)
      have e1 : el = el0 := by simpa [hel] using hel1.symm
      have e2 : er = er0 := by simpa [her] using her1.symm
      subst e1 e2
      obtain ⟨c, hc, hcle⟩ := strcmp_spec lv rv hl0 hr0
      rw [hlk, hrk] at hcle
      have hndl := chain_nodup h _ _ hcl
      have hndr := chain_nodup h _ _ hcr
      obtain ⟨fuel, rfl⟩ : ∃ f, fuel = f + 1 :=
        ⟨fuel - 1, by simp only [List.length_cons] at hlen; omega⟩
      by_cases hle : c ≤ 0
      · obtain ⟨h1, hrun, hch, hframe, hval⟩ := merge_loop_tail key fuel L (r :: R) h el.next
          (some r) l l el hcl1 hcr (fun a ha => hdis a (List.mem_cons_of_mem _ ha))
          (List.nodup_cons.1 hndl).1 (hdis l (List.mem_cons_self _ _)) hel
          (fun a ha => hk a (by
            rcases List.mem_append.1 ha with ha | ha
            · exact List.mem_append_left _ (List.mem_cons_of_mem _ ha)
            · exact List.mem_append_right _ ha))
          (Or.inr (by simp)) (by simp only [List.length_cons] at hlen ⊢; omega)
        refine ⟨h1, some l, ?_, ?_, ?_, hval⟩
        · simp only [merge]
          rw [merge_loop_first_left fuel h l r el er lv rv c hel her hlv hrv hc hle]
          exact hrun
        · rw [List.cons_merge_cons_pos (fun a b => lex_le (key a) (key b)) L R (hcle.1 hle)]
          exact hch
        · intro a hal har
          exact hframe a (fun hal1 => hal (hal1 ▸ List.mem_cons_self _ _))
            (fun hm => hal (List.mem_cons_of_mem _ hm)) har
      · have hnle : ¬ lex_le (key l) (key r) = true := fun hx => hle (hcle.2 hx)
        obtain ⟨h1, hrun, hch, hframe, hval⟩ := merge_loop_tail key fuel (l :: L) R h (some l)
          er.next r r er hcl hcr1 (fun a ha har => hdis a ha (List.mem_cons_of_mem _ har))
          (fun hm => hdis r hm (List.mem_cons_self _ _)) (List.nodup_cons.1 hndr).1 her
          (fun a ha => hk a (by
            rcases List.mem_append.1 ha with ha | ha
            · exact List.mem_append_left _ ha
            · exact List.mem_append_right _ (List.mem_cons_of_mem _ ha)))
          (Or.inl (by simp)) (by simp only [List.length_cons] at hlen ⊢; omega)
        refine ⟨h1, some r, ?_, ?_, ?_, hval⟩
        · simp only [merge]
          rw [merge_loop_first_right fuel h l r el er lv rv c hel her hlv hrv hc hle]
          exact hrun
        · rw [List.cons_merge_cons_neg (fun a b => lex_le (key a) (key b)) L R hnle]
          exact hch
        · intro a hal har
          exact hframe a (fun har1 => har (har1 ▸ List.mem_cons_self _ _)) hal
            (fun hm => har (List.mem_cons_of_mem _ hm))

/-! ## The split of `merge_sort` -/

theorem chain_getElem (h : Heap) : ∀ (l : List Ptr) (p : Option Ptr) (i : Nat) (a : Ptr),
    Chain h p l → l[i]? = some a → ∃ e, h a = some e ∧ e.next = l[i + 1]? := by
  intro l
  induction l with
  | nil => intro p i a _ hi; simp at hi
  | cons b l ih =>
    intro p i a hc hi
    obtain ⟨_, e, he, hc1⟩ := (chain_cons_iff h p b l).1 hc
    cases i with
    | zero =>
      have hba : b = a := by simpa using hi
      subst hba
      refine ⟨e, he, ?_⟩
      rw [chain_head h _ _ hc1]
      cases l <;> simp
    | succ i =>
      have hi1 : l[i]? = some a := by simpa using hi
      obtain ⟨e1, he1, hn⟩ := ih _ i a hc1 hi1
      exact ⟨e1, he1, by simpa using hn⟩

theorem chain_drop (h : Heap) : ∀ (k : Nat) (l : List Ptr) (p : Option Ptr),
    Chain h p l → Chain h l[k]? (l.drop k) := by
  intro k
  induction k with
  | zero =>
    intro l p hc
    have := chain_head h p l hc
    cases l with
    | nil => simp
    | cons a l =>
      simp only [List.head?_cons] at this
      subst this
      simpa using hc
  | succ k ih =>
    intro l p hc
    cases l with
    | nil => simp
    | cons a l =>
      obtain ⟨_, e, _, hc1⟩ := (chain_cons_iff h p a l).1 hc
      simpa using ih l _ hc1

theorem chain_cut (h : Heap) (t : Ptr) (et : list_ele_t) (het : h t = some et) :
    ∀ (l : List Ptr) (p : Option Ptr) (k : Nat), Chain h p l → l[k]? = some t →
      Chain (h.set t { et with next := none }) p (l.take (k + 1)) := by
  intro l
  induction l with
  | nil => intro p k _ hk; simp at hk
  | cons a l ih =>
    intro p k hc hk
    have hnd := chain_nodup h _ _ hc
    obtain ⟨hp, e, he, hc1⟩ := (chain_cons_iff h p a l).1 hc
    cases k with
    | zero =>
      have hat : a = t := by simpa using hk
      subst hat
      simp only [List.take_succ_cons, List.take_zero]
      exact (chain_cons_iff _ _ _ _).2 ⟨hp, _, Heap.set_same _ _ _, by simp⟩
    | succ k =>
      have hk1 : l[k]? = some t := by simpa using hk
      have htm : t ∈ l := List.getElem?_mem hk1
      have hat : a ≠ t := fun hat => (List.nodup_cons.1 hnd).1 (hat ▸ htm)
      simp only [List.take_succ_cons]
      refine (chain_cons_iff _ _ _ _).2 ⟨hp, e, ?_, ih _ k hc1 hk1⟩
      rw [Heap.set_other _ _ _ _ hat]
      exact he

theorem split_loop_spec (h : Heap) (l : List Ptr) (p : Option Ptr) (hc : Chain h p l) :
    ∀ (fuel i : Nat), 2 * i + 1 ≤ l.length → l.length ≤ 2 * i + 2 + 2 * fuel →
      split_loop fuel h l[2 * i + 1]? l[i]? = .ok l[(l.length - 1) / 2]? := by
  intro fuel
  induction fuel with
  | zero =>
    intro i h1 h2
    rw [split_loop.eq_def]
    by_cases hn : l.length = 2 * i + 1
    · rw [List.getElem?_eq_none (by omega)]
      simp only
      congr 2
      omega
    · have hlt : 2 * i + 1 < l.length := by omega
      obtain ⟨e, he, hn1⟩ := chain_getElem h l p (2 * i + 1) _ hc (List.getElem?_eq_getElem hlt)
      rw [List.getElem?_eq_getElem hlt]
      simp only [deref, he, ok_bind, hn1]
      rw [List.getElem?_eq_none (by omega)]
      simp only [pure_eq_ok]
      congr 2
      omega
  | succ fuel ih =>
    intro i h1 h2
    rw [split_loop.eq_def]
    by_cases hn : l.length = 2 * i + 1
    · rw [List.getElem?_eq_none (by omega)]
      simp only
      congr 2
      omega
    · have hlt : 2 * i + 1 < l.length := by omega
      obtain ⟨e, he, hn1⟩ := chain_getElem h l p (2 * i + 1) _ hc (List.getElem?_eq_getElem hlt)
      rw [List.getElem?_eq_getElem hlt]
      simp only [deref, he, ok_bind, hn1]
      by_cases hn2 : l.length = 2 * i + 2
      · rw [List.getElem?_eq_none (by omega)]
        simp only [pure_eq_ok]
        congr 2
        omega
      · have hlt2 : 2 * i + 1 + 1 < l.length := by omega
        have hlti : i < l.length := by omega
        obtain ⟨g, hg, hgn⟩ := chain_getElem h l p (2 * i + 1 + 1) _ hc
          (List.getElem?_eq_getElem hlt2)
        obtain ⟨s, hs, hsn⟩ := chain_getElem h l p i _ hc (List.getElem?_eq_getElem hlti)
        rw [List.getElem?_eq_getElem hlt2, List.getElem?_eq_getElem hlti]
        simp only [hg, hs, ok_bind, hgn, hsn]
        have := ih (i + 1) (by omega) (by omega)
        have e3 : 2 * (i + 1) + 1 = 2 * i + 1 + 1 + 1 := by ring
        rw [e3] at this
        exact this

/-! ## The order computed by `merge_sort` -/

theorem sort_list_perm (le : Ptr → Ptr → Bool) : ∀ (fuel : Nat) (l : List Ptr),
    (sort_list le fuel l).Perm l := by
  intro fuel
  induction fuel with
  | zero => intro l; exact List.Perm.refl _
  | succ fuel ih =>
    intro l
    simp only [sort_list]
    split
    · exact List.Perm.refl _
    · refine (List.merge_perm_append le).trans ?_
      refine (List.Perm.append (ih _) (ih _)).trans ?_
      rw [List.take_append_drop]

theorem sort_list_sorted (le : Ptr → Ptr → Bool)
    (htrans : ∀ a b c, le a b = true → le b c = true → le a c = true)
    (htotal : ∀ a b, (le a b || le b a) = true) : ∀ (fuel : Nat) (l : List Ptr),
    l.length ≤ fuel → List.Pairwise (fun a b => le a b = true) (sort_list le fuel l) := by
  intro fuel
  induction fuel with
  | zero =>
    intro l hl
    have : l = [] := List.length_eq_zero.1 (by omega)
    subst this
    exact List.Pairwise.nil
  | succ fuel ih =>
    intro l hl
    simp only [sort_list]
    split
    · rename_i h1
      cases l with
      | nil => exact List.Pairwise.nil
      | cons a l =>
        have : l = [] := List.length_eq_zero.1 (by simp only [List.length_cons] at h1; omega)
        subst this
        exact List.pairwise_singleton _ _
    · rename_i h1
      apply List.sorted_merge htrans htotal
      · apply ih
        rw [List.length_take]
        omega
      · apply ih
        rw [List.length_drop]
        omega

theorem merge_sort_spec (key : Ptr → List Nat) : ∀ (fuel : Nat) (l : List Ptr) (h : Heap)
    (p : Option Ptr), Chain h p l → (l.length ≤ 1 ∨ Keyed h key l) → l.length ≤ fuel →
    ∃ h1 p1, merge_sort (fuel + 1) h p = .ok (h1, p1)
      ∧ Chain h1 p1 (sort_list (fun a b => lex_le (key a) (key b)) fuel l)
      ∧ (∀ a, a ∉ l → h1 a = h a)
      ∧ SameValues h h1 := by
  intro fuel
  induction fuel with
  | zero =>
    intro l h p hc _ hl
    have : l = [] := List.length_eq_zero.1 (by omega)
    subst this
    have hp := (chain_nil_iff h p).1 hc
    subst hp
    exact ⟨h, none, by simp [merge_sort], by simp [sort_list], fun _ _ => rfl, SameValues.refl h⟩
  | succ fuel ih =>
    intro l h p hc hk hl
    cases l with
    | nil =>
      have hp := (chain_nil_iff h p).1 hc
      subst hp
      exact ⟨h, none, by simp [merge_sort], by simp [sort_list], fun _ _ => rfl,
        SameValues.refl h⟩
    | cons a l =>
      obtain ⟨hp, e, he, hc1⟩ := (chain_cons_iff h p a l).1 hc
      subst hp
      cases l with
      | nil =>
        have hn := (chain_nil_iff h _).1 hc1
        refine ⟨h, some a, ?_, by simpa [sort_list] using hc, fun _ _ => rfl, SameValues.refl h⟩
        rw [merge_sort]
        simp [deref, he, hn]
      | cons b l =>
        obtain ⟨hb, _, _, _⟩ := (chain_cons_iff h _ b l).1 hc1
        have hnd := chain_nodup h _ _ hc
        generalize hL : a :: b :: l = L at hc hk hl hnd ⊢
        have hn2 : 2 ≤ L.length := by rw [← hL]; simp
        have hk : Keyed h key L := hk.resolve_left (by omega)
        have hsplit := split_loop_spec h L (some a) hc (fuel + 1) 0 (by omega) (by omega)
        have hL0 : L[0]? = some a := by rw [← hL]; rfl
        have hL1 : L[2 * 0 + 1]? = some b := by rw [← hL]; simp
        rw [hL0, hL1] at hsplit
        have hk0 : (L.length - 1) / 2 < L.length := by omega
        obtain ⟨se, hse, hsn⟩ := chain_getElem h L _ _ _ hc (List.getElem?_eq_getElem hk0)
        rw [List.getElem?_eq_getElem hk0] at hsplit
        have hkk : (L.length + 1) / 2 = (L.length - 1) / 2 + 1 := by omega
        have htd : (L.take ((L.length - 1) / 2 + 1) ++ L.drop ((L.length - 1) / 2 + 1)).Nodup := by
          rw [List.take_append_drop]; exact hnd
        obtain ⟨_, _, hdisj⟩ := List.nodup_append.1 htd
        have hsmem : L[(L.length - 1) / 2] ∈ L.take ((L.length - 1) / 2 + 1) := by
          apply List.getElem?_mem (n := (L.length - 1) / 2)
          rw [List.getElem?_take_of_lt (by omega)]
          exact List.getElem?_eq_getElem hk0
        have hfr1 : ∀ x, x ∈ L.drop ((L.length - 1) / 2 + 1) →
            (h.set L[(L.length - 1) / 2] { se with next := none }) x = h x := by
          intro x hx
          exact Heap.set_other _ _ _ _ (fun hxs => hdisj hsmem (hxs ▸ hx))
        have hsv1 := SameValues.set_next h _ se none hse
        have hcl := chain_cut h _ se hse L _ _ hc (List.getElem?_eq_getElem hk0)
        have hcr := chain_frame h _ _ _ hfr1 (chain_drop h ((L.length - 1) / 2 + 1) L _ hc)
        have hkL : Keyed h key (L.take ((L.length - 1) / 2 + 1)) :=
          fun x hx => hk x (List.mem_of_mem_take hx)
        have hkR : Keyed h key (L.drop ((L.length - 1) / 2 + 1)) :=
          fun x hx => hk x (List.mem_of_mem_drop hx)
        obtain ⟨h2, p2, hrun2, hch2, hframe2, hval2⟩ := ih _ _ _ hcl
          (Or.inr (hsv1.keyed key _ hkL)) (by rw [List.length_take]; omega)
        have hcr2 := chain_frame _ h2 _ _
          (fun x hx => hframe2 x (fun hxl => hdisj hxl hx)) hcr
        obtain ⟨h3, p3, hrun3, hch3, hframe3, hval3⟩ := ih _ _ _ hcr2
          (Or.inr ((hsv1.trans hval2).keyed key _ hkR)) (by rw [List.length_drop]; omega)
        have hpl := sort_list_perm (fun a b => lex_le (key a) (key b)) fuel
          (L.take ((L.length - 1) / 2 + 1))
        have hpr := sort_list_perm (fun a b => lex_le (key a) (key b)) fuel
          (L.drop ((L.length - 1) / 2 + 1))
        have hch2' := chain_frame _ h3 _ _
          (fun x hx => hframe3 x (fun hxr => hdisj (hpl.mem_iff.1 hx) hxr)) hch2
        have hsv3 := (hsv1.trans hval2).trans hval3
        obtain ⟨h4, p4, hrun4, hch4, hframe4, hval4⟩ := merge_spec key (fuel + 1) _ _ h3 p2 p3
          hch2' hch3
          (fun x hx hxr => hdisj (hpl.mem_iff.1 hx) (hpr.mem_iff.1 hxr))
          (fun hnil => by
            have := hpl.length_eq
            rw [hnil, List.length_take] at this
            simp only [List.length_nil] at this
            omega)
          (fun hnil => by
            have := hpr.length_eq
            rw [hnil, List.length_drop] at this
            simp only [List.length_nil] at this
            omega)
          (hsv3.keyed key _ (fun x hx => by
            rcases List.mem_append.1 hx with hx | hx
            · exact hkL x (hpl.mem_iff.1 hx)
            · exact hkR x (hpr.mem_iff.1 hx)))
          (by
            rw [hpl.length_eq, hpr.length_eq, List.length_take, List.length_drop]
            omega)
        refine ⟨h4, p4, ?_, ?_, ?_, hsv3.trans hval4⟩
        · rw [merge_sort]
          simp only [deref, he, ok_bind, hb, hsplit, hse, hsn, set_next, pure_eq_ok]
          simp only [hrun2, hrun3, ok_bind]
          exact hrun4
        · simp only [sort_list]
          rw [if_neg (by omega), hkk]
          exact hch4
        · intro x hx
          have hxl : x ∉ L.take ((L.length - 1) / 2 + 1) := fun hm => hx (List.mem_of_mem_take hm)
          have hxr : x ∉ L.drop ((L.length - 1) / 2 + 1) := fun hm => hx (List.mem_of_mem_drop hm)
          rw [hframe4 x (fun hm => hxl (hpl.mem_iff.1 hm)) (fun hm => hxr (hpr.mem_iff.1 hm)),
            hframe3 x hxr, hframe2 x hxl]
          exact Heap.set_other _ _ _ _ (fun hxs => hxl (hxs ▸ hsmem))

/-! ## Termination of `merge_sort` on every chain -/

theorem strcmp_error (x : List Nat) : ∀ (y : List Nat) (e : Fault),
    strcmp x y = .error e → e = Fault.undefined := by
  induction x with
  | nil => intro y e he; simpa [strcmp] using he.symm
  | cons a as ih =>
    intro y e he
    cases y with
    | nil => simpa [strcmp] using he.symm
    | cons b bs =>
      simp only [strcmp] at he
      by_cases hab : a = b
      · by_cases ha : a = 0
        · simp [hab, ha] at he
          rw [← hab, ha] at he
          simp at he
        · rw [if_neg (by simpa using hab), if_neg ha] at he
          exact ih bs e he
      · simp [hab] at he

theorem compare_cases (x y : Option (List Nat)) :
    compare_values x y = .error Fault.undefined
      ∨ ∃ lv rv c, x = some lv ∧ y = some rv ∧ strcmp lv rv = .ok c := by
  cases x with
  | none => exact Or.inl rfl
  | some lv =>
    cases y with
    | none => exact Or.inl rfl
    | some rv =>
      cases hs : strcmp lv rv with
      | error e =>
        have := strcmp_error lv rv e hs
        subst this
        exact Or.inl (by simp [compare_values, chars, hs])
      | ok c => exact Or.inr ⟨lv, rv, c, rfl, rfl, hs⟩

theorem merge_loop_undefined (fuel : Nat) (h : Heap) (l r : Ptr) (el er : list_ele_t)
    (head tail : Option Ptr) (hl : h l = some el) (hr : h r = some er)
    (hcmp : compare_values el.value er.value = .error Fault.undefined) :
    merge_loop (fuel + 1)
        { heap := h, left := some l, right := some r, head := head, tail := tail }
      = .error Fault.undefined := by
  rw [merge_loop]
  simp only [deref, hl, hr, ok_bind]
  cases hv : el.value with
  | none => simp [chars]
  | some lv =>
    cases hw : er.value with
    | none => simp [chars]
    | some rv =>
      cases hs : strcmp lv rv with
      | error e =>
        have := strcmp_error lv rv e hs
        subst this
        simp [chars, hs]
      | ok c => simp [compare_values, hv, hw, chars, hs] at hcmp

theorem merge_loop_tail_weak :
    ∀ (fuel : Nat) (L R : List Ptr) (h : Heap) (left right : Option Ptr) (hd t : Ptr)
      (et : list_ele_t),
      Chain h left L → Chain h right R → (∀ a ∈ L, a ∉ R) → t ∉ L → t ∉ R →
      h t = some et → (L ≠ [] ∨ R ≠ []) → L.length + R.length ≤ fuel →
      (do
          let st ← merge_loop fuel
            { heap := h, left := left, right := right, head := some hd, tail := some t }
          merge_finish st) = .error Fault.undefined
        ∨ ∃ h1 M, (do
            let st ← merge_loop fuel
              { heap := h, left := left, right := right, head := some hd, tail := some t }
            merge_finish st) = .ok (h1, some hd)
          ∧ Chain h1 (some t) (t :: M) ∧ M.Perm (L ++ R)
          ∧ (∀ a, a ≠ t → a ∉ L → a ∉ R → h1 a = h a)
          ∧ SameValues h h1 := by
  intro fuel
  induction fuel with
  | zero =>
    intro L R h left right hd t et _ _ _ _ _ _ hne hlen
    have h1 : L = [] := List.length_eq_zero.1 (by omega)
    have h2 : R = [] := List.length_eq_zero.1 (by omega)
    rcases hne with hne | hne
    · exact absurd h1 hne
    · exact absurd h2 hne
  | succ fuel ih =>
    intro L R h left right hd t et hcl hcr hdis htl htr het hne hlen
    cases L with
    | nil =>
      have hl := (chain_nil_iff h left).1 hcl
      subst hl
      cases R with
      | nil => simp at hne
      | cons r R =>
        have hr := ((chain_cons_iff h right r R).1 hcr).1
        subst hr
        refine Or.inr ⟨h.set t { et with next := some r }, r :: R, ?_, ?_, by simp, ?_,
          SameValues.set_next h t et _ het⟩
        · rw [merge_loop_left_null _ _ rfl]
          simp [merge_finish, set_next_some h t et _ het]
        · exact chain_set_front h t et _ _ hcr htr
        · intro a hat _ _
          exact Heap.set_other _ _ _ _ hat
    | cons l L =>
      obtain ⟨hl, el, hel, hcl1⟩ := (chain_cons_iff h left l L).1 hcl
      subst hl
      cases R with
      | nil =>
        have hr := (chain_nil_iff h right).1 hcr
        subst hr
        refine Or.inr ⟨h.set t { et with next := some l }, l :: L, ?_, ?_, by simp, ?_,
          SameValues.set_next h t et _ het⟩
        · rw [merge_loop_right_null _ _ rfl]
          simp [merge_finish, set_next_some h t et _ het]
        · exact chain_set_front h t et _ _ hcl htl
        · intro a hat _ _
          exact Heap.set_other _ _ _ _ hat
      | cons r R =>
        obtain ⟨hr, er, her, hcr1⟩ := (chain_cons_iff h right r R).1 hcr
        subst hr
        rcases compare_cases el.value er.value with hcmp | ⟨lv, rv, c, hlv, hrv, hc⟩
        · left
          rw [merge_loop_undefined fuel h l r el er _ _ hel her hcmp]
          rfl
        have hlt : l ≠ t := fun hlt => htl (hlt ▸ List.mem_cons_self _ _)
        have hrt : r ≠ t := fun hrt => htr (hrt ▸ List.mem_cons_self _ _)
        have hndl := chain_nodup h _ _ hcl
        have hndr := chain_nodup h _ _ hcr
        have hsv := SameValues.set_next h t et
        by_cases hle : c ≤ 0
        · have hfr : ∀ a, a ≠ t → (h.set t { et with next := some l }) a = h a :=
            fun a hat => Heap.set_other _ _ _ _ hat
          rw [merge_loop_take_left fuel h l r hd t el er et lv rv c hel her hlv hrv hc hle
            het hlt]
          rcases ih L (r :: R)
            (h.set t { et with next := some l }) el.next (some r) hd l el
            (chain_frame h _ L _ (fun a ha => hfr a (fun hat =>
              htl (hat ▸ List.mem_cons_of_mem _ ha))) hcl1)
            (chain_frame h _ (r :: R) _ (fun a ha => hfr a (fun hat => htr (hat ▸ ha))) hcr)
            (fun a ha => hdis a (List.mem_cons_of_mem _ ha))
            (List.nodup_cons.1 hndl).1
            (hdis l (List.mem_cons_self _ _))
            (by rw [hfr l hlt]; exact hel)
            (Or.inr (by simp))
            (by simp only [List.length_cons] at hlen ⊢; omega)
            with herr | ⟨h1, M, hrun, hch, hperm, hframe, hval⟩
          · exact Or.inl herr
          · refine Or.inr ⟨h1, l :: M, hrun, ?_, ?_, ?_, (hsv (some l) het).trans hval⟩
            · refine (chain_cons_iff _ _ _ _).2 ⟨rfl, { et with next := some l }, ?_, hch⟩
              rw [hframe t (fun htl1 => hlt htl1.symm)
                (fun hm => htl (List.mem_cons_of_mem _ hm)) htr]
              exact Heap.set_same _ _ _
            · exact (hperm.cons l)
            · intro a hat hal har
              rw [hframe a (fun hal1 => hal (hal1 ▸ List.mem_cons_self _ _))
                (fun hm => hal (List.mem_cons_of_mem _ hm)) har]
              exact hfr a hat
        · have hfr : ∀ a, a ≠ t → (h.set t { et with next := some r }) a = h a :=
            fun a hat => Heap.set_other _ _ _ _ hat
          rw [merge_loop_take_right fuel h l r hd t el er et lv rv c hel her hlv hrv hc hle
            het hrt]
          rcases ih (l :: L) R
            (h.set t { et with next := some r }) (some l) er.next hd r er
            (chain_frame h _ (l :: L) _ (fun a ha => hfr a (fun hat => htl (hat ▸ ha))) hcl)
            (chain_frame h _ R _ (fun a ha => hfr a (fun hat =>
              htr (hat ▸ List.mem_cons_of_mem _ ha))) hcr1)
            (fun a ha har => hdis a ha (List.mem_cons_of_mem _ har))
            (fun hm => hdis r hm (List.mem_cons_self _ _))
            (List.nodup_cons.1 hndr).1
            (by rw [hfr r hrt]; exact her)
            (Or.inl (by simp))
            (by simp only [List.length_cons] at hlen ⊢; omega)
            with herr | ⟨h1, M, hrun, hch, hperm, hframe, hval⟩
          · exact Or.inl herr
          · refine Or.inr ⟨h1, r :: M, hrun, ?_, ?_, ?_, (hsv (some r) het).trans hval⟩
            · refine (chain_cons_iff _ _ _ _).2 ⟨rfl, { et with next := some r }, ?_, hch⟩
              rw [hframe t (fun htr1 => hrt htr1.symm) htl
                (fun hm => htr (List.mem_cons_of_mem _ hm))]
              exact Heap.set_same _ _ _
            · exact (hperm.cons r).trans List.perm_middle.symm
            · intro a hat hal har
              rw [hframe a (fun har1 => har (har1 ▸ List.mem_cons_self _ _)) hal
                (fun hm => har (List.mem_cons_of_mem _ hm))]
              exact hfr a hat

theorem merge_weak (fuel : Nat) (L R : List Ptr) (h : Heap)
    (left right : Option Ptr) (hcl : Chain h left L) (hcr : Chain h right R)
    (hdis : ∀ a ∈ L, a ∉ R) (hL : L ≠ []) (hR : R ≠ [])
    (hlen : L.length + R.length ≤ fuel) :
    merge fuel h left right = .error Fault.undefined
      ∨ ∃ h1 p1 M, merge fuel h left right = .ok (h1, p1)
        ∧ Chain h1 p1 M ∧ M.Perm (L ++ R)
        ∧ (∀ a, a ∉ L → a ∉ R → h1 a = h a)
        ∧ SameValues h h1 := by
  cases L with
  | nil => exact absurd rfl hL
  | cons l L =>
    cases R with
    | nil => exact absurd rfl hR
    | cons r R =>
      obtain ⟨hl, el, hel, hcl1⟩ := (chain_cons_iff h left l L).1 hcl
      obtain ⟨hr, er, her, hcr1⟩ := (chain_cons_iff h right r R).1 hcr
      subst hl hr
      have hndl := chain_nodup h _ _ hcl
      have hndr := chain_nodup h _ _ hcr
      obtain ⟨fuel, rfl⟩ : ∃ f, fuel = f + 1 :=
        ⟨fuel - 1, by simp only [List.length_cons] at hlen; omega⟩
      simp only [merge]
      rcases compare_cases el.value er.value with hcmp | ⟨lv, rv, c, hlv, hrv, hc⟩
      · left
        rw [merge_loop_undefined fuel h l r el er _ _ hel her hcmp]
        rfl
      by_cases hle : c ≤ 0
      · rw [merge_loop_first_left fuel h l r el er lv rv c hel her hlv hrv hc hle]
        rcases merge_loop_tail_weak fuel L (r :: R) h el.next
          (some r) l l el hcl1 hcr (fun a ha => hdis a (List.mem_cons_of_mem _ ha))
          (List.nodup_cons.1 hndl).1 (hdis l (List.mem_cons_self _ _)) hel
          (Or.inr (by simp)) (by simp only [List.length_cons] at hlen ⊢; omega)
          with herr | ⟨h1, M, hrun, hch, hperm, hframe, hval⟩
        · exact Or.inl herr
        · refine Or.inr ⟨h1, some l, l :: M, hrun, hch, hperm.cons l, ?_, hval⟩
          intro a hal har
          exact hframe a (fun hal1 => hal (hal1 ▸ List.mem_cons_self _ _))
            (fun hm => hal (List.mem_cons_of_mem _ hm)) har
      · rw [merge_loop_first_right fuel h l r el er lv rv c hel her hlv hrv hc hle]
        rcases merge_loop_tail_weak fuel (l :: L) R h (some l)
          er.next r r er hcl hcr1 (fun a ha har => hdis a ha (List.mem_cons_of_mem _ har))
          (fun hm => hdis r hm (List.mem_cons_self _ _)) (List.nodup_cons.1 hndr).1 her
          (Or.inl (by simp)) (by simp only [List.length_cons] at hlen ⊢; omega)
          with herr | ⟨h1, M, hrun, hch, hperm, hframe, hval⟩
        · exact Or.inl herr
        · refine Or.inr ⟨h1, some r, r :: M, hrun, hch,
            (hperm.cons r).trans List.perm_middle.symm, ?_, hval⟩
          intro a hal har
          exact hframe a (fun har1 => har (har1 ▸ List.mem_cons_self _ _)) hal
            (fun hm => har (List.mem_cons_of_mem _ hm))

theorem merge_sort_split (h : Heap) (l : List Ptr) (a : Ptr) (fuel : Nat)
    (hc : Chain h (some a) l) (hn : 2 ≤ l.length) (hf : l.length ≤ 2 * fuel + 2) :
    ∃ e s se, h a = some e ∧ split_loop fuel h e.next (some a) = .ok (some s)
      ∧ l[(l.length - 1) / 2]? = some s ∧ h s = some se
      ∧ Chain (h.set s { se with next := none }) (some a) (l.take ((l.length + 1) / 2))
      ∧ Chain (h.set s { se with next := none }) se.next (l.drop ((l.length + 1) / 2))
      ∧ (∀ x, x ∈ l.take ((l.length + 1) / 2) → x ∉ l.drop ((l.length + 1) / 2)) := by
  have hnd := chain_nodup h _ _ hc
  match l, hn with
  | a0 :: b :: l, _ =>
    obtain ⟨ha, e, he, hc1⟩ := (chain_cons_iff h _ a0 (b :: l)).1 hc
    have ha0 : a0 = a := (Option.some.inj ha).symm
    subst ha0
    obtain ⟨hb, _, _, _⟩ := (chain_cons_iff h _ b l).1 hc1
    generalize hL : a0 :: b :: l = L at hc hf hnd ⊢
    have hn2 : 2 ≤ L.length := by rw [← hL]; simp
    have hsplit := split_loop_spec h L (some a0) hc fuel 0 (by omega) (by omega)
    have hL0 : L[0]? = some a0 := by rw [← hL]; rfl
    have hL1 : L[2 * 0 + 1]? = some b := by rw [← hL]; simp
    rw [hL0, hL1] at hsplit
    have hk0 : (L.length - 1) / 2 < L.length := by omega
    obtain ⟨se, hse, hsn⟩ := chain_getElem h L _ _ _ hc (List.getElem?_eq_getElem hk0)
    rw [List.getElem?_eq_getElem hk0] at hsplit
    have hkk : (L.length + 1) / 2 = (L.length - 1) / 2 + 1 := by omega
    have htd : (L.take ((L.length - 1) / 2 + 1) ++ L.drop ((L.length - 1) / 2 + 1)).Nodup := by
      rw [List.take_append_drop]; exact hnd
    obtain ⟨_, _, hdisj⟩ := List.nodup_append.1 htd
    have hsmem : L[(L.length - 1) / 2] ∈ L.take ((L.length - 1) / 2 + 1) := by
      apply List.getElem?_mem (n := (L.length - 1) / 2)
      rw [List.getElem?_take_of_lt (by omega)]
      exact List.getElem?_eq_getElem hk0
    have hfr1 : ∀ x, x ∈ L.drop ((L.length - 1) / 2 + 1) →
        (h.set L[(L.length - 1) / 2] { se with next := none }) x = h x := by
      intro x hx
      exact Heap.set_other _ _ _ _ (fun hxs => hdisj hsmem (hxs ▸ hx))
    have hcl := chain_cut h _ se hse L _ _ hc (List.getElem?_eq_getElem hk0)
    have hcr := chain_frame h _ _ _ hfr1 (chain_drop h ((L.length - 1) / 2 + 1) L _ hc)
    rw [← hsn] at hcr
    rw [hkk]
    exact ⟨e, L[(L.length - 1) / 2], se, he, hb ▸ hsplit, List.getElem?_eq_getElem hk0, hse,
      hcl, hcr, fun x hx hx2 => hdisj hx hx2⟩

theorem merge_sort_weak : ∀ (fuel : Nat) (l : List Ptr) (h : Heap) (p : Option Ptr),
    Chain h p l → l.length ≤ fuel →
    merge_sort (fuel + 1) h p = .error Fault.undefined
      ∨ ∃ h1 p1 M, merge_sort (fuel + 1) h p = .ok (h1, p1)
        ∧ Chain h1 p1 M ∧ M.Perm l
        ∧ (∀ a, a ∉ l → h1 a = h a)
        ∧ SameValues h h1 := by
  intro fuel
  induction fuel with
  | zero =>
    intro l h p hc hl
    have : l = [] := List.length_eq_zero.1 (by omega)
    subst this
    have hp := (chain_nil_iff h p).1 hc
    subst hp
    exact Or.inr ⟨h, none, [], by simp [merge_sort], by simp, List.Perm.refl _,
      fun _ _ => rfl, SameValues.refl h⟩
  | succ fuel ih =>
    intro l h p hc hl
    by_cases hn : l.length ≤ 1
    · refine Or.inr ⟨h, p, l, ?_, hc, List.Perm.refl _, fun _ _ => rfl, SameValues.refl h⟩
      match l, hn with
      | [], _ =>
        have hp := (chain_nil_iff h p).1 hc
        subst hp
        simp [merge_sort]
      | [a], _ =>
        obtain ⟨hp, e, he, hc1⟩ := (chain_cons_iff h p a []).1 hc
        subst hp
        have hnx := (chain_nil_iff h _).1 hc1
        rw [merge_sort]
        simp [deref, he, hnx]
    · have hp0 := chain_head h p l hc
      obtain ⟨a, ha⟩ : ∃ a, p = some a := by
        cases l with
        | nil => simp at hn
        | cons a l => exact ⟨a, by simpa using hp0⟩
      subst ha
      obtain ⟨e, s, se, he, hsplit, hs, hse, hcl, hcr, hdisj⟩ :=
        merge_sort_split h l a (fuel + 1) hc (by omega) (by omega)
      have hsl : s ∈ l.take ((l.length + 1) / 2) := by
        apply List.getElem?_mem (n := (l.length - 1) / 2)
        rw [List.getElem?_take_of_lt (by omega)]
        exact hs
      have hen : ∃ b, e.next = some b := by
        have h0 : l[0]? = some a := by
          cases l with
          | nil => simp at hn
          | cons a0 l => simpa using hp0.symm
        obtain ⟨e0, he0, hn0⟩ := chain_getElem h l _ 0 a hc h0
        have : e0 = e := by simpa [he0] using he
        subst this
        rw [List.getElem?_eq_getElem (by omega)] at hn0
        exact ⟨_, hn0⟩
      obtain ⟨b, hb⟩ := hen
      have hunf : merge_sort (fuel + 1 + 1) h (some a) = (do
          let r2 ← merge_sort (fuel + 1) (h.set s { se with next := none }) (some a)
          let r3 ← merge_sort (fuel + 1) r2.1 se.next
          merge (fuel + 1) r3.1 r2.2 r3.2) := by
        rw [merge_sort]
        simp only [deref, he, ok_bind, hb]
        rw [← hb, hsplit]
        simp only [deref, hse, ok_bind, set_next, pure_eq_ok, hb]
      rw [hunf]
      have hsv1 := SameValues.set_next h s se none hse
      rcases ih _ _ _ hcl (by rw [List.length_take]; omega)
        with herr | ⟨h2, p2, M2, hrun2, hch2, hperm2, hframe2, hval2⟩
      · left
        rw [herr]
        rfl
      rw [hrun2]
      simp only [ok_bind]
      have hcr2 := chain_frame _ h2 _ _
        (fun x hx => hframe2 x (fun hxl => hdisj x hxl hx)) hcr
      rcases ih _ _ _ hcr2 (by rw [List.length_drop]; omega)
        with herr | ⟨h3, p3, M3, hrun3, hch3, hperm3, hframe3, hval3⟩
      · left
        rw [herr]
        rfl
      rw [hrun3]
      simp only [ok_bind]
      have hch2' := chain_frame _ h3 _ _
        (fun x hx => hframe3 x (fun hxr => hdisj x (hperm2.mem_iff.1 hx) hxr)) hch2
      rcases merge_weak (fuel + 1) M2 M3 h3 p2 p3 hch2' hch3
        (fun x hx hxr => hdisj x (hperm2.mem_iff.1 hx) (hperm3.mem_iff.1 hxr))
        (fun hnil => by
          have := hperm2.length_eq
          rw [hnil, List.length_take] at this
          simp only [List.length_nil] at this
          omega)
        (fun hnil => by
          have := hperm3.length_eq
          rw [hnil, List.length_drop] at this
          simp only [List.length_nil] at this
          omega)
        (by
          rw [hperm2.length_eq, hperm3.length_eq, List.length_take, List.length_drop]
          omega)
        with herr | ⟨h4, p4, M, hrun4, hch4, hperm4, hframe4, hval4⟩
      · exact Or.inl herr
      · refine Or.inr ⟨h4, p4, M, hrun4, hch4, ?_, ?_, ((hsv1.trans hval2).trans hval3).trans hval4⟩
        · refine hperm4.trans ((List.Perm.append hperm2 hperm3).trans ?_)
          rw [List.take_append_drop]
        · intro x hx
          have hxl : x ∉ l.take ((l.length + 1) / 2) := fun hm => hx (List.mem_of_mem_take hm)
          have hxr : x ∉ l.drop ((l.length + 1) / 2) := fun hm => hx (List.mem_of_mem_drop hm)
          rw [hframe4 x (fun hm => hxl (hperm2.mem_iff.1 hm)) (fun hm => hxr (hperm3.mem_iff.1 hm)),
            hframe3 x hxr, hframe2 x hxl]
          exact Heap.set_other _ _ _ _ (fun hxs => hxl (hxs ▸ hsl))

/-! ## The sort of a queue with a `NULL` value -/

theorem q_sort_heap_null (fuel : Nat) :
    ∃ e, q_sort fuel heap_null (some queue_null) = .error e
      ∧ (2 ≤ fuel → e = Fault.undefined) := by
  match fuel with
  | 0 => exact ⟨Fault.fuel, rfl, by omega⟩
  | 1 => exact ⟨Fault.fuel, rfl, by omega⟩
  | fuel + 2 =>
    refine ⟨Fault.undefined, ?_, fun _ => rfl⟩
    have hs : split_loop (fuel + 1) heap_null (some 1) (some 2) = .ok (some 2) := by
      rw [split_loop.eq_def]
      rfl
    have hm1 : ∀ (hh : Heap) (a : Ptr) (v : Option (List Nat)),
        hh a = some { value := v, next := none } →
        merge_sort (fuel + 1) hh (some a) = .ok (hh, some a) := by
      intro hh a v ha
      rw [merge_sort]
      simp [deref, ha]
    have h2 : heap_null 2 = some { value := none, next := some 1 } := rfl
    simp only [q_sort, queue_null]
    rw [merge_sort]
    simp only [deref, h2, ok_bind, hs, set_next, pure_eq_ok]
    rw [hm1 _ 2 none (Heap.set_same _ _ _)]
    simp only [ok_bind]
    rw [hm1 _ 1 (some apple) rfl]
    simp only [ok_bind, merge]
    rw [merge_loop]
    rfl

theorem q_sort_null_never (fuel : Nat) :
    ¬ ∃ r, q_sort fuel heap_null (some queue_null) = .ok r := by
  rintro ⟨r, hr⟩
  obtain ⟨e, he, _⟩ := q_sort_heap_null fuel
  rw [he] at hr
  exact absurd hr (by simp)


/-! ## `q_sort` -/

theorem tail_walk_spec (h : Heap) : ∀ (l2 : List Ptr) (t : Ptr) (fuel : Nat),
    Chain h (some t) (t :: l2) → l2.length ≤ fuel →
    tail_walk fuel h (some t) = .ok (t :: l2).getLast? := by
  intro l2
  induction l2 with
  | nil =>
    intro t fuel hc _
    obtain ⟨_, e, he, hc1⟩ := (chain_cons_iff h _ t []).1 hc
    have hn := (chain_nil_iff h _).1 hc1
    rw [tail_walk.eq_def]
    simp [deref, he, hn]
  | cons b l2 ih =>
    intro t fuel hc hl
    obtain ⟨_, e, he, hc1⟩ := (chain_cons_iff h _ t (b :: l2)).1 hc
    obtain ⟨hb, _⟩ := (chain_cons_iff h _ b l2).1 hc1
    obtain ⟨fuel, rfl⟩ : ∃ f, fuel = f + 1 :=
      ⟨fuel - 1, by simp only [List.length_cons] at hl; omega⟩
    rw [tail_walk.eq_def]
    simp only [deref, he, ok_bind, hb]
    rw [ih b fuel (hb ▸ hc1) (by simp only [List.length_cons] at hl; omega)]
    simp

theorem tail_walk_mem (h : Heap) (l : List Ptr) (p : Option Ptr) (t : Ptr) (fuel : Nat)
    (hc : Chain h p l) (ht : t ∈ l) (hl : l.length ≤ fuel) :
    tail_walk fuel h (some t) = .ok l.getLast? := by
  obtain ⟨l1, l2, rfl⟩ := List.append_of_mem ht
  obtain ⟨p1, hc1⟩ := chain_append h l1 (t :: l2) p hc
  have hp1 := ((chain_cons_iff h p1 t l2).1 hc1).1
  subst hp1
  rw [tail_walk_spec h l2 t fuel hc1 (by simp at hl; omega)]
  rw [List.getLast?_append_of_ne_nil l1 (by simp)]

theorem sort_list_nil (le : Ptr → Ptr → Bool) (fuel : Nat) : sort_list le fuel [] = [] := by
  cases fuel <;> simp [sort_list]

theorem q_sort_spec (h : Heap) (q : queue_t) (l : List Ptr) (fuel : Nat)
    (hinv : QueueInv h q l) (hs : l.length ≤ 1 ∨ AllStrings h l) (hf : l.length < fuel) :
    ∃ h1 q1, q_sort fuel h (some q) = .ok (h1, some q1)
      ∧ QueueInv h1 q1 (sort_list (fun a b => lex_le (key_of h a) (key_of h b)) (fuel - 1) l)
      ∧ (∀ a, a ∉ l → h1 a = h a)
      ∧ SameValues h h1 := by
  have hnil := inv_nil_iff h q l hinv
  by_cases hl : l = []
  · have hh := hnil.1.1 hl
    subst hl
    refine ⟨h, q, by simp [q_sort, hh], ?_, fun _ _ => rfl, SameValues.refl h⟩
    rw [sort_list_nil]
    exact hinv
  · have hhne : q.head ≠ none := fun hn => hl (hnil.1.2 hn)
    have htne : q.tail ≠ none := fun hn => hl (hnil.2.1.2 hn)
    obtain ⟨a, ha⟩ := Option.ne_none_iff_exists'.1 hhne
    obtain ⟨t, ht⟩ := Option.ne_none_iff_exists'.1 htne
    obtain ⟨fuel, rfl⟩ : ∃ f, fuel = f + 1 := ⟨fuel - 1, by omega⟩
    obtain ⟨h1, p1, hrun, hch, hframe, hval⟩ := merge_sort_spec (key_of h) fuel l h q.head
      hinv.1 (hs.imp id (keyed_key_of h l)) (by omega)
    have hperm := sort_list_perm (fun a b => lex_le (key_of h a) (key_of h b)) fuel l
    have htl : l.getLast? = some t := by rw [← hinv.2.1, ht]
    have htm : t ∈ sort_list (fun a b => lex_le (key_of h a) (key_of h b)) fuel l :=
      hperm.mem_iff.2 (List.mem_of_getLast?_eq_some htl)
    have hwalk := tail_walk_mem h1 _ p1 t (fuel + 1) hch htm (by rw [hperm.length_eq]; omega)
    rw [Nat.add_sub_cancel]
    refine ⟨h1, { q with head := p1, tail := (sort_list
      (fun a b => lex_le (key_of h a) (key_of h b)) fuel l).getLast? }, ?_,
      ⟨hch, rfl, ?_, hinv.2.2.2⟩, hframe, hval⟩
    · simp only [q_sort, ha]
      rw [← ha, hrun]
      simp only [ok_bind, ht, hwalk, pure_eq_ok]
    · rw [hperm.length_eq]
      exact hinv.2.2.1

theorem q_sort_weak (h : Heap) (q : queue_t) (l : List Ptr) (fuel : Nat)
    (hinv : QueueInv h q l) (hf : l.length < fuel) :
    q_sort fuel h (some q) = .error Fault.undefined
      ∨ ∃ h1 q1 l1, q_sort fuel h (some q) = .ok (h1, some q1) ∧ QueueInv h1 q1 l1
          ∧ l1.Perm l ∧ (∀ a, a ∉ l → h1 a = h a) ∧ SameValues h h1 := by
  have hnil := inv_nil_iff h q l hinv
  by_cases hl : l = []
  · have hh := hnil.1.1 hl
    subst hl
    exact Or.inr ⟨h, q, [], by simp [q_sort, hh], hinv, List.Perm.refl _, fun _ _ => rfl,
      SameValues.refl h⟩
  · have hhne : q.head ≠ none := fun hn => hl (hnil.1.2 hn)
    have htne : q.tail ≠ none := fun hn => hl (hnil.2.1.2 hn)
    obtain ⟨a, ha⟩ := Option.ne_none_iff_exists'.1 hhne
    obtain ⟨t, ht⟩ := Option.ne_none_iff_exists'.1 htne
    obtain ⟨fuel, rfl⟩ : ∃ f, fuel = f + 1 := ⟨fuel - 1, by omega⟩
    rcases merge_sort_weak fuel l h q.head hinv.1 (by omega) with
      herr | ⟨h1, p1, M, hrun, hch, hperm, hframe, hval⟩
    · left
      simp only [q_sort, ha]
      rw [← ha, herr]
      rfl
    · right
      have htl : l.getLast? = some t := by rw [← hinv.2.1, ht]
      have htm : t ∈ M := hperm.mem_iff.2 (List.mem_of_getLast?_eq_some htl)
      have hwalk := tail_walk_mem h1 _ p1 t (fuel + 1) hch htm (by rw [hperm.length_eq]; omega)
      refine ⟨h1, { q with head := p1, tail := M.getLast? }, M, ?_,
        ⟨hch, rfl, ?_, hinv.2.2.2⟩, hperm, hframe, hval⟩
      · simp only [q_sort, ha]
        rw [← ha, hrun]
        simp only [ok_bind, ht, hwalk, pure_eq_ok]
      · rw [hperm.length_eq]
        exact hinv.2.2.1

theorem sort_permutation_weak (h : Heap) (q : queue_t) (l : List Ptr) (fuel : Nat)
    (hinv : QueueInv h q l) (hf : l.length < fuel) :
    q_sort fuel h (some q) = .error Fault.undefined
      ∨ ∃ h1 q1 l1, q_sort fuel h (some q) = .ok (h1, some q1) ∧ QueueInv h1 q1 l1
          ∧ l1.Perm l
          ∧ (values h1 l1).Perm (values h l)
          ∧ (∀ a, (h1 a).map (fun e => e.value) = (h a).map (fun e => e.value))
          ∧ (∀ a, a ∉ l → h1 a = h a) := by
  rcases q_sort_weak h q l fuel hinv hf with herr | ⟨h1, q1, l1, hrun, hinv1, hperm, hfr, hval⟩
  · exact Or.inl herr
  · refine Or.inr ⟨h1, q1, l1, hrun, hinv1, hperm, ?_, hval, hfr⟩
    rw [hval.values]
    exact hperm.map _

theorem value_le_of_keyed (h1 : Heap) (key : Ptr → List Nat) (l : List Ptr)
    (hk : Keyed h1 key l) (a b : Ptr) (ha : a ∈ l) (hb : b ∈ l)
    (hle : lex_le (key a) (key b) = true) :
    value_le ((h1 a).bind (fun e => e.value)) ((h1 b).bind (fun e => e.value)) := by
  obtain ⟨ea, va, hea, hva, ha0, hka⟩ := hk a ha
  obtain ⟨eb, vb, heb, hvb, hb0, hkb⟩ := hk b hb
  refine ⟨va, vb, by simp [hea, hva], by simp [heb, hvb], ha0, hb0, ?_⟩
  rw [str_le_iff va vb ha0 hb0, hka, hkb]
  exact hle

theorem chain_pair_of_short {α : Type} (R : α → α → Prop) (l : List α) (hl : l.length ≤ 1) :
    List.Chain' R l := by
  cases l with
  | nil => exact List.chain'_nil
  | cons a l =>
    have : l = [] := List.length_eq_zero.1 (by simp only [List.length_cons] at hl; omega)
    subst this
    exact List.chain'_singleton a

theorem sort_ascending_ok (h : Heap) (q : queue_t) (l : List Ptr) (fuel : Nat)
    (hinv : QueueInv h q l) (hs : l.length ≤ 1 ∨ AllStrings h l) (hf : l.length < fuel) :
    ∃ h1 q1 l1, q_sort fuel h (some q) = .ok (h1, some q1) ∧ QueueInv h1 q1 l1
      ∧ List.Chain' value_le (values h1 l1) := by
  obtain ⟨h1, q1, hrun, hinv1, _, hval⟩ := q_sort_spec h q l fuel hinv hs hf
  have hperm := sort_list_perm (fun a b => lex_le (key_of h a) (key_of h b)) (fuel - 1) l
  refine ⟨h1, q1, _, hrun, hinv1, ?_⟩
  rcases hs with hs | hs
  · apply chain_pair_of_short
    simp only [values, List.length_map]
    rw [hperm.length_eq]
    exact hs
  · have hsorted := sort_list_sorted (fun a b => lex_le (key_of h a) (key_of h b))
      (fun a b c => lex_le_trans _ _ _) (fun a b => lex_le_total _ _) (fuel - 1) l (by omega)
    have hk : Keyed h1 (key_of h)
        (sort_list (fun a b => lex_le (key_of h a) (key_of h b)) (fuel - 1) l) :=
      hval.keyed _ _ (fun a ha => keyed_key_of h l hs a (hperm.mem_iff.1 ha))
    refine List.Pairwise.chain' ?_
    unfold values
    rw [List.pairwise_map]
    exact hsorted.imp_of_mem (fun ha hb hle => value_le_of_keyed h1 _ _ hk _ _ ha hb hle)

theorem sort_permutation_ok (h : Heap) (q : queue_t) (l : List Ptr) (fuel : Nat)
    (hinv : QueueInv h q l) (hs : l.length ≤ 1 ∨ AllStrings h l) (hf : l.length < fuel) :
    ∃ h1 q1 l1, q_sort fuel h (some q) = .ok (h1, some q1) ∧ QueueInv h1 q1 l1
      ∧ l1.Perm l
      ∧ (values h1 l1).Perm (values h l)
      ∧ (∀ a, (h1 a).map (fun e => e.value) = (h a).map (fun e => e.value))
      ∧ (∀ a, a ∉ l → h1 a = h a) := by
  obtain ⟨h1, q1, hrun, hinv1, hframe, hval⟩ := q_sort_spec h q l fuel hinv hs hf
  have hperm := sort_list_perm (fun a b => lex_le (key_of h a) (key_of h b)) (fuel - 1) l
  refine ⟨h1, q1, _, hrun, hinv1, hperm, ?_, hval, hframe⟩
  rw [hval.values]
  exact hperm.map _

/-- C9. On a queue satisfying the invariant whose elements all hold C strings,
or which has at most one element, `q_sort`, with a loop bound above the number
of elements, returns; the invariant holds for the new chain, and every adjacent
pair of values along the new chain is in `strcmp` order: the comparison of the
first with the second is defined and not positive.  On the queue that
`q_insert_head("apple")`, `q_insert_head(NULL)` leave, which satisfies the
invariant, `q_sort` does not return for any loop bound: `merge` passes the
`NULL` value to `strcmp`. -/
theorem q_sort_ascending :
    (∀ (h : Heap) (q : queue_t) (l : List Ptr) (fuel : Nat), QueueInv h q l →
        (l.length ≤ 1 ∨ AllStrings h l) → l.length < fuel →
        ∃ h1 q1 l1, q_sort fuel h (some q) = .ok (h1, some q1) ∧ QueueInv h1 q1 l1
          ∧ List.Chain' value_le (values h1 l1))
      ∧ run (Heap.empty, q_new true) calls_null = .ok (heap_null, some queue_null)
      ∧ QueueInv heap_null queue_null [2, 1]
      ∧ (∀ fuel, ¬ ∃ r, q_sort fuel heap_null (some queue_null) = .ok r)
      ∧ q_sort 3 heap_null (some queue_null) = .error Fault.undefined :=
  ⟨sort_ascending_ok, run_calls_null, inv_heap_null, q_sort_null_never, rfl⟩

/-- C10. On a queue satisfying the invariant whose elements all hold C strings,
or which has at most one element, `q_sort`, with a loop bound above the number
of elements, returns; the elements of the new chain are a permutation of the
elements of the old one, and so are their values; every address has the same
value as before, no address is added or released, and the elements outside the
chain are not written.  On every queue satisfying the invariant, whatever its
values are, `q_sort` either has undefined behaviour or returns with all this.
On the queue that `q_insert_head("apple")`, `q_insert_head(NULL)` leave, which
satisfies the invariant, `q_sort` does not return for any loop bound, and there
is no chain after the sort. -/
theorem q_sort_permutation :
    (∀ (h : Heap) (q : queue_t) (l : List Ptr) (fuel : Nat), QueueInv h q l →
        (l.length ≤ 1 ∨ AllStrings h l) → l.length < fuel →
        ∃ h1 q1 l1, q_sort fuel h (some q) = .ok (h1, some q1) ∧ QueueInv h1 q1 l1
          ∧ l1.Perm l
          ∧ (values h1 l1).Perm (values h l)
          ∧ (∀ a, (h1 a).map (fun e => e.value) = (h a).map (fun e => e.value))
          ∧ (∀ a, a ∉ l → h1 a = h a))
      ∧ (∀ (h : Heap) (q : queue_t) (l : List Ptr) (fuel : Nat), QueueInv h q l →
          l.length < fuel →
          q_sort fuel h (some q) = .error Fault.undefined
            ∨ ∃ h1 q1 l1, q_sort fuel h (some q) = .ok (h1, some q1) ∧ QueueInv h1 q1 l1
                ∧ l1.Perm l
                ∧ (values h1 l1).Perm (values h l)
                ∧ (∀ a, (h1 a).map (fun e => e.value) = (h a).map (fun e => e.value))
                ∧ (∀ a, a ∉ l → h1 a = h a))
      ∧ run (Heap.empty, q_new true) calls_null = .ok (heap_null, some queue_null)
      ∧ QueueInv heap_null queue_null [2, 1]
      ∧ (∀ fuel, ¬ ∃ r, q_sort fuel heap_null (some queue_null) = .ok r)
      ∧ q_sort 3 heap_null (some queue_null) = .error Fault.undefined :=
  ⟨sort_permutation_ok, sort_permutation_weak, run_calls_null, inv_heap_null,
    q_sort_null_never, rfl⟩

/-! ## Instances on example data -/

/-- Instance of C1: the calls `calls4` from the new queue. -/
theorem queue_invariant_reachable_witness :
    run (Heap.empty, q_new true) calls4 = .ok (heap_end, some queue_end)
      ∧ ∃ (qv : queue_t) (l : List Ptr), some queue_end = some qv
        ∧ Chain heap_end qv.head l
        ∧ qv.size = wrap_int (l.length : Int)
        ∧ (-2147483648 ≤ qv.size ∧ qv.size ≤ INT_MAX)
        ∧ (qv.head = none ↔ qv.tail = none) ∧ (qv.tail = none ↔ l = [])
        ∧ (∀ t, qv.tail = some t → l.getLast? = some t
            ∧ ∃ e, heap_end t = some e ∧ e.next = none)
        ∧ ((l.length : Int) ≤ INT_MAX →
            qv.size = (l.length : Int) ∧ (qv.tail = none ↔ qv.size = 0)) :=
  ⟨rfl, queue_invariant_reachable Heap.empty calls4 heap_end (some queue_end) rfl⟩

/-- Instance of C2: `"apple"` in front of `"cherry"`, `"banana"`, `"apple"`. -/
theorem q_insert_head_spec_witness :
    (QueueInv heap3 queue3 [1, 2, 3] ∧ queue3.size < INT_MAX ∧ 0 ∈ apple ∧ heap3 4 = none)
      ∧ ∃ h1 q1, q_insert_head heap3 (some queue3) (some apple) (some 4) (some junk)
          = .ok (true, h1, some q1)
        ∧ QueueInv h1 q1 [4, 1, 2, 3]
        ∧ values h1 [4, 1, 2, 3] = some (text apple ++ [0]) :: values heap3 [1, 2, 3]
        ∧ q1.size = queue3.size + 1
        ∧ q1.head = some 4
        ∧ ([1, 2, 3] = [] → q1.tail = some 4)
        ∧ ([1, 2, 3] ≠ [] → q1.tail = queue3.tail) :=
  ⟨⟨inv_heap3, by decide, by simp [apple],
      by simp [heap3]⟩,
    q_insert_head_spec heap3 queue3 [1, 2, 3] apple 4 junk
      inv_heap3 (by decide) (by simp [apple])
      (by simp [heap3])⟩

/-- Instance of C3: `"apple"` behind `"cherry"`, `"banana"`, `"apple"`. -/
theorem q_insert_tail_spec_witness :
    (QueueInv heap3 queue3 [1, 2, 3] ∧ queue3.size < INT_MAX ∧ 0 ∈ apple ∧ heap3 4 = none)
      ∧ ∃ h1 q1, q_insert_tail heap3 (some queue3) (some apple) (some 4) (some junk)
          = .ok (true, h1, some q1)
        ∧ QueueInv h1 q1 ([1, 2, 3] ++ [4])
        ∧ values h1 ([1, 2, 3] ++ [4]) = values heap3 [1, 2, 3] ++ [some (text apple ++ [0])]
        ∧ q1.size = queue3.size + 1
        ∧ q1.tail = some 4
        ∧ h1 4 = some { value := some (text apple ++ [0]), next := none }
        ∧ ([1, 2, 3] = [] → q1.head = some 4)
        ∧ ([1, 2, 3] ≠ [] → q1.head = queue3.head) :=
  ⟨⟨inv_heap3, by decide, by simp [apple],
      by simp [heap3]⟩,
    q_insert_tail_spec heap3 queue3 [1, 2, 3] apple 4 junk
      inv_heap3 (by decide) (by simp [apple])
      (by simp [heap3])⟩

/-- Instance of C4: removal of `"cherry"` into a buffer of 10 bytes. -/
theorem q_remove_head_spec_witness :
    QueueInv heap3 queue3 [1, 2, 3]
      ∧ ∃ r q1, q_remove_head heap3 (some queue3) (some (List.replicate 10 1)) 10 = .ok r
        ∧ r.ret = true ∧ r.q = some q1
        ∧ QueueInv r.heap q1 [2, 3]
        ∧ values r.heap [2, 3] = values heap3 [2, 3]
        ∧ q1.size = queue3.size - 1
        ∧ ([2, 3] = [] → q1.head = none ∧ q1.tail = none)
        ∧ ([2, 3] ≠ [] → q1.tail = queue3.tail) :=
  ⟨inv_heap3,
    q_remove_head_spec.1 heap3 queue3 1 [2, 3] (some (List.replicate 10 1)) 10
      inv_heap3
      (by
        intro buf hb
        simp only [Option.some.injEq] at hb
        subst hb
        exact ⟨⟨cherry, by simp [heap3], by simp [cherry]⟩, by decide, by simp,
          by simp [SIZE_MAX]⟩)⟩

/-- Instance of C5: a buffer of capacity 3 and the value `"banana"`: the buffer
holds `"ba"` and a terminator. -/
theorem q_remove_head_copy_witness :
    ∃ r, q_remove_head (heap3.free 1) (some { head := some 2, tail := some 3, size := 2 })
        (some [1, 1, 1]) 3 = .ok r
      ∧ r.ret = true ∧ r.sp = some [98, 97, 0] := by
  obtain ⟨r, hr, hret, hsp⟩ := q_remove_head_copy (heap3.free 1)
    { head := some 2, tail := some 3, size := 2 } 2 { value := some banana, next := some 3 }
    banana [1, 1, 1] 3 rfl (by simp [Heap.free, heap3]) rfl (by simp [banana]) (by decide)
    (by simp) (by simp [SIZE_MAX])
  refine ⟨r, hr, hret, ?_⟩
  rw [hsp]
  simp [banana, text]

/-- Instance of C6: `"cherry"` in and out again, with a buffer of 7 bytes. -/
theorem insert_head_remove_head_witness :
    ∃ hi qi r, q_insert_head (heap3.free 1) (some { head := some 2, tail := some 3, size := 2 })
          (some cherry) (some 1) (some junk) = .ok (true, hi, qi)
      ∧ q_remove_head hi qi (some [1, 1, 1, 1, 1, 1, 1]) 7 = .ok r ∧ r.ret = true
      ∧ r.heap = heap3.free 1 ∧ r.q = some { head := some 2, tail := some 3, size := 2 }
      ∧ r.sp = some cherry := by
  obtain ⟨hi, qi, r, h1, h2, h3, h4, h5, _, h7⟩ := insert_head_remove_head (heap3.free 1)
    { head := some 2, tail := some 3, size := 2 } [2, 3] cherry 1 junk [1, 1, 1, 1, 1, 1, 1] 7
    (by simp [QueueInv, INT_MAX, Chain, Heap.free, heap3]) (by simp [cherry])
    (by simp [Heap.free])
    (by decide) (by simp) (by simp [SIZE_MAX])
  refine ⟨hi, qi, r, h1, h2, h3, h4, h5, ?_⟩
  rw [h7 (by simp [cherry, text])]
  simp [cherry, text]

/-- Instance of C9: the sort of `"cherry"`, `"banana"`, `"apple"`. -/
theorem q_sort_ascending_witness :
    (QueueInv heap3 queue3 [1, 2, 3] ∧ ([1, 2, 3].length ≤ 1 ∨ AllStrings heap3 [1, 2, 3]))
      ∧ ∃ h1 q1 l1, q_sort 4 heap3 (some queue3) = .ok (h1, some q1) ∧ QueueInv h1 q1 l1
        ∧ List.Chain' value_le (values h1 l1) :=
  ⟨⟨inv_heap3,
      Or.inr (by simp [AllStrings, heap3, cherry, banana, apple])⟩,
    q_sort_ascending.1 heap3 queue3 [1, 2, 3] 4 inv_heap3
      (Or.inr (by simp [AllStrings, heap3, cherry, banana, apple])) (by decide)⟩

/-- Instance of C10: the sort of `"cherry"`, `"banana"`, `"apple"`. -/
theorem q_sort_permutation_witness :
    (QueueInv heap3 queue3 [1, 2, 3] ∧ ([1, 2, 3].length ≤ 1 ∨ AllStrings heap3 [1, 2, 3]))
      ∧ ∃ h1 q1 l1, q_sort 4 heap3 (some queue3) = .ok (h1, some q1) ∧ QueueInv h1 q1 l1
        ∧ l1.Perm [1, 2, 3]
        ∧ (values h1 l1).Perm (values heap3 [1, 2, 3])
        ∧ (∀ a, (h1 a).map (fun e => e.value) = (heap3 a).map (fun e => e.value))
        ∧ (∀ a, a ∉ [1, 2, 3] → h1 a = heap3 a) :=
  ⟨⟨inv_heap3,
      Or.inr (by simp [AllStrings, heap3, cherry, banana, apple])⟩,
    q_sort_permutation.1 heap3 queue3 [1, 2, 3] 4 inv_heap3
      (Or.inr (by simp [AllStrings, heap3, cherry, banana, apple])) (by decide)⟩

/-! ## The scenarios of the specification, evaluated -/

/-- Scenario: `q_insert_tail("banana")`, `q_insert_tail("apple")`,
`q_insert_head("cherry")` give the order cherry, banana, apple and the size 3. -/
theorem scenario_insert :
    (do
      let r ← q_insert_tail Heap.empty (q_new true) (some banana) (some 1) (some junk)
      let r ← q_insert_tail r.2.1 r.2.2 (some apple) (some 2) (some junk)
      let r ← q_insert_head r.2.1 r.2.2 (some cherry) (some 3) (some junk)
      pure (r.1, r.2.2, values r.2.1 [3, 1, 2]) : Exec _)
      = .ok (true, some { head := some 3, tail := some 2, size := 3 },
          [some cherry, some banana, some apple]) := by
  rfl

/-- Scenario: the sort of cherry, banana, apple gives apple, banana, cherry; the
new tail is the element of cherry and its `next` is `NULL`. -/
theorem scenario_sort :
    (do
      let r ← q_sort 4 heap3 (some queue3)
      pure (r.2, values r.1 [3, 2, 1], (r.1 1).map (fun e => e.next)) : Exec _)
      = .ok (some { head := some 3, tail := some 1, size := 3 },
          [some apple, some banana, some cherry], some none) := by
  rfl

/-- Scenario: `q_remove_head` with a buffer of capacity 3 on the value
`"banana"` leaves `"ba"` and a terminator in the buffer. -/
theorem scenario_remove :
    (do
      let r ← q_remove_head (heap3.free 1) (some { head := some 2, tail := some 3, size := 2 })
        (some [1, 1, 1]) 3
      pure (r.ret, r.q, r.sp) : Exec _)
      = .ok (true, some { head := some 3, tail := some 3, size := 1 }, some [98, 97, 0]) := by
  rfl

/-! ## The order of `merge_sort` is the stable merge sort of lists -/

theorem sort_list_eq_mergeSort (le : Ptr → Ptr → Bool) : ∀ (fuel : Nat) (l : List Ptr),
    l.length ≤ fuel → sort_list le fuel l = l.mergeSort le := by
  intro fuel
  induction fuel with
  | zero =>
    intro l hl
    have : l = [] := List.length_eq_zero.1 (by omega)
    subst this
    simp [sort_list]
  | succ fuel ih =>
    intro l hl
    match l, hl with
    | [], _ => simp [sort_list]
    | [a], _ => simp [sort_list]
    | a :: b :: xs, hl =>
      simp only [List.length_cons] at hl
      rw [List.mergeSort]
      simp only [sort_list, List.splitInTwo_fst, List.splitInTwo_snd]
      rw [if_neg (by simp)]
      rw [ih _ (by rw [List.length_take]; simp only [List.length_cons]; omega),
        ih _ (by rw [List.length_drop]; simp only [List.length_cons]; omega)]

theorem sort_list_fuel (le : Ptr → Ptr → Bool) (fuel : Nat) (l : List Ptr)
    (hl : l.length ≤ fuel) : sort_list le fuel l = sort_list le l.length l := by
  rw [sort_list_eq_mergeSort le fuel l hl, sort_list_eq_mergeSort le l.length l (le_refl _)]

theorem sort_list_of_sorted (le : Ptr → Ptr → Bool) (fuel : Nat) (l : List Ptr)
    (hl : l.length ≤ fuel) (hs : l.Pairwise (fun a b => le a b = true)) :
    sort_list le fuel l = l := by
  rw [sort_list_eq_mergeSort le fuel l hl]
  exact List.mergeSort_of_sorted hs

theorem key_of_eq (h : Heap) (a : Ptr) (v : List Nat)
    (hv : (h a).bind (fun e => e.value) = some v) : key_of h a = text v := by
  cases ha : h a with
  | none => simp [ha] at hv
  | some e =>
    have : e.value = some v := by simpa [ha] using hv
    simp [key_of, ha, this]

theorem heap_eq_of_chain (h h1 : Heap) (p : Option Ptr) (l : List Ptr) (hc : Chain h p l)
    (hc1 : Chain h1 p l) (hv : SameValues h h1) (hf : ∀ a, a ∉ l → h1 a = h a) : h1 = h := by
  funext a
  by_cases ha : a ∈ l
  · obtain ⟨i, hi⟩ := List.getElem?_of_mem ha
    obtain ⟨e, he, hn⟩ := chain_getElem h l p i a hc hi
    obtain ⟨e1, he1, hn1⟩ := chain_getElem h1 l p i a hc1 hi
    have hva := hv a
    rw [he, he1] at hva
    simp only [Option.map_some', Option.some.injEq] at hva
    rw [he, he1]
    cases e
    cases e1
    simp only at hva hn hn1
    simp [hva, hn, hn1]
  · exact hf a ha

theorem inv_unique (h : Heap) (q q1 : queue_t) (l : List Ptr) (hq : QueueInv h q l)
    (hq1 : QueueInv h q1 l) : q1 = q := by
  have h1 := chain_head h _ _ hq.1
  have h2 := chain_head h _ _ hq1.1
  cases q
  cases q1
  simp only [QueueInv] at hq hq1 h1 h2
  simp [h1, h2, hq.2.1, hq1.2.1, hq.2.2.1, hq1.2.2.1]

theorem pairwise_of_sorted_values (h : Heap) (l : List Ptr)
    (hs : List.Chain' value_le (values h l)) :
    l.Pairwise (fun a b => lex_le (key_of h a) (key_of h b) = true) := by
  have htr : IsTrans Ptr (fun a b => lex_le (key_of h a) (key_of h b) = true) :=
    ⟨fun a b c => lex_le_trans _ _ _⟩
  rw [← List.chain'_iff_pairwise]
  unfold values at hs
  rw [List.chain'_map] at hs
  refine hs.imp ?_
  rintro a b ⟨v, w, hv, hw, h0, h1, hle⟩
  rw [key_of_eq h a v hv, key_of_eq h b w hw]
  exact (str_le_iff v w h0 h1).1 hle

theorem q_sort_full (h : Heap) (q : queue_t) (l : List Ptr) (fuel : Nat)
    (hinv : QueueInv h q l) (hs : l.length ≤ 1 ∨ AllStrings h l) (hf : l.length < fuel) :
    ∃ h1 q1 l1, q_sort fuel h (some q) = .ok (h1, some q1) ∧ QueueInv h1 q1 l1
      ∧ l1 = sort_list (fun a b => lex_le (key_of h a) (key_of h b)) l.length l
      ∧ l1.Perm l
      ∧ (l1.length ≤ 1 ∨ AllStrings h1 l1)
      ∧ List.Chain' value_le (values h1 l1)
      ∧ (∀ a, a ∉ l → h1 a = h a)
      ∧ SameValues h h1 := by
  obtain ⟨h1, q1, hrun, hinv1, hframe, hval⟩ := q_sort_spec h q l fuel hinv hs hf
  have hperm := sort_list_perm (fun a b => lex_le (key_of h a) (key_of h b)) (fuel - 1) l
  have hfuel := sort_list_fuel (fun a b => lex_le (key_of h a) (key_of h b)) (fuel - 1) l
    (by omega)
  refine ⟨h1, q1, _, hrun, hinv1, hfuel, hperm, ?_, ?_, hframe, hval⟩
  · rcases hs with hs | hs
    · exact Or.inl (by rw [hperm.length_eq]; exact hs)
    · refine Or.inr (fun a ha => ?_)
      obtain ⟨e, v, he, hev, h0, _⟩ :=
        hval.keyed _ _ (keyed_key_of h l hs) a (hperm.mem_iff.1 ha)
      exact ⟨e, v, he, hev, h0⟩
  · rcases hs with hs | hs
    · apply chain_pair_of_short
      simp only [values, List.length_map]
      rw [hperm.length_eq]
      exact hs
    · have hsorted := sort_list_sorted (fun a b => lex_le (key_of h a) (key_of h b))
        (fun a b c => lex_le_trans _ _ _) (fun a b => lex_le_total _ _) (fuel - 1) l (by omega)
      have hk : Keyed h1 (key_of h)
          (sort_list (fun a b => lex_le (key_of h a) (key_of h b)) (fuel - 1) l) :=
        hval.keyed _ _ (fun a ha => keyed_key_of h l hs a (hperm.mem_iff.1 ha))
      refine List.Pairwise.chain' ?_
      unfold values
      rw [List.pairwise_map]
      exact hsorted.imp_of_mem (fun ha hb hle => value_le_of_keyed h1 _ _ hk _ _ ha hb hle)

theorem q_sort_of_sorted (h : Heap) (q : queue_t) (l : List Ptr) (fuel : Nat)
    (hinv : QueueInv h q l) (hs : l.length ≤ 1 ∨ AllStrings h l) (hf : l.length < fuel)
    (hsorted : List.Chain' value_le (values h l)) :
    q_sort fuel h (some q) = .ok (h, some q) := by
  obtain ⟨h1, q1, l1, hrun, hinv1, hl1, _, _, _, hframe, hval⟩ :=
    q_sort_full h q l fuel hinv hs hf
  rw [sort_list_of_sorted _ _ l (le_refl _) (pairwise_of_sorted_values h l hsorted)] at hl1
  subst hl1
  have hh : h1 = h := heap_eq_of_chain h h1 _ l1
    hinv.1 ((chain_head h1 _ _ hinv1.1).trans (chain_head h _ _ hinv.1).symm ▸ hinv1.1)
    hval hframe
  subst hh
  rw [hrun, inv_unique h1 q q1 l1 hinv hinv1]

theorem sort_idempotent_ok (h : Heap) (q : queue_t) (l : List Ptr) (fuel : Nat)
    (hinv : QueueInv h q l) (hs : l.length ≤ 1 ∨ AllStrings h l) (hf : l.length < fuel) :
    (List.Chain' value_le (values h l) → q_sort fuel h (some q) = .ok (h, some q))
      ∧ ∃ h1 q1, q_sort fuel h (some q) = .ok (h1, some q1)
          ∧ q_sort fuel h1 (some q1) = .ok (h1, some q1) := by
  refine ⟨q_sort_of_sorted h q l fuel hinv hs hf, ?_⟩
  obtain ⟨h1, q1, l1, hrun, hinv1, _, hperm, hs1, hsorted, _, _⟩ :=
    q_sort_full h q l fuel hinv hs hf
  exact ⟨h1, q1, hrun,
    q_sort_of_sorted h1 q1 l1 fuel hinv1 hs1 (by rw [hperm.length_eq]; exact hf) hsorted⟩

theorem sort_invariant_of_run (h : Heap) (q : queue_t) (l : List Ptr) (fuel : Nat)
    (h1 : Heap) (q1 : queue_t) (l1 : List Ptr) (hinv : QueueInv h q l) (hne : l ≠ [])
    (hrun : q_sort fuel h (some q) = .ok (h1, some q1)) (hinv1 : QueueInv h1 q1 l1)
    (hperm : l1.Perm l) :
    q_sort fuel h (some q) = .ok (h1, some q1)
      ∧ merge_sort fuel h q.head = .ok (h1, q1.head)
      ∧ tail_walk fuel h1 q.tail = .ok q1.tail
      ∧ Chain h1 q1.head l1 ∧ l1.Perm l
      ∧ q1.head = l1.head? ∧ q1.tail = l1.getLast?
      ∧ (∃ t e, q1.tail = some t ∧ h1 t = some e ∧ e.next = none)
      ∧ q1.size = q.size ∧ q1.size = (l1.length : Int) := by
  have hnil := inv_nil_iff h q l hinv
  have hnil1 := inv_nil_iff h1 q1 l1 hinv1
  have hhne : q.head ≠ none := fun hn => hne (hnil.1.2 hn)
  obtain ⟨a, ha⟩ := Option.ne_none_iff_exists'.1 hhne
  have hl1 : l1 ≠ [] := by
    intro hl1
    rw [hl1] at hperm
    exact hne (List.Perm.nil_eq hperm).symm
  have htne : q1.tail ≠ none := fun hn => hl1 (hnil1.2.1.2 hn)
  obtain ⟨t, ht⟩ := Option.ne_none_iff_exists'.1 htne
  obtain ⟨e, he, hen⟩ := chain_last h1 l1 _ t hinv1.1 (by rw [← hinv1.2.1, ht])
  have hsteps : merge_sort fuel h q.head = .ok (h1, q1.head)
      ∧ tail_walk fuel h1 q.tail = .ok q1.tail ∧ q1.size = q.size := by
    have hrun1 := hrun
    simp only [q_sort, ha] at hrun1
    rw [ha]
    cases hm : merge_sort fuel h (some a) with
    | error x => simp [hm] at hrun1
    | ok r =>
      obtain ⟨h2, p2⟩ := r
      simp only [hm, ok_bind] at hrun1
      cases hw : tail_walk fuel h2 q.tail with
      | error x => simp [hw] at hrun1
      | ok t2 =>
        simp only [hw, ok_bind, pure_eq_ok, Except.ok.injEq, Prod.mk.injEq,
          Option.some.injEq] at hrun1
        obtain ⟨hh, hq⟩ := hrun1
        subst hh
        subst hq
        exact ⟨rfl, hw, rfl⟩
  exact ⟨hrun, hsteps.1, hsteps.2.1, hinv1.1, hperm, chain_head h1 _ _ hinv1.1,
    hinv1.2.1, ⟨t, e, ht, he, hen⟩, hsteps.2.2, hinv1.2.2.1⟩

theorem sort_invariant_ok (h : Heap) (q : queue_t) (l : List Ptr) (fuel : Nat)
    (hinv : QueueInv h q l) (hne : l ≠ []) (hs : l.length ≤ 1 ∨ AllStrings h l)
    (hf : l.length < fuel) :
    ∃ h1 q1 l1, q_sort fuel h (some q) = .ok (h1, some q1)
      ∧ merge_sort fuel h q.head = .ok (h1, q1.head)
      ∧ tail_walk fuel h1 q.tail = .ok q1.tail
      ∧ Chain h1 q1.head l1 ∧ l1.Perm l
      ∧ q1.head = l1.head? ∧ q1.tail = l1.getLast?
      ∧ (∃ t e, q1.tail = some t ∧ h1 t = some e ∧ e.next = none)
      ∧ q1.size = q.size ∧ q1.size = (l1.length : Int) := by
  obtain ⟨h1, q1, l1, hrun, hinv1, _, hperm, _, _, _, _⟩ := q_sort_full h q l fuel hinv hs hf
  exact ⟨h1, q1, l1, sort_invariant_of_run h q l fuel h1 q1 l1 hinv hne hrun hinv1 hperm⟩

theorem sort_invariant_weak (h : Heap) (q : queue_t) (l : List Ptr) (fuel : Nat)
    (hinv : QueueInv h q l) (hne : l ≠ []) (hf : l.length < fuel) :
    q_sort fuel h (some q) = .error Fault.undefined
      ∨ ∃ h1 q1 l1, q_sort fuel h (some q) = .ok (h1, some q1)
          ∧ merge_sort fuel h q.head = .ok (h1, q1.head)
          ∧ tail_walk fuel h1 q.tail = .ok q1.tail
          ∧ Chain h1 q1.head l1 ∧ l1.Perm l
          ∧ q1.head = l1.head? ∧ q1.tail = l1.getLast?
          ∧ (∃ t e, q1.tail = some t ∧ h1 t = some e ∧ e.next = none)
          ∧ q1.size = q.size ∧ q1.size = (l1.length : Int) := by
  rcases q_sort_weak h q l fuel hinv hf with herr | ⟨h1, q1, l1, hrun, hinv1, hperm, _, _⟩
  · exact Or.inl herr
  · exact Or.inr ⟨h1, q1, l1,
      sort_invariant_of_run h q l fuel h1 q1 l1 hinv hne hrun hinv1 hperm⟩

/-- C14. On a queue satisfying the invariant whose elements all hold C strings,
`q_sort` is idempotent: when the values along the chain are already in `strcmp`
order, it returns with the heap and the queue exactly as they were; and the
result of a `q_sort` is left exactly as it is by a second `q_sort`.  On the
queue that `q_insert_head("apple")`, `q_insert_head(NULL)` leave, which
satisfies the invariant and whose values `NULL`, `"apple"` are in order when
`NULL` counts as the empty string, `q_sort` does not return for any loop
bound. -/
theorem q_sort_idempotent :
    (∀ (h : Heap) (q : queue_t) (l : List Ptr) (fuel : Nat), QueueInv h q l →
        (l.length ≤ 1 ∨ AllStrings h l) → l.length < fuel →
        (List.Chain' value_le (values h l) → q_sort fuel h (some q) = .ok (h, some q))
          ∧ ∃ h1 q1, q_sort fuel h (some q) = .ok (h1, some q1)
              ∧ q_sort fuel h1 (some q1) = .ok (h1, some q1))
      ∧ run (Heap.empty, q_new true) calls_null = .ok (heap_null, some queue_null)
      ∧ QueueInv heap_null queue_null [2, 1]
      ∧ values heap_null [2, 1] = [none, some apple]
      ∧ compare_values (some [0]) (some apple) = .ok (-97)
      ∧ (∀ fuel, ¬ ∃ r, q_sort fuel heap_null (some queue_null) = .ok r)
      ∧ q_sort 3 heap_null (some queue_null) = .error Fault.undefined :=
  ⟨sort_idempotent_ok, run_calls_null, inv_heap_null, rfl, rfl, q_sort_null_never, rfl⟩

/-- C15. On a non-empty queue satisfying the invariant whose elements all hold
C strings, `q_sort` returns and the invariant holds again: `head` is the first
element of the chain `merge_sort` returns, the walk from the old `tail` ends at
the last element of this chain, which is the new `tail` and whose `next` is
`NULL`, and `size` is unchanged and is the number of elements of the chain.  On
every non-empty queue satisfying the invariant, whatever its values are,
`q_sort` either has undefined behaviour or returns with all this.  On the queue
that `q_insert_head("apple")`, `q_insert_head(NULL)` leave, which is not empty
and satisfies the invariant, `q_sort` does not return for any loop bound. -/
theorem q_sort_invariant :
    (∀ (h : Heap) (q : queue_t) (l : List Ptr) (fuel : Nat), QueueInv h q l → l ≠ [] →
        (l.length ≤ 1 ∨ AllStrings h l) → l.length < fuel →
        ∃ h1 q1 l1, q_sort fuel h (some q) = .ok (h1, some q1)
          ∧ merge_sort fuel h q.head = .ok (h1, q1.head)
          ∧ tail_walk fuel h1 q.tail = .ok q1.tail
          ∧ Chain h1 q1.head l1 ∧ l1.Perm l
          ∧ q1.head = l1.head? ∧ q1.tail = l1.getLast?
          ∧ (∃ t e, q1.tail = some t ∧ h1 t = some e ∧ e.next = none)
          ∧ q1.size = q.size ∧ q1.size = (l1.length : Int))
      ∧ (∀ (h : Heap) (q : queue_t) (l : List Ptr) (fuel : Nat), QueueInv h q l → l ≠ [] →
          l.length < fuel →
          q_sort fuel h (some q) = .error Fault.undefined
            ∨ ∃ h1 q1 l1, q_sort fuel h (some q) = .ok (h1, some q1)
                ∧ merge_sort fuel h q.head = .ok (h1, q1.head)
                ∧ tail_walk fuel h1 q.tail = .ok q1.tail
                ∧ Chain h1 q1.head l1 ∧ l1.Perm l
                ∧ q1.head = l1.head? ∧ q1.tail = l1.getLast?
                ∧ (∃ t e, q1.tail = some t ∧ h1 t = some e ∧ e.next = none)
                ∧ q1.size = q.size ∧ q1.size = (l1.length : Int))
      ∧ run (Heap.empty, q_new true) calls_null = .ok (heap_null, some queue_null)
      ∧ QueueInv heap_null queue_null [2, 1]
      ∧ (∀ fuel, ¬ ∃ r, q_sort fuel heap_null (some queue_null) = .ok r)
      ∧ q_sort 3 heap_null (some queue_null) = .error Fault.undefined :=
  ⟨sort_invariant_ok, sort_invariant_weak, run_calls_null, inv_heap_null,
    q_sort_null_never, rfl⟩

/-- Instance of C14: the queue of `"apple"`, `"banana"`, `"cherry"` is left as it
is, and so is the result of the sort of `"cherry"`, `"banana"`, `"apple"`. -/
theorem q_sort_idempotent_witness :
    (QueueInv heap3s queue3s [3, 2, 1] ∧ AllStrings heap3s [3, 2, 1])
      ∧ q_sort 4 heap3s (some queue3s) = .ok (heap3s, some queue3s)
      ∧ ∃ h1 q1, q_sort 4 heap3s (some queue3s) = .ok (h1, some q1)
          ∧ q_sort 4 h1 (some q1) = .ok (h1, some q1) := by
  have hinv : QueueInv heap3s queue3s [3, 2, 1] := by
    simp [QueueInv, INT_MAX, Chain, heap3s, queue3s]
  have hs : AllStrings heap3s [3, 2, 1] := by simp [AllStrings, heap3s, cherry, banana, apple]
  have hi := q_sort_idempotent.1 heap3s queue3s [3, 2, 1] 4 hinv (Or.inr hs) (by decide)
  refine ⟨⟨hinv, hs⟩, hi.1 ?_, hi.2⟩
  simp only [values, heap3s, List.map_cons, List.map_nil]
  refine List.Chain'.cons ?_ (List.Chain'.cons ?_ (List.chain'_singleton _))
  · exact ⟨apple, banana, rfl, rfl, by simp [apple], by simp [banana], -1, by rfl, by decide⟩
  · exact ⟨banana, cherry, rfl, rfl, by simp [banana], by simp [cherry], -1, by rfl, by decide⟩

/-- Instance of C15: the sort of `"cherry"`, `"banana"`, `"apple"`. -/
theorem q_sort_invariant_witness :
    (QueueInv heap3 queue3 [1, 2, 3] ∧ AllStrings heap3 [1, 2, 3])
      ∧ ∃ h1 q1 l1, q_sort 4 heap3 (some queue3) = .ok (h1, some q1)
        ∧ merge_sort 4 heap3 queue3.head = .ok (h1, q1.head)
        ∧ tail_walk 4 h1 queue3.tail = .ok q1.tail
        ∧ Chain h1 q1.head l1 ∧ l1.Perm [1, 2, 3]
        ∧ q1.head = l1.head? ∧ q1.tail = l1.getLast?
        ∧ (∃ t e, q1.tail = some t ∧ h1 t = some e ∧ e.next = none)
        ∧ q1.size = queue3.size ∧ q1.size = (l1.length : Int) := by
  have hinv : QueueInv heap3 queue3 [1, 2, 3] := inv_heap3
  have hs : AllStrings heap3 [1, 2, 3] := by simp [AllStrings, heap3, cherry, banana, apple]
  exact ⟨⟨hinv, hs⟩,
    q_sort_invariant.1 heap3 queue3 [1, 2, 3] 4 hinv (by simp) (Or.inr hs) (by decide)⟩

/-! ## `q_reverse` -/

theorem seg_frame (h h1 : Heap) : ∀ (l : List Ptr) (p q : Option Ptr),
    (∀ a ∈ l, h1 a = h a) → Seg h p l q → Seg h1 p l q := by
  intro l
  induction l with
  | nil => intro p q _ hs; exact hs
  | cons b l ih =>
    intro p q hf hs
    obtain ⟨hp, e, he, hs1⟩ := hs
    refine ⟨hp, e, ?_, ih _ _ (fun a ha => hf a (List.mem_cons_of_mem _ ha)) hs1⟩
    rw [hf b (List.mem_cons_self _ _)]
    exact he

theorem seg_append (h : Heap) : ∀ (l1 l2 : List Ptr) (p q r : Option Ptr),
    Seg h p l1 q → Seg h q l2 r → Seg h p (l1 ++ l2) r := by
  intro l1
  induction l1 with
  | nil =>
    intro l2 p q r h1 h2
    have : p = q := h1
    subst this
    exact h2
  | cons b l1 ih =>
    intro l2 p q r h1 h2
    obtain ⟨hp, e, he, hs1⟩ := h1
    exact ⟨hp, e, he, ih l2 _ q r hs1 h2⟩

theorem seg_chain (h : Heap) : ∀ (l1 l2 : List Ptr) (p q : Option Ptr),
    Seg h p l1 q → Chain h q l2 → Chain h p (l1 ++ l2) := by
  intro l1
  induction l1 with
  | nil =>
    intro l2 p q h1 h2
    have : p = q := h1
    subst this
    exact h2
  | cons b l1 ih =>
    intro l2 p q h1 h2
    obtain ⟨hp, e, he, hs1⟩ := h1
    exact (chain_cons_iff h p b (l1 ++ l2)).2 ⟨hp, e, he, ih l2 _ q hs1 h2⟩

theorem reverse_loop_exit (fuel : Nat) (h : Heap) (pre now : Option Ptr) :
    reverse_loop fuel h pre now none = .ok (h, pre, now) := by
  cases fuel <;> simp [reverse_loop]

theorem reverse_loop_spec : ∀ (R : List Ptr) (h : Heap) (p now : Ptr) (fuel : Nat),
    Chain h (some now) (now :: R) → p ∉ now :: R → R.length ≤ fuel →
    ∃ h1 pre1 last e1, reverse_loop fuel h (some p) (some now) R.head? = .ok (h1, pre1, some last)
      ∧ (now :: R).getLast? = some last
      ∧ h1 last = some e1
      ∧ Seg (h1.set last { e1 with next := pre1 }) (some last) (now :: R).reverse (some p)
      ∧ (∀ a, a ∉ now :: R → (h1.set last { e1 with next := pre1 }) a = h a)
      ∧ SameValues h (h1.set last { e1 with next := pre1 }) := by
  intro R
  induction R with
  | nil =>
    intro h p now fuel hc _ _
    obtain ⟨_, e, he, _⟩ := (chain_cons_iff h _ now []).1 hc
    refine ⟨h, some p, now, e, reverse_loop_exit fuel h _ _, rfl, he, ?_, ?_,
      SameValues.set_next h now e _ he⟩
    · exact ⟨rfl, _, Heap.set_same _ _ _, rfl⟩
    · intro a ha
      exact Heap.set_other _ _ _ _ (fun hx => ha (by simp [hx]))
  | cons b R ih =>
    intro h p now fuel hc hp hl
    have hnd := chain_nodup h _ _ hc
    obtain ⟨_, e, he, hc1⟩ := (chain_cons_iff h _ now (b :: R)).1 hc
    obtain ⟨hb, eb, heb, hc2⟩ := (chain_cons_iff h _ b R).1 hc1
    have hnb : now ∉ b :: R := (List.nodup_cons.1 hnd).1
    have hbn : b ≠ now := fun hx => hnb (by simp [hx])
    obtain ⟨fuel, rfl⟩ : ∃ f, fuel = f + 1 :=
      ⟨fuel - 1, by simp only [List.length_cons] at hl; omega⟩
    have hfr : ∀ a, a ≠ now → (h.set now { e with next := some p }) a = h a :=
      fun a ha => Heap.set_other _ _ _ _ ha
    have hc1' : Chain (h.set now { e with next := some p }) (some b) (b :: R) :=
      chain_frame h _ _ _ (fun a ha => hfr a (fun hx => hnb (hx ▸ ha))) (hb ▸ hc1)
    obtain ⟨h1, pre1, last, e1, hrun, hlast, he1, hseg, hframe, hval⟩ :=
      ih (h.set now { e with next := some p }) now b fuel hc1' hnb
        (by simp only [List.length_cons] at hl; omega)
    refine ⟨h1, pre1, last, e1, ?_, ?_, he1, ?_, ?_,
      (SameValues.set_next h now e _ he).trans hval⟩
    · rw [reverse_loop.eq_def]
      simp only [List.head?_cons, set_next, deref, he, ok_bind, pure_eq_ok, hfr b hbn, heb]
      rw [chain_head h _ _ hc2]
      exact hrun
    · rw [List.getLast?_cons_cons]
      exact hlast
    · rw [List.reverse_cons]
      refine seg_append _ _ _ _ (some now) _ hseg ?_
      refine ⟨rfl, { e with next := some p }, ?_, rfl⟩
      rw [hframe now hnb]
      exact Heap.set_same _ _ _
    · intro a ha
      have h1a : a ∉ b :: R := fun hx => ha (List.mem_cons_of_mem _ hx)
      have h2a : a ≠ now := fun hx => ha (by simp [hx])
      rw [hframe a h1a]
      exact hfr a h2a

theorem q_reverse_spec (h : Heap) (q : queue_t) (l : List Ptr) (fuel : Nat)
    (hinv : QueueInv h q l) (h2 : 2 ≤ l.length) (hf : l.length ≤ fuel + 2) :
    ∃ h1 q1, q_reverse fuel h (some q) = .ok (h1, some q1)
      ∧ QueueInv h1 q1 l.reverse
      ∧ q1.head = q.tail ∧ q1.tail = q.head ∧ q1.size = q.size
      ∧ (∀ a, a ∉ l → h1 a = h a)
      ∧ SameValues h h1 := by
  obtain ⟨hc, ht, hs, hbd⟩ := hinv
  have hnd := chain_nodup h _ _ hc
  match l, h2 with
  | a :: b :: R, _ =>
    obtain ⟨hp, e, he, hc1⟩ := (chain_cons_iff h _ a (b :: R)).1 hc
    obtain ⟨hb, eb, heb, hc2⟩ := (chain_cons_iff h _ b R).1 hc1
    have hab : a ∉ b :: R := (List.nodup_cons.1 hnd).1
    obtain ⟨h1, pre1, last, e1, hrun, hlast, he1, hseg, hframe, hval⟩ :=
      reverse_loop_spec R h a b fuel (hb ▸ hc1) hab
        (by simp only [List.length_cons] at hf; omega)
    rw [List.getLast?_cons_cons, hlast] at ht
    have hla : last ≠ a := fun hx => hab (hx ▸ List.mem_of_getLast?_eq_some hlast)
    have hne : q.head ≠ q.tail := by
      rw [hp, ht]
      intro hx
      exact hla (Option.some.inj hx).symm
    have hHa : (h1.set last { e1 with next := pre1 }) a = some e := by
      rw [hframe a hab]
      exact he
    refine ⟨(h1.set last { e1 with next := pre1 }).set a { e with next := none },
      { q with head := some last, tail := q.head }, ?_, ⟨?_, ?_, ?_, hbd⟩, ?_, rfl, rfl, ?_,
      hval.trans (SameValues.set_next _ a e _ hHa)⟩
    · simp only [q_reverse, hp, ht]
      rw [if_neg (by simpa [hp, ht] using hne)]
      simp only [deref, he, ok_bind, hb, heb]
      rw [chain_head h _ _ hc2, hrun]
      simp only [ok_bind, set_next, deref, he1, pure_eq_ok, hHa]
    · rw [List.reverse_cons]
      refine seg_chain _ _ _ _ (some a) ?_ ?_
      · refine seg_frame _ _ _ _ _ ?_ hseg
        intro x hx
        exact Heap.set_other _ _ _ _ (fun hxa => hab (hxa ▸ List.mem_reverse.1 hx))
      · exact (chain_cons_iff _ _ _ _).2 ⟨rfl, _, Heap.set_same _ _ _, by simp⟩
    · rw [List.getLast?_reverse]
      simpa using hp
    · simpa using hs
    · exact ht.symm
    · intro x hx
      have hxa : x ≠ a := fun hxa => hx (by simp [hxa])
      rw [Heap.set_other _ _ _ _ hxa]
      exact hframe x (fun hm => hx (List.mem_cons_of_mem _ hm))

theorem q_reverse_short (h : Heap) (q : queue_t) (l : List Ptr) (fuel : Nat)
    (hinv : QueueInv h q l) (hl : l.length ≤ 1) :
    q_reverse fuel h (some q) = .ok (h, some q) := by
  have hnil := inv_nil_iff h q l hinv
  match l, hl with
  | [], _ =>
    simp [q_reverse, hnil.1.1 rfl]
  | [a], _ =>
    have hp := ((chain_cons_iff h _ a []).1 hinv.1).1
    have ht : q.tail = some a := by simpa using hinv.2.1
    simp [q_reverse, hp, ht]

theorem q_sort_short (h : Heap) (q : queue_t) (l : List Ptr) (fuel : Nat)
    (hinv : QueueInv h q l) (hl : l.length ≤ 1) (hf : l = [] ∨ 0 < fuel) :
    q_sort fuel h (some q) = .ok (h, some q) := by
  have hnil := inv_nil_iff h q l hinv
  match l, hl with
  | [], _ =>
    simp [q_sort, hnil.1.1 rfl]
  | [a], _ =>
    obtain ⟨hp, e, he, hc1⟩ := (chain_cons_iff h _ a []).1 hinv.1
    have hn := (chain_nil_iff h _).1 hc1
    have ht : q.tail = some a := by simpa using hinv.2.1
    obtain ⟨fuel, rfl⟩ : ∃ f, fuel = f + 1 :=
      ⟨fuel - 1, by rcases hf with hf | hf; · simp at hf
                    · omega⟩
    have hm : merge_sort (fuel + 1) h (some a) = .ok (h, some a) := by
      rw [merge_sort]
      simp [deref, he, hn]
    have hw : tail_walk (fuel + 1) h (some a) = .ok (some a) := by
      rw [tail_walk.eq_def]
      simp [deref, he, hn]
    simp only [q_sort, hp, hm, ok_bind, ht, hw, pure_eq_ok]
    cases q
    simp only at hp ht
    simp [hp, ht]

/-- C12. On a queue satisfying the invariant with at least two elements `l`,
`q_reverse`, with a loop bound of at least the number of elements minus two,
returns; the chain is `l` reversed and so are the values, the invariant holds,
the old tail is the new head, the old head is the new tail and its `next` is
`NULL`, and `size` is unchanged. -/
theorem q_reverse_reverses (h : Heap) (q : queue_t) (l : List Ptr) (fuel : Nat)
    (hinv : QueueInv h q l) (h2 : 2 ≤ l.length) (hf : l.length ≤ fuel + 2) :
    ∃ h1 q1, q_reverse fuel h (some q) = .ok (h1, some q1)
      ∧ QueueInv h1 q1 l.reverse
      ∧ values h1 l.reverse = (values h l).reverse
      ∧ q1.head = q.tail ∧ q1.tail = q.head
      ∧ (∃ a e, q.head = some a ∧ h1 a = some e ∧ e.next = none)
      ∧ q1.size = q.size := by
  obtain ⟨h1, q1, hrun, hinv1, hh, ht, hsz, _, hval⟩ := q_reverse_spec h q l fuel hinv h2 hf
  have hne : l.reverse ≠ [] := by
    intro hx
    have hlen := congrArg List.length hx
    rw [List.length_reverse] at hlen
    simp only [List.length_nil] at hlen
    omega
  have htne : q1.tail ≠ none := fun hn => hne ((inv_nil_iff h1 q1 _ hinv1).2.1.2 hn)
  obtain ⟨a, ha⟩ := Option.ne_none_iff_exists'.1 htne
  obtain ⟨e, he, hen⟩ := chain_last h1 _ _ a hinv1.1 (by rw [← hinv1.2.1, ha])
  refine ⟨h1, q1, hrun, hinv1, ?_, hh, ht, ⟨a, e, by rw [← ht, ha], he, hen⟩, hsz⟩
  rw [hval.values]
  simp [values]

/-- C13. On a queue satisfying the invariant, of any length, two calls of
`q_reverse` return and leave the heap and the queue exactly as they were: the
same elements in the same order, the same head, tail and size. -/
theorem q_reverse_involution (h : Heap) (q : queue_t) (l : List Ptr) (fuel : Nat)
    (hinv : QueueInv h q l) (hf : l.length ≤ fuel + 2) :
    ∃ h1 q1, q_reverse fuel h (some q) = .ok (h1, some q1)
      ∧ q_reverse fuel h1 (some q1) = .ok (h, some q) := by
  by_cases hl : l.length ≤ 1
  · have hr := q_reverse_short h q l fuel hinv hl
    exact ⟨h, q, hr, hr⟩
  · obtain ⟨h1, q1, hrun1, hinv1, _, _, _, hframe1, hval1⟩ :=
      q_reverse_spec h q l fuel hinv (by omega) hf
    obtain ⟨h2, q2, hrun2, hinv2, _, _, _, hframe2, hval2⟩ :=
      q_reverse_spec h1 q1 l.reverse fuel hinv1 (by simp; omega) (by simpa using hf)
    rw [List.reverse_reverse] at hinv2
    have hp : q2.head = q.head := (chain_head h2 _ _ hinv2.1).trans (chain_head h _ _ hinv.1).symm
    have hh : h2 = h := heap_eq_of_chain h h2 q.head l hinv.1 (hp ▸ hinv2.1)
      (hval1.trans hval2) (fun a ha => by
        rw [hframe2 a (fun hm => ha (List.mem_reverse.1 hm)), hframe1 a ha])
    subst hh
    refine ⟨h1, q1, hrun1, ?_⟩
    rw [hrun2, inv_unique h2 q q2 l hinv hinv2]

/-- C16. The functions `q_reverse` and `q_sort` do nothing on degenerate queues:
on the `NULL` queue, and on a queue satisfying the invariant with no element or
one element, each returns with the heap and the queue exactly as they were
(`q_sort` on one element with a loop bound of at least one). -/
theorem degenerate_noop (h : Heap) (fuel : Nat) :
    q_reverse fuel h none = .ok (h, none)
      ∧ q_sort fuel h none = .ok (h, none)
      ∧ ∀ q l, QueueInv h q l → l.length ≤ 1 →
          q_reverse fuel h (some q) = .ok (h, some q)
            ∧ (l = [] ∨ 0 < fuel → q_sort fuel h (some q) = .ok (h, some q)) :=
  ⟨rfl, rfl, fun q l hinv hl =>
    ⟨q_reverse_short h q l fuel hinv hl, q_sort_short h q l fuel hinv hl⟩⟩

/-- Instance of C12: the reverse of `"apple"`, `"banana"`, `"cherry"`. -/
theorem q_reverse_reverses_witness :
    QueueInv heap3s queue3s [3, 2, 1]
      ∧ ∃ h1 q1, q_reverse 1 heap3s (some queue3s) = .ok (h1, some q1)
        ∧ QueueInv h1 q1 [1, 2, 3]
        ∧ values h1 [1, 2, 3] = [some cherry, some banana, some apple]
        ∧ q1.head = some 1 ∧ q1.tail = some 3
        ∧ (∃ a e, queue3s.head = some a ∧ h1 a = some e ∧ e.next = none)
        ∧ q1.size = 3 := by
  have hinv : QueueInv heap3s queue3s [3, 2, 1] := by
    simp [QueueInv, INT_MAX, Chain, heap3s, queue3s]
  obtain ⟨h1, q1, hrun, hinv1, hv, hh, ht, hn, hs⟩ :=
    q_reverse_reverses heap3s queue3s [3, 2, 1] 1 hinv (by decide) (by decide)
  exact ⟨hinv, h1, q1, hrun, hinv1, hv, hh, ht, hn, hs⟩

/-- Instance of C13: two reverses of `"cherry"`, `"banana"`, `"apple"`. -/
theorem q_reverse_involution_witness :
    QueueInv heap3 queue3 [1, 2, 3]
      ∧ ∃ h1 q1, q_reverse 1 heap3 (some queue3) = .ok (h1, some q1)
        ∧ q_reverse 1 h1 (some q1) = .ok (heap3, some queue3) :=
  ⟨inv_heap3,
    q_reverse_involution heap3 queue3 [1, 2, 3] 1 inv_heap3
      (by decide)⟩

/-- Instance of C16: the `NULL` queue, the empty queue and a queue of one
element. -/
theorem degenerate_noop_witness :
    (QueueInv Heap.empty { head := none, tail := none, size := 0 } []
        ∧ QueueInv heap1 queue1 [7])
      ∧ q_reverse 0 Heap.empty (some { head := none, tail := none, size := 0 })
          = .ok (Heap.empty, some { head := none, tail := none, size := 0 })
      ∧ q_sort 0 Heap.empty (some { head := none, tail := none, size := 0 })
          = .ok (Heap.empty, some { head := none, tail := none, size := 0 })
      ∧ q_reverse 0 heap1 (some queue1) = .ok (heap1, some queue1)
      ∧ q_sort 1 heap1 (some queue1) = .ok (heap1, some queue1) := by
  have h0 : QueueInv Heap.empty { head := none, tail := none, size := 0 } [] := by
    simp [QueueInv, INT_MAX, Chain]
  have h1 : QueueInv heap1 queue1 [7] := by simp [QueueInv, INT_MAX, Chain, heap1, queue1]
  exact ⟨⟨h0, h1⟩, ((degenerate_noop Heap.empty 0).2.2 _ [] h0 (by decide)).1,
    ((degenerate_noop Heap.empty 0).2.2 _ [] h0 (by decide)).2 (Or.inl rfl),
    ((degenerate_noop heap1 0).2.2 _ [7] h1 (by decide)).1,
    ((degenerate_noop heap1 1).2.2 _ [7] h1 (by decide)).2 (Or.inr (by decide))⟩

/-! ## The copy to the buffer for every capacity, `NULL` values, failing insertions -/

theorem copy_out_zero (v buf : List Nat) (hv : 0 ∈ v) (hb : buf.length ≤ SIZE_MAX) :
    copy_out (some v) (some buf) 0 = .error Fault.undefined := by
  have hs : strncpy buf v 0 = .ok buf := by
    cases buf <;> cases v <;> simp [strncpy]
  have hi : (0 + SIZE_MAX) % (SIZE_MAX + 1) = SIZE_MAX := by
    rw [Nat.zero_add]
    exact Nat.mod_eq_of_lt (Nat.lt_succ_self _)
  have hlt : ¬ SIZE_MAX < buf.length := by omega
  simp only [copy_out, chars, ok_bind, strlen_eq v hv]
  rw [if_neg (by omega), hs]
  simp only [ok_bind, hi, store_byte]
  rw [if_neg hlt]
  rfl

theorem copy_out_bounds (v buf : List Nat) (c : Nat) (hv : 0 ∈ v) (h1 : 1 ≤ c)
    (h2 : c ≤ buf.length) (h3 : c ≤ SIZE_MAX) :
    ∃ b i, copy_out (some v) (some buf) c = .ok (some b) ∧ b.length = buf.length
      ∧ b.drop c = buf.drop c ∧ i < c ∧ b[i]? = some 0 := by
  refine ⟨_, min (text v).length (c - 1), copy_out_spec v buf c hv h1 h2 h3, ?_, ?_, by omega, ?_⟩
  · simp only [List.length_append, List.length_take, List.length_cons, List.length_drop]
    omega
  · have hk : (List.take (min (text v).length (c - 1)) (text v)).length
        = min (text v).length (c - 1) := by
      rw [List.length_take]
      omega
    rw [List.drop_append_eq_append_drop, hk]
    have h4 : c - min (text v).length (c - 1) = (c - min (text v).length (c - 1) - 1) + 1 := by
      omega
    rw [List.drop_of_length_le (by rw [hk]; omega), h4, List.nil_append, List.drop_succ_cons,
      List.drop_drop]
    congr 1
    omega
  · have hk : (List.take (min (text v).length (c - 1)) (text v)).length
        = min (text v).length (c - 1) := by
      rw [List.length_take]
      omega
    rw [List.getElem?_append_right (by rw [hk]), hk]
    simp

/-- C17. The copy of `q_remove_head` to the buffer is inside the capacity `c` for
`c >= 1`: the bytes from position `c` on are not written and a terminator is at
a position below `c`.  For the capacity `0` it is not: `tmp` is `0`, and
`sp[tmp - 1]` is the byte at `SIZE_MAX`, outside every buffer of at most
`SIZE_MAX` bytes. -/
theorem q_remove_head_capacity :
    q_remove_head heap3 (some queue3) (some [1, 1, 1]) 0 = .error Fault.undefined
      ∧ (∀ (h : Heap) (q : queue_t) (a : Ptr) (e : list_ele_t) (v buf : List Nat),
          q.head = some a → h a = some e → e.value = some v → 0 ∈ v →
          buf.length ≤ SIZE_MAX →
          q_remove_head h (some q) (some buf) 0 = .error Fault.undefined)
      ∧ (∀ (h : Heap) (q : queue_t) (a : Ptr) (e : list_ele_t) (v buf : List Nat) (c : Nat),
          q.head = some a → h a = some e → e.value = some v → 0 ∈ v →
          1 ≤ c → c ≤ buf.length → c ≤ SIZE_MAX →
          ∃ r b i, q_remove_head h (some q) (some buf) c = .ok r ∧ r.ret = true
            ∧ r.sp = some b ∧ b.length = buf.length ∧ b.drop c = buf.drop c
            ∧ i < c ∧ b[i]? = some 0) := by
  refine ⟨rfl, ?_, ?_⟩
  · intro h q a e v buf hq he hv h0 hb
    simp [q_remove_head, hq, deref, he, hv, copy_out_zero v buf h0 hb]
  · intro h q a e v buf c hq he hv h0 h1 h2 h3
    obtain ⟨b, i, hcp, hlen, hdrop, hi, hz⟩ := copy_out_bounds v buf c h0 h1 h2 h3
    refine ⟨{ ret := true, heap := h.free a,
              q := some { head := e.next, tail := if q.tail = q.head then none else q.tail,
                          size := wrap_int (q.size - 1) }, sp := some b }, b, i, ?_, rfl, rfl,
      hlen, hdrop,
      hi, hz⟩
    simp only [q_remove_head, hq, deref, he, ok_bind, hv, hcp]
    rfl

/-- C18. The insertion of the `NULL` value by `q_insert_head` and `q_insert_tail`
succeeds and stores `NULL` as the value of the new element; the invariant holds
again, with `size` one more, on a queue of fewer than `INT_MAX` elements.  The
function `q_sort` is not defined on a queue with such an element: `merge` passes
the `NULL` value to `strcmp`, and the comparison of `NULL` with a value, unlike
the comparison of the empty string with it, is undefined. -/
theorem null_value_marker :
    (∀ (h : Heap) (q : queue_t) (l : List Ptr) (a : Ptr) (vr : Option (Nat → Nat)),
        QueueInv h q l → h a = none →
        (∃ h1 q1, q_insert_head h (some q) none (some a) vr = .ok (true, h1, some q1)
            ∧ QueueInvMod h1 q1 (a :: l) ∧ (q.size < INT_MAX → QueueInv h1 q1 (a :: l))
            ∧ values h1 (a :: l) = none :: values h l)
          ∧ (∃ h1 q1, q_insert_tail h (some q) none (some a) vr = .ok (true, h1, some q1)
            ∧ QueueInvMod h1 q1 (l ++ [a]) ∧ (q.size < INT_MAX → QueueInv h1 q1 (l ++ [a]))
            ∧ values h1 (l ++ [a]) = values h l ++ [none]))
      ∧ q_insert_head (Heap.empty.set 1 { value := some apple, next := none })
          (some { head := some 1, tail := some 1, size := 1 }) none (some 2) none
          = .ok (true, heap_null, some queue_null)
      ∧ (∀ fuel, ¬ ∃ r, q_sort fuel heap_null (some queue_null) = .ok r)
      ∧ q_sort 3 heap_null (some queue_null) = .error Fault.undefined
      ∧ (∀ y, compare_values none y = .error Fault.undefined)
      ∧ compare_values (some [0]) (some apple) = .ok (-97) := by
  refine ⟨?_, rfl, ?_, rfl, fun y => rfl, rfl⟩
  · intro h q l a vr hinv hf
    have hnm := not_mem_of_fresh h l _ a hinv.1 hf
    have hnil := inv_nil_iff h q l hinv
    have hmod := inv_mod h q l hinv
    refine ⟨⟨_, _, ?_, insert_head_mod h q l a none hmod hf,
      fun hb => insert_head_inv h q l a none hinv hb hf, ?_⟩, ?_⟩
    · simp [q_insert_head, malloc_ele, hf, copy_value]
    · have : values (h.set a { value := none, next := q.head }) l = values h l :=
        values_frame _ _ _ (fun x hx => Heap.set_other _ _ _ _ (fun hxa => hnm (hxa ▸ hx)))
      simp only [values, List.map_cons] at this ⊢
      rw [this]
      simp
    · by_cases hl : l = []
      · have hh := hnil.1.1 hl
        have ht := hnil.2.1.1 hl
        subst hl
        refine ⟨h.set a { value := none, next := none },
          { head := some a, tail := some a, size := wrap_int (q.size + 1) }, ?_, ?_, ?_, ?_⟩
        · simp [q_insert_tail, malloc_ele, hf, copy_value, hh]
        · have := insert_head_mod h q [] a none hmod hf
          simpa [hh, ht] using this
        · intro hb
          have := insert_head_inv h q [] a none hinv hb hf
          simpa [hh, ht] using this
        · simp [values]
      · have hne : q.tail ≠ none := fun hn => hl (hnil.2.1.2 hn)
        have hhne : q.head ≠ none := fun hn => hl (hnil.1.2 hn)
        obtain ⟨t, ht⟩ := Option.ne_none_iff_exists'.1 hne
        obtain ⟨x, hx⟩ := Option.ne_none_iff_exists'.1 hhne
        have htl : l.getLast? = some t := by rw [← hinv.2.1, ht]
        obtain ⟨et, het, _⟩ := chain_last h l _ t hinv.1 htl
        have hta : t ≠ a := by
          intro hta
          rw [hta, hf] at het
          exact absurd het (by simp)
        refine ⟨(h.set a { value := none, next := none }).set t { et with next := some a },
          { head := q.head, tail := some a, size := wrap_int (q.size + 1) }, ?_,
          insert_tail_mod h q l a t _ et hmod hf ht het,
          fun hb => insert_tail_inv h q l a t _ et hinv hb hf ht het, ?_⟩
        · have hd : deref (h.set a { value := none, next := none }) (some t) = .ok et :=
            deref_some _ _ _ (by rw [Heap.set_other _ _ _ _ hta]; exact het)
          simp [q_insert_tail, malloc_ele, hf, copy_value, hx, ht, set_next, hd]
        · have h1 : values ((h.set a { value := none, next := none }).set t
              { et with next := some a }) l = values h l := by
            apply values_congr
            intro y hy
            have hya : y ≠ a := fun hya => hnm (hya ▸ hy)
            by_cases hyt : y = t
            · subst hyt
              simp [het]
            · rw [Heap.set_other _ _ _ _ hyt, Heap.set_other _ _ _ _ hya]
          simp only [values, List.map_append, List.map_cons, List.map_nil] at h1 ⊢
          rw [h1]
          have hat : a ≠ t := fun hat => hta hat.symm
          simp [Heap.set_other _ _ _ _ hat]
  · exact q_sort_null_never

theorem copy_value_cases (s : Option (List Nat)) (vr : Option (Nat → Nat))
    (hs : ∀ sb, s = some sb → 0 ∈ sb) :
    ((s ≠ none ∧ vr = none) ∧ copy_value s vr = .ok none)
      ∨ (¬ (s ≠ none ∧ vr = none) ∧ ∃ v, copy_value s vr = .ok (some v)) := by
  cases s with
  | none => exact Or.inr ⟨by simp, none, rfl⟩
  | some sb =>
    cases vr with
    | none => exact Or.inl ⟨by simp, copy_value_fail sb (hs sb rfl)⟩
    | some f => exact Or.inr ⟨by simp, _, copy_value_ok sb (hs sb rfl) f⟩

theorem insert_tail_ok (h : Heap) (q : queue_t) (l : List Ptr) (a : Ptr)
    (s v : Option (List Nat)) (vr : Option (Nat → Nat)) (hinv : QueueInv h q l)
    (hf : h a = none) (hcv : copy_value s vr = .ok (some v)) :
    ∃ h1 q1, q_insert_tail h (some q) s (some a) vr = .ok (true, h1, some q1) := by
  have hnil := inv_nil_iff h q l hinv
  by_cases hl : l = []
  · have hh := hnil.1.1 hl
    exact ⟨h.set a { value := v, next := none },
      { head := some a, tail := some a, size := wrap_int (q.size + 1) },
      by simp [q_insert_tail, malloc_ele, hf, hcv, hh]⟩
  · have hne : q.tail ≠ none := fun hn => hl (hnil.2.1.2 hn)
    have hhne : q.head ≠ none := fun hn => hl (hnil.1.2 hn)
    obtain ⟨t, ht⟩ := Option.ne_none_iff_exists'.1 hne
    obtain ⟨x, hx⟩ := Option.ne_none_iff_exists'.1 hhne
    have htl : l.getLast? = some t := by rw [← hinv.2.1, ht]
    obtain ⟨et, het, _⟩ := chain_last h l _ t hinv.1 htl
    have hta : t ≠ a := by
      intro hta
      rw [hta, hf] at het
      exact absurd het (by simp)
    have hd : deref (h.set a { value := v, next := none }) (some t) = .ok et :=
      deref_some _ _ _ (by rw [Heap.set_other _ _ _ _ hta]; exact het)
    exact ⟨(h.set a { value := v, next := none }).set t { et with next := some a },
      { head := q.head, tail := some a, size := wrap_int (q.size + 1) },
      by simp [q_insert_tail, malloc_ele, hf, hcv, hx, ht, set_next, hd]⟩

/-- C19. The functions `q_insert_head` and `q_insert_tail` return `false` on the
`NULL` queue, when the allocation of the element fails, and when a value is
given and the allocation of its copy fails; the heap and the queue are then
exactly as before the call.  In every other case, on a queue satisfying the
invariant and for a value that is `NULL` or a C string, they return `true`. -/
theorem insert_failure_atomic (h : Heap) (s : Option (List Nat)) (er : Option Ptr)
    (vr : Option (Nat → Nat)) :
    q_insert_head h none s er vr = .ok (false, h, none)
      ∧ q_insert_tail h none s er vr = .ok (false, h, none)
      ∧ ∀ q l, QueueInv h q l → (∀ sb, s = some sb → 0 ∈ sb) → (∀ a, er = some a → h a = none) →
          (∃ b h1 q1, q_insert_head h (some q) s er vr = .ok (b, h1, q1)
              ∧ (b = false ↔ (er = none ∨ (s ≠ none ∧ vr = none)))
              ∧ (b = false → h1 = h ∧ q1 = some q))
            ∧ (∃ b h1 q1, q_insert_tail h (some q) s er vr = .ok (b, h1, q1)
              ∧ (b = false ↔ (er = none ∨ (s ≠ none ∧ vr = none)))
              ∧ (b = false → h1 = h ∧ q1 = some q)) := by
  refine ⟨rfl, rfl, ?_⟩
  intro q l hinv hs hfresh
  cases er with
  | none =>
    exact ⟨⟨false, h, some q, rfl, by simp, fun _ => ⟨rfl, rfl⟩⟩,
      ⟨false, h, some q, rfl, by simp, fun _ => ⟨rfl, rfl⟩⟩⟩
  | some a =>
    have hf := hfresh a rfl
    rcases copy_value_cases s vr hs with ⟨hc, hcv⟩ | ⟨hc, v, hcv⟩
    · refine ⟨⟨false, h, some q, ?_, by simp [hc], fun _ => ⟨rfl, rfl⟩⟩,
        ⟨false, h, some q, ?_, by simp [hc], fun _ => ⟨rfl, rfl⟩⟩⟩
      · simp [q_insert_head, malloc_ele, hf, hcv]
      · simp [q_insert_tail, malloc_ele, hf, hcv]
    · obtain ⟨h1, q1, hrun⟩ := insert_tail_ok h q l a s v vr hinv hf hcv
      refine ⟨⟨true, h.set a { value := v, next := q.head },
          some { head := some a, tail := if q.tail.isNone then some a else q.tail,
                 size := wrap_int (q.size + 1) }, ?_, by simpa using hc, fun hx => absurd hx (by simp)⟩,
        ⟨true, h1, some q1, hrun, by simpa using hc, fun hx => absurd hx (by simp)⟩⟩
      simp [q_insert_head, malloc_ele, hf, hcv]

/-- C20. On a chain of `n` elements that ends at `NULL`, with a loop bound above
`n`: when `n >= 2`, the fast/slow loop of `merge_sort` stops with `slow` at the
element of index `(n - 1) / 2`, and after `slow->next = NULL` the chain from
`head` is the first `(n + 1) / 2` elements and the chain from the old
`slow->next` the other `n / 2` elements, both end at `NULL`, both are non-empty
and shorter than `n`; and `merge_sort` never exhausts the loop bound, whatever
the values are, and returns when the values are C strings. -/
theorem merge_sort_split_terminates (h : Heap) (l : List Ptr) (p : Option Ptr) (fuel : Nat)
    (hc : Chain h p l) (hf : l.length < fuel) :
    (2 ≤ l.length → ∃ a e s se, p = some a ∧ h a = some e
        ∧ split_loop (fuel - 1) h e.next (some a) = .ok (some s)
        ∧ l[(l.length - 1) / 2]? = some s ∧ h s = some se
        ∧ Chain (h.set s { se with next := none }) (some a) (l.take ((l.length + 1) / 2))
        ∧ Chain (h.set s { se with next := none }) se.next (l.drop ((l.length + 1) / 2))
        ∧ (l.take ((l.length + 1) / 2)).length = (l.length + 1) / 2
        ∧ (l.drop ((l.length + 1) / 2)).length = l.length / 2
        ∧ 0 < l.length / 2 ∧ l.length / 2 ≤ (l.length + 1) / 2
        ∧ (l.length + 1) / 2 < l.length)
      ∧ merge_sort fuel h p ≠ .error Fault.fuel
      ∧ (l.length ≤ 1 ∨ AllStrings h l →
          ∃ h1 p1 M, merge_sort fuel h p = .ok (h1, p1) ∧ Chain h1 p1 M ∧ M.Perm l) := by
  obtain ⟨fuel, rfl⟩ : ∃ f, fuel = f + 1 := ⟨fuel - 1, by omega⟩
  refine ⟨?_, ?_, ?_⟩
  · intro hn
    have hp0 := chain_head h p l hc
    obtain ⟨a, ha⟩ : ∃ a, p = some a := by
      cases l with
      | nil => simp at hn
      | cons a l => exact ⟨a, by simpa using hp0⟩
    subst ha
    obtain ⟨e, s, se, he, hsplit, hs, hse, hcl, hcr, _⟩ :=
      merge_sort_split h l a fuel hc hn (by omega)
    refine ⟨a, e, s, se, rfl, he, hsplit, hs, hse, hcl, hcr, ?_, ?_, ?_, ?_, ?_⟩
    · rw [List.length_take]; omega
    · rw [List.length_drop]; omega
    · omega
    · omega
    · omega
  · rcases merge_sort_weak fuel l h p hc (by omega) with herr | ⟨h1, p1, M, hrun, _⟩
    · rw [herr]
      simp
    · rw [hrun]
      simp
  · intro hs
    obtain ⟨h1, p1, hrun, hch, _, _⟩ := merge_sort_spec (key_of h) fuel l h p hc
      (hs.imp id (keyed_key_of h l)) (by omega)
    exact ⟨h1, p1, _, hrun, hch, sort_list_perm _ _ _⟩

/-- Instance of C20: the chain of `"cherry"`, `"banana"`, `"apple"` is cut into
two elements and one element. -/
theorem merge_sort_split_terminates_witness :
    Chain heap3 (some 1) [1, 2, 3]
      ∧ split_loop 3 heap3 (some 2) (some 1) = .ok (some 2)
      ∧ Chain (heap3.set 2 { value := some banana, next := none }) (some 1) [1, 2]
      ∧ Chain (heap3.set 2 { value := some banana, next := none }) (some 3) [3]
      ∧ merge_sort 4 heap3 (some 1) ≠ .error Fault.fuel := by
  have hc : Chain heap3 (some 1) [1, 2, 3] := by simp [Chain, heap3]
  have hm := merge_sort_split_terminates heap3 [1, 2, 3] (some 1) 4 hc (by decide)
  obtain ⟨a, e, s, se, ha, he, hsplit, hs, hse, hcl, hcr, _⟩ := hm.1 (by decide)
  have ha1 : a = 1 := (Option.some.inj ha).symm
  subst ha1
  have hs2 : s = 2 := by
    have : ([1, 2, 3] : List Ptr)[(([1, 2, 3] : List Ptr).length - 1) / 2]? = some 2 := rfl
    rw [this] at hs
    exact (Option.some.inj hs).symm
  subst hs2
  have he1 : e = { value := some cherry, next := some 2 } := by
    have : heap3 1 = some { value := some cherry, next := some 2 } := rfl
    rw [this] at he
    exact (Option.some.inj he).symm
  have hse2 : se = { value := some banana, next := some 3 } := by
    have : heap3 2 = some { value := some banana, next := some 3 } := rfl
    rw [this] at hse
    exact (Option.some.inj hse).symm
  subst he1 hse2
  exact ⟨hc, hsplit, hcl, hcr, hm.2.1⟩

end Lab0
